import Mathlib

/-!
# Locality: the blocked two-dimensional array `UArray2b` and its clients

A shallow embedding of `src/uarray2b.c`, of the plain backend `src/a2plain.c`
and of the transformations of `src/ppmtrans.c`, and theorems about them.

* C `int` values are mathematical integers in the range `INT_MIN .. INT_MAX`;
  every `+`, `-` and `*` of the source is followed by an explicit
  two's-complement wrap (`wrapInt`), `/` and `%` truncate toward zero as in C.
* A failed `assert` (a checked run-time error) makes the function return `none`.
* The pointer returned by `UArray2b_at` is modelled by a `Slot`: the grid cell of
  the block and the index of the element inside that block.
* `malloc` and the allocations inside the array libraries are assumed to succeed.
-/

namespace Locality

/-! ## C `int` arithmetic -/

/-- Largest value of a 32-bit C `int`. -/
def INT_MAX : Int := 2147483647

/-- Smallest value of a 32-bit C `int`. -/
def INT_MIN : Int := -2147483648

/-- Two's-complement reduction of a mathematical integer to the 32-bit `int` range. -/
def wrapInt (x : Int) : Int := (x + 2147483648) % 4294967296 - 2147483648

/-- C `a + b` on `int`. -/
def int_add (a b : Int) : Int := wrapInt (a + b)

/-- C `a - b` on `int`. -/
def int_sub (a b : Int) : Int := wrapInt (a - b)

/-- C `a * b` on `int`. -/
def int_mul (a b : Int) : Int := wrapInt (a * b)

/-- C `a / b` on `int`: the quotient truncated toward zero. -/
def int_div (a b : Int) : Int := Int.tdiv a b

/-- C `a % b` on `int`: the remainder with the sign of the dividend. -/
def int_mod (a b : Int) : Int := Int.tmod a b

/-- Model of `(int) sqrt((double) n)` for `0 <= n <= 65536`: the conversion of
such an `int` to `double` is exact, IEEE-754 `sqrt` is correctly rounded, and the
conversion back to `int` truncates, so the result is the integer square root. -/
def int_sqrt (n : Int) : Int := (Nat.sqrt n.toNat : Nat)

/-- A counted loop `for (int i = 0; i < n; i++) body`, threading a state through
a body that may abort. -/
def for_loop {σ : Type} (n : Int) (body : Int → σ → Option σ) (s : σ) : Option σ :=
  (List.range n.toNat).foldlM (fun st (i : Nat) => body (i : Int) st) s

/-! ## The array libraries used by the source -/

/-- Modelled from the spec: the one-dimensional unboxed array `UArray_T` of
`uarray.h`, which is not under src/. It records the number of slots, the size of
a slot in bytes, and the content of each slot. -/
structure UArray_T (α : Type) where
  length : Int
  size : Int
  elems : Int → α

/-- Modelled from the spec: `UArray_new(length, size)` of `uarray.h`, not under
src/. It is a checked run-time error for `length` to be negative or `size` to be
non-positive; the new slots are zero-filled. -/
def UArray_new {α : Type} [Inhabited α] (length size : Int) : Option (UArray_T α) :=
  if 0 ≤ length ∧ 0 < size then some ⟨length, size, fun _ => default⟩ else none

/-- Modelled from the spec: `UArray_at(uarray, i)` of `uarray.h`, not under
src/. It is a checked run-time error for the array to be NULL or for `i` to be
out of range; the result designates slot `i`. -/
def UArray_at {α : Type} (uarray : Option (UArray_T α)) (i : Int) : Option Int :=
  match uarray with
  | none => none
  | some u => if 0 ≤ i ∧ i < u.length then some i else none

/-- Modelled from the spec: the plain two-dimensional unboxed array `UArray2_T`
of `uarray2.h`, which is not under src/. `cells col row` is the content of the
cell at `(col, row)`. -/
structure UArray2_T (β : Type) where
  width : Int
  height : Int
  size : Int
  cells : Int → Int → β

/-- Modelled from the spec: `UArray2_new(width, height, size)` of `uarray2.h`,
not under src/. Negative dimensions and a non-positive size are checked run-time
errors; the new cells are zero-filled. -/
def UArray2_new {β : Type} [Inhabited β] (width height size : Int) : Option (UArray2_T β) :=
  if 0 ≤ width ∧ 0 ≤ height ∧ 0 < size then
    some ⟨width, height, size, fun _ _ => default⟩
  else none

/-- Modelled from the spec: `UArray2_width` of `uarray2.h`, not under src/. -/
def UArray2_width {β : Type} (a : UArray2_T β) : Int := a.width

/-- Modelled from the spec: `UArray2_height` of `uarray2.h`, not under src/. -/
def UArray2_height {β : Type} (a : UArray2_T β) : Int := a.height

/-- Modelled from the spec: `UArray2_at(a, col, row)` of `uarray2.h`, not under
src/. Out-of-range coordinates are a checked run-time error; the result
designates the cell `(col, row)`. -/
def UArray2_at {β : Type} (a : UArray2_T β) (col row : Int) : Option (Int × Int) :=
  if 0 ≤ col ∧ col < a.width ∧ 0 ≤ row ∧ row < a.height then some (col, row) else none

/-- Read through a cell pointer obtained from `UArray2_at`. -/
def UArray2_get {β : Type} (a : UArray2_T β) (p : Int × Int) : β := a.cells p.1 p.2

/-- Write through a cell pointer obtained from `UArray2_at`. -/
def UArray2_put {β : Type} (a : UArray2_T β) (p : Int × Int) (v : β) : UArray2_T β :=
  { a with cells := fun c r => if c = p.1 ∧ r = p.2 then v else a.cells c r }

/-! ## `uarray2b.c` -/

/-- The `struct UArray2b_T` of the source; a NULL cell of `blocks` is `none`. -/
structure UArray2b_T (α : Type) where
  width : Int
  height : Int
  size : Int
  blocksize : Int
  blocks : UArray2_T (Option (UArray_T α))

/-- The element pointer returned by `UArray2b_at` and passed to the callback of
`UArray2b_map`: the grid cell of the block and the index inside the block. -/
structure Slot where
  block_col : Int
  block_row : Int
  index : Int
deriving DecidableEq, Repr

/-- The local `col_block` of `UArray2b_new` (and likewise `row_block`):
`(width + blocksize - 1) / blocksize`. -/
def UArray2b_new_col_block (width blocksize : Int) : Int :=
  int_div (int_sub (int_add width blocksize) 1) blocksize

/-- The nested loop of `UArray2b_new` that allocates one block per grid cell. -/
def UArray2b_new_fill {α : Type} [Inhabited α] (size blocksize col_block row_block : Int)
    (blocks : UArray2_T (Option (UArray_T α))) : Option (UArray2_T (Option (UArray_T α))) :=
  for_loop row_block (fun row g =>
    for_loop col_block (fun col g =>
      match UArray_new (int_mul blocksize blocksize) size with
      | none => none
      | some block =>
        match UArray2_at g col row with
        | none => none
        | some p => some (UArray2_put g p (some block))) g) blocks

/-- `UArray2b_new(width, height, size, blocksize)`. -/
def UArray2b_new {α : Type} [Inhabited α] (width height size blocksize : Int) :
    Option (UArray2b_T α) :=
  if ¬ (width > 0) then none
  else if ¬ (height > 0) then none
  else if ¬ (size > 0) then none
  else if ¬ (blocksize > 0) then none
  else
    let col_block := UArray2b_new_col_block width blocksize
    let row_block := UArray2b_new_col_block height blocksize
    match UArray2_new col_block row_block 8 with
    | none => none
    | some blocks0 =>
      match UArray2b_new_fill size blocksize col_block row_block blocks0 with
      | none => none
      | some blocks => some ⟨width, height, size, blocksize, blocks⟩

/-- The local `blocksize_max` of `UArray2b_new_64K_block`. -/
def UArray2b_new_64K_blocksize (size : Int) : Int :=
  let blocksize_max := int_sqrt (int_div (int_mul 64 1024) size)
  if blocksize_max < 1 then 1 else blocksize_max

/-- `UArray2b_new_64K_block(width, height, size)`. -/
def UArray2b_new_64K_block {α : Type} [Inhabited α] (width height size : Int) :
    Option (UArray2b_T α) :=
  if ¬ (width > 0) then none
  else if ¬ (height > 0) then none
  else if ¬ (size > 0) then none
  else UArray2b_new width height size (UArray2b_new_64K_blocksize size)

/-- `UArray2b_width`. -/
def UArray2b_width {α : Type} (array2b : UArray2b_T α) : Int := array2b.width

/-- `UArray2b_height`. -/
def UArray2b_height {α : Type} (array2b : UArray2b_T α) : Int := array2b.height

/-- `UArray2b_size`. -/
def UArray2b_size {α : Type} (array2b : UArray2b_T α) : Int := array2b.size

/-- `UArray2b_blocksize`. -/
def UArray2b_blocksize {α : Type} (array2b : UArray2b_T α) : Int := array2b.blocksize

/-- `UArray2b_at(uarray2b, col, row)`. -/
def UArray2b_at {α : Type} (uarray2b : UArray2b_T α) (col row : Int) : Option Slot :=
  if ¬ (col ≥ 0 ∧ col < uarray2b.width) then none
  else if ¬ (row ≥ 0 ∧ row < uarray2b.height) then none
  else
    let block_col := int_div col uarray2b.blocksize
    let block_row := int_div row uarray2b.blocksize
    let i_block_col := int_mod col uarray2b.blocksize
    let i_block_row := int_mod row uarray2b.blocksize
    match UArray2_at uarray2b.blocks block_col block_row with
    | none => none
    | some block =>
      let index := int_add (int_mul i_block_row uarray2b.blocksize) i_block_col
      match UArray_at (UArray2_get uarray2b.blocks block) index with
      | none => none
      | some i => some ⟨block.1, block.2, i⟩

/-- The active height (and likewise width) of the block at grid position `row`
in `UArray2b_map`: `blocksize`, clipped when the block sticks out of the array. -/
def UArray2b_map_clip (blocksize height row : Int) : Int :=
  if int_mul (int_add row 1) blocksize > height then int_sub height (int_mul row blocksize)
  else blocksize

/-- `UArray2b_map(uarray2b, apply, cl)`. The callback receives the coordinates,
the array, the element pointer and the closure, and returns the new closure; it
reads the traversed array but does not write to it. -/
def UArray2b_map {α σ : Type} (uarray2b : UArray2b_T α)
    (apply : Int → Int → UArray2b_T α → Slot → σ → σ) (cl : σ) : Option σ :=
  let row_block := UArray2_height uarray2b.blocks
  let col_block := UArray2_width uarray2b.blocks
  for_loop row_block (fun row cl =>
    for_loop col_block (fun col cl =>
      match UArray2_at uarray2b.blocks col row with
      | none => none
      | some block =>
        let height := UArray2b_map_clip uarray2b.blocksize uarray2b.height row
        let width := UArray2b_map_clip uarray2b.blocksize uarray2b.width col
        for_loop height (fun i cl =>
          for_loop width (fun j cl =>
            let col2 := int_add (int_mul col uarray2b.blocksize) j
            let row2 := int_add (int_mul row uarray2b.blocksize) i
            let index := int_add (int_mul i uarray2b.blocksize) j
            match UArray_at (UArray2_get uarray2b.blocks block) index with
            | none => none
            | some elem => some (apply col2 row2 uarray2b ⟨block.1, block.2, elem⟩ cl)) cl) cl) cl) cl

/-- Read of the element a pointer designates; `none` when the pointer does not
designate a slot of an allocated block. -/
def Slot_load {α : Type} (a : UArray2b_T α) (p : Slot) : Option α :=
  match a.blocks.cells p.block_col p.block_row with
  | none => none
  | some b => if 0 ≤ p.index ∧ p.index < b.length then some (b.elems p.index) else none

/-- Write of `v` to the element a pointer designates; `none` when the pointer
does not designate a slot of an allocated block. -/
def Slot_store {α : Type} (a : UArray2b_T α) (p : Slot) (v : α) : Option (UArray2b_T α) :=
  match a.blocks.cells p.block_col p.block_row with
  | none => none
  | some b =>
    if 0 ≤ p.index ∧ p.index < b.length then
      let b2 : UArray_T α := ⟨b.length, b.size, fun i => if i = p.index then v else b.elems i⟩
      some ⟨a.width, a.height, a.size, a.blocksize,
        UArray2_put a.blocks (p.block_col, p.block_row) (some b2)⟩
    else none

/-! ## Observation of a traversal, the representation invariant, client programs -/

/-- The calls `apply(col, row, uarray2b, elem, cl)` made by one `UArray2b_map`,
in order: the traversal run with a callback that appends its arguments to a log. -/
def UArray2b_map_calls {α : Type} (a : UArray2b_T α) : Option (List (Int × Int × Slot)) :=
  UArray2b_map a (fun col row _ elem log => log ++ [(col, row, elem)]) []

/-- The calls a traversal makes when no run-time check fires, as one list
expression over the four loop counters (used to reason about `UArray2b_map`). -/
def UArray2b_map_visits {α : Type} (a : UArray2b_T α) : List (Int × Int × Slot) :=
  (List.range a.blocks.height.toNat).flatMap fun (row : Nat) =>
    (List.range a.blocks.width.toNat).flatMap fun (col : Nat) =>
      (List.range (UArray2b_map_clip a.blocksize a.height row).toNat).flatMap fun (i : Nat) =>
        (List.range (UArray2b_map_clip a.blocksize a.width col).toNat).map fun (j : Nat) =>
          ((col : Int) * a.blocksize + (j : Int), (row : Int) * a.blocksize + (i : Int),
            (⟨col, row, (i : Int) * a.blocksize + (j : Int)⟩ : Slot))

/-- Number of element slots held by all blocks of the grid together. -/
def UArray2b_slots {α : Type} (a : UArray2b_T α) : Int :=
  ((List.range a.blocks.height.toNat).map fun (row : Nat) =>
    ((List.range a.blocks.width.toNat).map fun (col : Nat) =>
      match a.blocks.cells (col : Int) (row : Int) with
      | none => (0 : Int)
      | some b => b.length).sum).sum

/-- The `int` computations of `UArray2b_new` stay at or below `INT_MAX`. -/
def NoOverflow (width height blocksize : Int) : Prop :=
  width + blocksize - 1 ≤ INT_MAX ∧ height + blocksize - 1 ≤ INT_MAX ∧
    blocksize * blocksize ≤ INT_MAX

/-- The grid that `UArray2b_new` builds when every allocation goes through:
`col_block` by `row_block` cells, each holding a zero-filled block of `len` slots. -/
def UArray2b_new_blocks {α : Type} [Inhabited α] (size len col_block row_block : Int) :
    UArray2_T (Option (UArray_T α)) :=
  ⟨col_block, row_block, 8, fun c r =>
    if 0 ≤ c ∧ c < col_block ∧ 0 ≤ r ∧ r < row_block then
      some ⟨len, size, fun _ => default⟩
    else none⟩

/-- Representation invariant of a blocked array: what `UArray2b_new` establishes
when its `int` arithmetic does not overflow. Dimensions, element size and
blocksize are positive, the grid has `ceil(width / blocksize)` columns and
`ceil(height / blocksize)` rows, and every grid cell holds a block of
`blocksize * blocksize` slots. -/
structure Valid {α : Type} (a : UArray2b_T α) : Prop where
  width_pos : 0 < a.width
  height_pos : 0 < a.height
  size_pos : 0 < a.size
  blocksize_pos : 0 < a.blocksize
  no_overflow : NoOverflow a.width a.height a.blocksize
  grid_width : a.blocks.width = (a.width + a.blocksize - 1) / a.blocksize
  grid_height : a.blocks.height = (a.height + a.blocksize - 1) / a.blocksize
  block_slots : ∀ c r : Int, 0 ≤ c → c < a.blocks.width → 0 ≤ r → r < a.blocks.height →
    ∃ b, a.blocks.cells c r = some b ∧ b.length = a.blocksize * a.blocksize

/-- One operation of a client on an array handle. -/
inductive Op (α σ : Type) where
  | index (col row : Int)
  | read (col row : Int)
  | write (col row : Int) (v : α)
  | width
  | height
  | size
  | blocksize
  | traverse (apply : Int → Int → UArray2b_T α → Slot → σ → σ) (cl : σ)

/-- The array after one client operation; `none` when a run-time check fires. -/
def Op.run {α σ : Type} (a : UArray2b_T α) : Op α σ → Option (UArray2b_T α)
  | Op.index col row => (UArray2b_at a col row).map fun _ => a
  | Op.read col row => ((UArray2b_at a col row).bind (Slot_load a)).map fun _ => a
  | Op.write col row v => (UArray2b_at a col row).bind fun p => Slot_store a p v
  | Op.width => some a
  | Op.height => some a
  | Op.size => some a
  | Op.blocksize => some a
  | Op.traverse apply cl => (UArray2b_map a apply cl).map fun _ => a

/-- The array after a sequence of client operations. -/
def Op.runAll {α σ : Type} (a : UArray2b_T α) (ops : List (Op α σ)) : Option (UArray2b_T α) :=
  ops.foldlM Op.run a

/-- The grid of `UArray2b_new` when the allocation loop has filled the rows
below `row` and the cells of row `row` left of `col`. -/
def UArray2b_new_stage {α : Type} [Inhabited α] (size len col_block row_block row col : Int) :
    UArray2_T (Option (UArray_T α)) :=
  ⟨col_block, row_block, 8, fun c r =>
    if (0 ≤ c ∧ c < col_block ∧ 0 ≤ r ∧ r < row) ∨ (r = row ∧ 0 ≤ c ∧ c < col) then
      some ⟨len, size, fun _ => default⟩
    else none⟩

/-- Two arrays agree on everything but the contents of their element slots. -/
def SameShape {α : Type} (a a2 : UArray2b_T α) : Prop :=
  a2.width = a.width ∧ a2.height = a.height ∧ a2.size = a.size ∧
    a2.blocksize = a.blocksize ∧ a2.blocks.width = a.blocks.width ∧
    a2.blocks.height = a.blocks.height ∧
    ∀ c r : Int, (a2.blocks.cells c r).map (fun b => b.length)
      = (a.blocks.cells c r).map (fun b => b.length)

/-! ## Concrete arrays -/

/-- The array of `test_new_and_basic_functions`: `UArray2b_new(5, 5, 4, 2)`. -/
def test_array : UArray2b_T Nat := ⟨5, 5, 4, 2, UArray2b_new_blocks 4 4 3 3⟩

/-- The array `UArray2b_new(10000, 46342, 1, 92682)`: `92682 * 92682` wraps to
`18532`, the length of its single block. -/
def wrapped_array : UArray2b_T Nat :=
  ⟨10000, 46342, 1, 92682, UArray2b_new_blocks 1 18532 1 1⟩

/-- The array `UArray2b_new(1, 1, 1, 65536)`: `65536 * 65536` wraps to `0`, the
length of its single block. -/
def zero_slot_array : UArray2b_T Nat := ⟨1, 1, 1, 65536, UArray2b_new_blocks 1 0 1 1⟩

/-- A client program on the test array: a write, a traversal that sums the
column numbers, a read, and an accessor call. -/
def test_ops : List (Op Nat Int) :=
  [Op.write 3 4 7, Op.traverse (fun col _ _ _ cl => cl + col) 0, Op.read 0 0, Op.width]

/-- The test array after `test_ops`. -/
def test_array_after : UArray2b_T Nat := (Op.runAll test_array test_ops).getD test_array

/-! ## Order of a traversal -/

/-- The calls a traversal that completes has made, with coordinates and index
written as the loop body of `UArray2b_map` computes them in `int` arithmetic. -/
def UArray2b_map_raw {α : Type} (a : UArray2b_T α) : List (Int × Int × Slot) :=
  (List.range a.blocks.height.toNat).flatMap fun (row : Nat) =>
    (List.range a.blocks.width.toNat).flatMap fun (col : Nat) =>
      (List.range (UArray2b_map_clip a.blocksize a.height row).toNat).flatMap fun (i : Nat) =>
        (List.range (UArray2b_map_clip a.blocksize a.width col).toNat).map fun (j : Nat) =>
          (int_add (int_mul (col : Int) a.blocksize) (j : Int),
            int_add (int_mul (row : Int) a.blocksize) (i : Int),
            (⟨col, row, int_add (int_mul (i : Int) a.blocksize) (j : Int)⟩ : Slot))

/-- The block-major key of the element at `(col, row)`:
`(blockRow, blockCol, rowInBlock, colInBlock)`. -/
def block_major_key (bs col row : Int) : Int × Int × Int × Int :=
  (row / bs, col / bs, row % bs, col % bs)

/-- Strict lexicographic order on block-major keys. -/
def key_lt (k1 k2 : Int × Int × Int × Int) : Prop :=
  k1.1 < k2.1 ∨ (k1.1 = k2.1 ∧ (k1.2.1 < k2.2.1 ∨ (k1.2.1 = k2.2.1 ∧
    (k1.2.2.1 < k2.2.2.1 ∨ (k1.2.2.1 = k2.2.2.1 ∧ k1.2.2.2 < k2.2.2.2)))))

/-! ## The tests of `test_uarray2b.c` -/

/-- The filling loops of the tests: `*UArray2b_at(array, col, row) = row * width + col`
for every row and column. -/
def test_fill (width height : Int) (array2b : UArray2b_T Int) : Option (UArray2b_T Int) :=
  for_loop height (fun row a =>
    for_loop width (fun col a =>
      match UArray2b_at a col row with
      | none => none
      | some val => Slot_store a val (int_add (int_mul row width) col)) a) array2b

/-- The function `test_map_function`: a 4 by 4 array with blocksize 2 is
built, filled and traversed with `apply_function`, whose output, the
coordinates and the element value of each call, is collected in a log. -/
def test_map_function : Option (List (Int × Int × Option Int)) :=
  match (UArray2b_new 4 4 4 2 : Option (UArray2b_T Int)) with
  | none => none
  | some array2b =>
    match test_fill 4 4 array2b with
    | none => none
    | some filled =>
      UArray2b_map filled (fun col row a elem log => log ++ [(col, row, Slot_load a elem)]) []

/-- The array of `test_edge_cases`: `UArray2b_new(7, 7, 4, 3)`. -/
def edge_array : UArray2b_T Nat := ⟨7, 7, 4, 3, UArray2b_new_blocks 4 9 3 3⟩

/-! ## The method suite, the plain backend and `ppmtrans.c` -/

/-- Modelled from the spec: `UArray2_size` of `uarray2.h`, not under src/. -/
def UArray2_size {β : Type} (a : UArray2_T β) : Int := a.size

/-- Read of the cell a pointer obtained from `UArray2_at` designates; `none`
when the pointer does not designate a cell of the array. -/
def UArray2_load {β : Type} (a : UArray2_T β) (p : Int × Int) : Option β :=
  if 0 ≤ p.1 ∧ p.1 < a.width ∧ 0 ≤ p.2 ∧ p.2 < a.height then some (UArray2_get a p) else none

/-- Write to the cell a pointer obtained from `UArray2_at` designates; `none`
when the pointer does not designate a cell of the array. -/
def UArray2_store {β : Type} (a : UArray2_T β) (p : Int × Int) (v : β) : Option (UArray2_T β) :=
  if 0 ≤ p.1 ∧ p.1 < a.width ∧ 0 ≤ p.2 ∧ p.2 < a.height then some (UArray2_put a p v) else none

/-- Modelled from the spec: the entries of the method suite `A2Methods_T` of
`a2methods.h` (not under src/) that return the dimensions, the element size, the
blocksize and the element pointer of an array handle of type `A`; `at_` (the
entry `at`) is `none` on a checked run-time error. `load` and `store` read and
write the element a pointer of type `P` designates. -/
structure A2Methods_T (A P α : Type) where
  width : A → Int
  height : A → Int
  size : A → Int
  blocksize : A → Int
  at_ : A → Int → Int → Option P
  load : A → P → Option α
  store : A → P → α → Option A

/-- The function `width` of `a2plain.c`. -/
def a2plain.width {β : Type} (uarray2 : UArray2_T β) : Int := UArray2_width uarray2

/-- The function `height` of `a2plain.c`. -/
def a2plain.height {β : Type} (uarray2 : UArray2_T β) : Int := UArray2_height uarray2

/-- The function `size` of `a2plain.c`. -/
def a2plain.size {β : Type} (uarray2 : UArray2_T β) : Int := UArray2_size uarray2

/-- The function `blocksize` of `a2plain.c`. -/
def a2plain.blocksize {β : Type} (_uarray2 : UArray2_T β) : Int := 1

/-- The function `at` of `a2plain.c`. -/
def a2plain.at_ {β : Type} (uarray2 : UArray2_T β) (col row : Int) : Option (Int × Int) :=
  UArray2_at uarray2 col row

/-- The entries of `uarray2_methods_plain` of `a2plain.c` for dimensions,
element size, blocksize and indexing. -/
def uarray2_methods_plain {β : Type} : A2Methods_T (UArray2_T β) (Int × Int) β :=
  ⟨a2plain.width, a2plain.height, a2plain.size, a2plain.blocksize, a2plain.at_,
    UArray2_load, UArray2_store⟩

/-- Modelled from the spec: the image record `Pnm_ppm` of `pnm.h`, not under
src/: dimensions, maximum value, pixel array and the method suite of the array. -/
structure Pnm_ppm (A P α : Type) where
  width : Int
  height : Int
  denominator : Int
  pixels : A
  methods : A2Methods_T A P α

/-- The copy of one `struct Pnm_rgb` from `elem`, a pixel of `uarray`, to
`new_elem`, a pixel of the new image, as done with `memcpy`, by struct
assignment or field by field in the apply functions of `ppmtrans.c`. -/
def Pnm_rgb_copy {A P α : Type} (new_image : Pnm_ppm A P α) (new_elem : P) (uarray : A)
    (elem : P) : Option (Pnm_ppm A P α) :=
  match new_image.methods.load uarray elem with
  | none => none
  | some rgb =>
    match new_image.methods.store new_image.pixels new_elem rgb with
    | none => none
    | some pixels =>
      some ⟨new_image.width, new_image.height, new_image.denominator, pixels, new_image.methods⟩

/-- `apply_copy` of `ppmtrans.c`. -/
def apply_copy {A P α : Type} (col row : Int) (uarray : A) (elem : P) (cl : Pnm_ppm A P α) :
    Option (Pnm_ppm A P α) :=
  let new_image := cl
  let methods := new_image.methods
  match methods.at_ new_image.pixels col row with
  | none => none
  | some new_elem => Pnm_rgb_copy new_image new_elem uarray elem

/-- `apply_90` of `ppmtrans.c`. -/
def apply_90 {A P α : Type} (col row : Int) (uarray : A) (elem : P) (cl : Pnm_ppm A P α) :
    Option (Pnm_ppm A P α) :=
  let new_image := cl
  let methods := new_image.methods
  let original_height := methods.height uarray
  let new_col := int_sub (int_sub original_height row) 1
  let new_row := col
  match methods.at_ new_image.pixels new_col new_row with
  | none => none
  | some new_elem => Pnm_rgb_copy new_image new_elem uarray elem

/-- `apply_180` of `ppmtrans.c`. -/
def apply_180 {A P α : Type} (col row : Int) (uarray : A) (elem : P) (cl : Pnm_ppm A P α) :
    Option (Pnm_ppm A P α) :=
  let new_image := cl
  let methods := new_image.methods
  let new_col := int_sub (int_sub (methods.width new_image.pixels) col) 1
  let new_row := int_sub (int_sub (methods.height new_image.pixels) row) 1
  match methods.at_ new_image.pixels new_col new_row with
  | none => none
  | some new_elem => Pnm_rgb_copy new_image new_elem uarray elem

/-- `apply_270` of `ppmtrans.c`. -/
def apply_270 {A P α : Type} (col row : Int) (uarray : A) (elem : P) (cl : Pnm_ppm A P α) :
    Option (Pnm_ppm A P α) :=
  let new_image := cl
  let methods := new_image.methods
  let new_col := int_sub (int_sub (methods.height uarray) row) 1
  let new_row := col
  match methods.at_ new_image.pixels new_col new_row with
  | none => none
  | some new_elem => Pnm_rgb_copy new_image new_elem uarray elem

/-- One call `map(image->pixels, apply, trans_image)` of `main` in terms of the
calls it makes: `apply` is called for the entries of `visits` in order, and a
call that fails aborts. -/
def run_map {A P σ : Type} (apply : Int → Int → A → P → σ → Option σ) (uarray : A)
    (visits : List (Int × Int × P)) (cl : σ) : Option σ :=
  visits.foldlM (fun st v => apply v.1 v.2.1 uarray v.2.2 st) cl

/-- The list `visits` is a full traversal of `uarray`: each in-bounds coordinate
pair occurs exactly once, with the pointer of its element, and nothing else. -/
def FullTraversal {A P α : Type} (m : A2Methods_T A P α) (uarray : A)
    (visits : List (Int × Int × P)) : Prop :=
  (visits.map (fun v => (v.1, v.2.1))).Nodup ∧
  (∀ c r : Int, (c, r) ∈ visits.map (fun v => (v.1, v.2.1)) ↔
    (0 ≤ c ∧ c < m.width uarray) ∧ (0 ≤ r ∧ r < m.height uarray)) ∧
  ∀ v ∈ visits, m.at_ uarray v.1 v.2.1 = some v.2.2

/-- What the apply functions rely on in a method suite, for the array handles
that satisfy `ok`: `at` succeeds exactly on in-bounds coordinates and is
injective, elements can be read and written through its pointers, and a write
changes the written element only. -/
structure Lawful {A P α : Type} (m : A2Methods_T A P α) (ok : A → Prop) : Prop where
  at_some : ∀ a, ok a → ∀ c r : Int, 0 ≤ c → c < m.width a → 0 ≤ r → r < m.height a →
    ∃ p, m.at_ a c r = some p
  at_bounds : ∀ a (c r : Int) p, m.at_ a c r = some p →
    (0 ≤ c ∧ c < m.width a) ∧ (0 ≤ r ∧ r < m.height a)
  at_inj : ∀ a, ok a → ∀ (c r c2 r2 : Int) p, m.at_ a c r = some p → m.at_ a c2 r2 = some p →
    c = c2 ∧ r = r2
  load_some : ∀ a (c r : Int) p, m.at_ a c r = some p → ∃ v, m.load a p = some v
  store_some : ∀ a (c r : Int) p v, m.at_ a c r = some p → ∃ a2, m.store a p v = some a2
  store_ok : ∀ a p v a2, ok a → m.store a p v = some a2 → ok a2
  store_width : ∀ a p v a2, m.store a p v = some a2 → m.width a2 = m.width a
  store_height : ∀ a p v a2, m.store a p v = some a2 → m.height a2 = m.height a
  store_at : ∀ a p v a2, m.store a p v = some a2 → ∀ c r : Int, m.at_ a2 c r = m.at_ a c r
  load_store_same : ∀ a p v a2, m.store a p v = some a2 → m.load a2 p = some v
  load_store_other : ∀ a p v a2, m.store a p v = some a2 → ∀ q, q ≠ p →
    m.load a2 q = m.load a q

/-- The common shape of the apply functions: the pixel `elem` of `uarray` is
copied to the pixel at `dest` of the new image. -/
def copy_to {A P α : Type} (new_image : Pnm_ppm A P α) (dest : Int × Int) (uarray : A)
    (elem : P) : Option (Pnm_ppm A P α) :=
  match new_image.methods.at_ new_image.pixels dest.1 dest.2 with
  | none => none
  | some new_elem => Pnm_rgb_copy new_image new_elem uarray elem

/-- The 2 by 2 image `[[1, 2], [3, 4]]` in a plain array: row 0 holds 1, 2 and
row 1 holds 3, 4. -/
def image_2x2 : UArray2_T Nat :=
  ⟨2, 2, 12, fun c r => if r = 0 then (if c = 0 then 1 else 2) else (if c = 0 then 3 else 4)⟩

/-- A zero-filled 2 by 2 destination image on the plain backend. -/
def blank_2x2 : Pnm_ppm (UArray2_T Nat) (Int × Int) Nat :=
  ⟨2, 2, 255, ⟨2, 2, 12, fun _ _ => 0⟩, uarray2_methods_plain⟩

/-- The row-major traversal of a 2 by 2 plain array. -/
def row_major_2x2 : List (Int × Int × (Int × Int)) :=
  [(0, 0, (0, 0)), (1, 0, (1, 0)), (0, 1, (0, 1)), (1, 1, (1, 1))]

/-- The 3 wide, 2 high image `[[1, 2, 3], [4, 5, 6]]` in a plain array. -/
def image_3x2 : UArray2_T Nat := ⟨3, 2, 12, fun c r => (r * 3 + c + 1).toNat⟩

/-- A zero-filled destination image of width 2 and height 3 on the plain
backend, as `main` creates it for the rotations by 90 and 270 degrees of a 3 wide,
2 high image. -/
def blank_2x3 : Pnm_ppm (UArray2_T Nat) (Int × Int) Nat :=
  ⟨2, 3, 255, ⟨2, 3, 12, fun _ _ => 0⟩, uarray2_methods_plain⟩

/-- The row-major traversal of a 3 wide, 2 high plain array. -/
def row_major_3x2 : List (Int × Int × (Int × Int)) :=
  [(0, 0, (0, 0)), (1, 0, (1, 0)), (2, 0, (2, 0)), (0, 1, (0, 1)), (1, 1, (1, 1)), (2, 1, (2, 1))]

/-! ## The constructors, the traversals and the capability table of `a2plain.c` -/

/-- Modelled from the spec: `UArray2_map_row_major(a, apply, cl)` of `uarray2.h`,
not under src/: `apply` is called once for every cell, the column index
advancing fastest. The callback receives the coordinates, the array, the cell
pointer and the closure and returns the new closure, or `none` when it aborts. -/
def UArray2_map_row_major {β σ : Type} (a : UArray2_T β)
    (apply : Int → Int → UArray2_T β → Int × Int → σ → Option σ) (cl : σ) : Option σ :=
  for_loop a.height (fun row cl =>
    for_loop a.width (fun col cl => apply col row a (col, row) cl) cl) cl

/-- Modelled from the spec: `UArray2_map_col_major(a, apply, cl)` of `uarray2.h`,
not under src/: `apply` is called once for every cell, the row index advancing
fastest. -/
def UArray2_map_col_major {β σ : Type} (a : UArray2_T β)
    (apply : Int → Int → UArray2_T β → Int × Int → σ → Option σ) (cl : σ) : Option σ :=
  for_loop a.width (fun col cl =>
    for_loop a.height (fun row cl => apply col row a (col, row) cl) cl) cl

/-- The function `new` of `a2plain.c`. -/
def a2plain.new {β : Type} [Inhabited β] (width height size : Int) : Option (UArray2_T β) :=
  UArray2_new width height size

/-- The function `new_with_blocksize` of `a2plain.c`. -/
def a2plain.new_with_blocksize {β : Type} [Inhabited β] (width height size _blocksize : Int) :
    Option (UArray2_T β) :=
  UArray2_new width height size

/-- The function `map_row_major` of `a2plain.c`. -/
def a2plain.map_row_major {β σ : Type} (uarray2 : UArray2_T β)
    (apply : Int → Int → UArray2_T β → Int × Int → σ → Option σ) (cl : σ) : Option σ :=
  UArray2_map_row_major uarray2 apply cl

/-- The function `map_col_major` of `a2plain.c`. -/
def a2plain.map_col_major {β σ : Type} (uarray2 : UArray2_T β)
    (apply : Int → Int → UArray2_T β → Int × Int → σ → Option σ) (cl : σ) : Option σ :=
  UArray2_map_col_major uarray2 apply cl

/-- The `struct small_closure` of `a2plain.c`: the light callback and the state
behind the caller's closure pointer. -/
structure small_closure (P σ : Type) where
  apply : P → σ → Option σ
  cl : σ

/-- The function `apply_small` of `a2plain.c`. -/
def a2plain.apply_small {β σ : Type} (_i _j : Int) (_uarray2 : UArray2_T β) (elem : Int × Int)
    (vcl : small_closure (Int × Int) σ) : Option (small_closure (Int × Int) σ) :=
  let cl := vcl
  match cl.apply elem cl.cl with
  | none => none
  | some cl2 => some ⟨cl.apply, cl2⟩

/-- The function `small_map_row_major` of `a2plain.c`; the result is the state
behind the caller's closure pointer after the traversal. -/
def a2plain.small_map_row_major {β σ : Type} (a2 : UArray2_T β)
    (apply : Int × Int → σ → Option σ) (cl : σ) : Option σ :=
  let mycl : small_closure (Int × Int) σ := ⟨apply, cl⟩
  (UArray2_map_row_major a2 a2plain.apply_small mycl).map fun c => c.cl

/-- The function `small_map_col_major` of `a2plain.c`. -/
def a2plain.small_map_col_major {β σ : Type} (a2 : UArray2_T β)
    (apply : Int × Int → σ → Option σ) (cl : σ) : Option σ :=
  let mycl : small_closure (Int × Int) σ := ⟨apply, cl⟩
  (UArray2_map_col_major a2 a2plain.apply_small mycl).map fun c => c.cl

/-- Modelled from the spec: the traversal entries of the method suite
`A2Methods_T` of `a2methods.h` (not under src/), for callbacks with a closure of
type `σ`; an absent (NULL) entry is `none`. -/
structure A2Methods_maps (A P σ : Type) where
  map_row_major : Option (A → (Int → Int → A → P → σ → Option σ) → σ → Option σ)
  map_col_major : Option (A → (Int → Int → A → P → σ → Option σ) → σ → Option σ)
  map_block_major : Option (A → (Int → Int → A → P → σ → Option σ) → σ → Option σ)
  map_default : Option (A → (Int → Int → A → P → σ → Option σ) → σ → Option σ)
  small_map_row_major : Option (A → (P → σ → Option σ) → σ → Option σ)
  small_map_col_major : Option (A → (P → σ → Option σ) → σ → Option σ)
  small_map_block_major : Option (A → (P → σ → Option σ) → σ → Option σ)
  small_map_default : Option (A → (P → σ → Option σ) → σ → Option σ)

/-- The traversal entries of `uarray2_methods_plain_struct` of `a2plain.c`, in
the order of the initialiser. -/
def uarray2_methods_plain_maps {β σ : Type} : A2Methods_maps (UArray2_T β) (Int × Int) σ :=
  ⟨some a2plain.map_row_major, some a2plain.map_col_major, none, some a2plain.map_row_major,
    some a2plain.small_map_row_major, some a2plain.small_map_col_major, none,
    some a2plain.small_map_row_major⟩

/-- The 5 by 5 array of `test_a2plain.c` after its filling loop: the cell at
`(i, j)` holds `i + j`. -/
def plain_test_array : UArray2_T Int := ⟨5, 5, 4, fun i j => i + j⟩

/-! ## Allocation and release: `UArray2b_new` and `UArray2b_free` with their memory events -/

/-- An object on the heap that belongs to one blocked array: the
`struct UArray2b_T` behind the handle, the grid of blocks, and the block that the
grid cell `(col, row)` points to. -/
inductive MemObj where
  | handle
  | grid
  | block (col row : Int)
deriving DecidableEq, Repr

/-- What a function does to the heap, in program order: it allocates an object,
goes through a live object, or releases an object. -/
inductive MemEvent where
  | alloc (o : MemObj)
  | access (o : MemObj)
  | release (o : MemObj)
deriving DecidableEq, Repr

/-- The live objects after one event; `none` when an object that is not live is
used or released. -/
def mem_step (live : List MemObj) : MemEvent → Option (List MemObj)
  | MemEvent.alloc o => some (o :: live)
  | MemEvent.access o => if o ∈ live then some live else none
  | MemEvent.release o => if o ∈ live then some (live.erase o) else none

/-- The live objects after a sequence of events. -/
def mem_run (live : List MemObj) (tr : List MemEvent) : Option (List MemObj) :=
  tr.foldlM mem_step live

/-- Modelled from the spec: `UArray_free(&uarray)` of `uarray.h`, not under src/.
It is a checked run-time error for the handle to be NULL; the storage of the
array is released. -/
def UArray_free {α : Type} (uarray : Option (UArray_T α)) : Option Unit :=
  match uarray with
  | none => none
  | some _ => some ()

/-- The nested loop of `UArray2b_new` with the events of its allocations: the
state is the grid and the events so far. -/
def UArray2b_new_fill_mem {α : Type} [Inhabited α] (size blocksize col_block row_block : Int)
    (blocks : UArray2_T (Option (UArray_T α))) (tr : List MemEvent) :
    Option (UArray2_T (Option (UArray_T α)) × List MemEvent) :=
  for_loop row_block (fun row st =>
    for_loop col_block (fun col st =>
      match UArray_new (int_mul blocksize blocksize) size with
      | none => none
      | some block =>
        match UArray2_at st.1 col row with
        | none => none
        | some p => some (UArray2_put st.1 p (some block),
            st.2 ++ [MemEvent.alloc (MemObj.block p.1 p.2), MemEvent.access MemObj.grid])) st)
    (blocks, tr)

/-- `UArray2b_new(width, height, size, blocksize)` with the events of its
allocations: `malloc` of the handle, `UArray2_new` of the grid, and one
`UArray_new` per grid cell. -/
def UArray2b_new_mem {α : Type} [Inhabited α] (width height size blocksize : Int) :
    Option (UArray2b_T α × List MemEvent) :=
  if ¬ (width > 0) then none
  else if ¬ (height > 0) then none
  else if ¬ (size > 0) then none
  else if ¬ (blocksize > 0) then none
  else
    let col_block := UArray2b_new_col_block width blocksize
    let row_block := UArray2b_new_col_block height blocksize
    match UArray2_new col_block row_block 8 with
    | none => none
    | some blocks0 =>
      match UArray2b_new_fill_mem size blocksize col_block row_block blocks0
        [MemEvent.alloc MemObj.handle, MemEvent.alloc MemObj.grid] with
      | none => none
      | some st => some (⟨width, height, size, blocksize, st.1⟩, st.2)

/-- `UArray2b_free(array2b)`. The argument is the pointer to the caller's handle:
`none` is a NULL pointer and `some none` a pointer to a NULL handle. The result
is the caller's handle after the call and the events on the heap: the reads of
the grid dimensions, per grid cell the access `UArray2_at` and the release
`UArray_free`, then `UArray2_free` of the grid and `free` of the handle. -/
def UArray2b_free {α : Type} (array2b : Option (Option (UArray2b_T α))) :
    Option (Option (UArray2b_T α) × List MemEvent) :=
  match array2b with
  | none => none
  | some none => none
  | some (some a) =>
    let block_rows := UArray2_height a.blocks
    let block_cols := UArray2_width a.blocks
    match for_loop block_rows (fun row tr =>
        for_loop block_cols (fun col tr =>
          match UArray2_at a.blocks col row with
          | none => none
          | some block =>
            match UArray_free (UArray2_get a.blocks block) with
            | none => none
            | some _ => some (tr ++ [MemEvent.access MemObj.grid,
                MemEvent.release (MemObj.block block.1 block.2)])) tr)
        [MemEvent.access MemObj.grid, MemEvent.access MemObj.grid] with
    | none => none
    | some tr =>
      some (none, tr ++ [MemEvent.release MemObj.grid, MemEvent.release MemObj.handle])

/-- The cells of a grid of `col_block` by `row_block` blocks, row by row. -/
def grid_cells (col_block row_block : Int) : List (Int × Int) :=
  (List.range row_block.toNat).flatMap fun (row : Nat) =>
    (List.range col_block.toNat).map fun (col : Nat) => ((col : Int), (row : Int))

/-- The events of a `UArray2b_new` that returns, for a grid of `col_block` by
`row_block` blocks. -/
def UArray2b_new_trace (col_block row_block : Int) : List MemEvent :=
  [MemEvent.alloc MemObj.handle, MemEvent.alloc MemObj.grid] ++
    (grid_cells col_block row_block).flatMap fun p =>
      [MemEvent.alloc (MemObj.block p.1 p.2), MemEvent.access MemObj.grid]

/-- The events of a `UArray2b_free` that returns, for a grid of `col_block` by
`row_block` blocks. -/
def UArray2b_free_trace (col_block row_block : Int) : List MemEvent :=
  [MemEvent.access MemObj.grid, MemEvent.access MemObj.grid] ++
    ((grid_cells col_block row_block).flatMap fun p =>
      [MemEvent.access MemObj.grid, MemEvent.release (MemObj.block p.1 p.2)]) ++
    [MemEvent.release MemObj.grid, MemEvent.release MemObj.handle]

/-- A zero-filled destination image of width 3 and height 2 on the plain
backend, as `main` creates it for the rotations by 90 and 270 degrees of a 2 wide,
3 high image. -/
def blank_3x2 : Pnm_ppm (UArray2_T Nat) (Int × Int) Nat :=
  ⟨3, 2, 255, ⟨3, 2, 12, fun _ _ => 0⟩, uarray2_methods_plain⟩

/-- Two runs of `main` with the default traversal of the plain backend on the
3 wide, 2 high image `[[1, 2, 3], [4, 5, 6]]`: the rotation by 90 degrees, then
the rotation by 270 degrees of its result. -/
def rotate_90_then_270 : Option (Pnm_ppm (UArray2_T Nat) (Int × Int) Nat) :=
  match a2plain.map_row_major image_3x2 apply_90 blank_2x3 with
  | none => none
  | some rotated => a2plain.map_row_major rotated.pixels apply_270 blank_3x2

/-- The array `UArray2b_new(1, 3, 1, 65537)`: `65537 * 65537` wraps to `131073`,
the length of its single block. -/
def short_block_array : UArray2b_T Nat := ⟨1, 3, 1, 65537, UArray2b_new_blocks 1 131073 1 1⟩

/-! ## The new image of `main` and the comparison of transformed images -/

/-- The new image of `main` in `ppmtrans.c` on the plain backend: the array
`rotated`, created with swapped dimensions for the rotations by 90 and 270
degrees, and the fields of `trans_image`. The element size 12 stands for
`sizeof(struct Pnm_rgb)`. -/
def main_trans_image {β : Type} [Inhabited β] (rotation : Int)
    (image : Pnm_ppm (UArray2_T β) (Int × Int) β) :
    Option (Pnm_ppm (UArray2_T β) (Int × Int) β) :=
  let methods : A2Methods_T (UArray2_T β) (Int × Int) β := uarray2_methods_plain
  match (if rotation = 90 ∨ rotation = 270 then a2plain.new image.height image.width 12
    else a2plain.new image.width image.height 12) with
  | none => none
  | some rotated =>
    some ⟨methods.width rotated, methods.height rotated, image.denominator, rotated, methods⟩

/-- The call `apply(col, row, uarray, elem, cl)` with result `result` has copied
the pixel `elem` of `uarray` to the coordinate `dest` of the new image `dst`:
`dest` is in bounds for the array of `dst`, the index operation on it returns, and
so does the call. -/
def WritesTo {A P α : Type} (m : A2Methods_T A P α) (uarray : A) (elem : P)
    (dst : Pnm_ppm A P α) (result : Option (Pnm_ppm A P α)) (dest : Int × Int) : Prop :=
  result = copy_to dst dest uarray elem ∧
  (0 ≤ dest.1 ∧ dest.1 < m.width dst.pixels) ∧ (0 ≤ dest.2 ∧ dest.2 < m.height dst.pixels) ∧
  (∃ q, m.at_ dst.pixels dest.1 dest.2 = some q) ∧ ∃ d, result = some d

/-- Two images hold the same pixels: same method suite and dimensions, the same
pointer at every coordinate, and the same pixel behind every such pointer. -/
def SameImage {A P α : Type} (m : A2Methods_T A P α) (d1 d2 : Pnm_ppm A P α) : Prop :=
  d1.methods = d2.methods ∧
  m.width d1.pixels = m.width d2.pixels ∧ m.height d1.pixels = m.height d2.pixels ∧
  (∀ c r : Int, m.at_ d1.pixels c r = m.at_ d2.pixels c r) ∧
  ∀ (c r : Int) (q : P), m.at_ d1.pixels c r = some q →
    m.load d1.pixels q = m.load d2.pixels q

/-- The transformation `apply` of the image `src` into the new image `dst` does
not depend on the order of the traversal: each call copies the source pixel at
`(col, row)` to the destination `T col row`, `T` is injective on the in-bounds
source coordinates, any two full traversals of `src` complete and leave the same
image, and during a full traversal every pixel of the new image is written by
exactly one call. -/
def OrderIndependent {A P α : Type} (m : A2Methods_T A P α) (src : A) (dst : Pnm_ppm A P α)
    (apply : Int → Int → A → P → Pnm_ppm A P α → Option (Pnm_ppm A P α))
    (T : Int → Int → Int × Int) : Prop :=
  (∀ (st : Pnm_ppm A P α) (col row : Int) (elem : P), st.methods = m →
    m.width st.pixels = m.width dst.pixels → m.height st.pixels = m.height dst.pixels →
    (0 ≤ col ∧ col < m.width src) → (0 ≤ row ∧ row < m.height src) →
    apply col row src elem st = copy_to st (T col row) src elem) ∧
  (∀ c r c2 r2 : Int, (0 ≤ c ∧ c < m.width src) → (0 ≤ r ∧ r < m.height src) →
    (0 ≤ c2 ∧ c2 < m.width src) → (0 ≤ r2 ∧ r2 < m.height src) →
    T c r = T c2 r2 → c = c2 ∧ r = r2) ∧
  (∀ visits1 visits2 : List (Int × Int × P),
    FullTraversal m src visits1 → FullTraversal m src visits2 →
    ∃ d1 d2, run_map apply src visits1 dst = some d1 ∧
      run_map apply src visits2 dst = some d2 ∧ SameImage m d1 d2) ∧
  ∀ visits : List (Int × Int × P), FullTraversal m src visits →
    ∀ c r : Int, (0 ≤ c ∧ c < m.width dst.pixels) → (0 ≤ r ∧ r < m.height dst.pixels) →
      ∃ v ∈ visits, T v.1 v.2.1 = (c, r) ∧
        ∀ v2 ∈ visits, T v2.1 v2.2.1 = (c, r) → v2 = v

/-- The column-major traversal of a 3 wide, 2 high plain array. -/
def col_major_3x2 : List (Int × Int × (Int × Int)) :=
  [(0, 0, (0, 0)), (0, 1, (0, 1)), (1, 0, (1, 0)), (1, 1, (1, 1)), (2, 0, (2, 0)), (2, 1, (2, 1))]

/-- The 3 wide, 2 high image `[[1, 2, 3], [4, 5, 6]]` as an image record on the
plain backend. -/
def ppm_3x2 : Pnm_ppm (UArray2_T Nat) (Int × Int) Nat :=
  ⟨3, 2, 255, image_3x2, uarray2_methods_plain⟩

/-! ## Arithmetic and loop lemmas -/

theorem wrapInt_eq (x : Int) (h1 : INT_MIN ≤ x) (h2 : x ≤ INT_MAX) : wrapInt x = x := by
  unfold INT_MIN at h1
  unfold INT_MAX at h2
  unfold wrapInt
  omega

theorem int_add_eq (a b : Int) (h1 : INT_MIN ≤ a + b) (h2 : a + b ≤ INT_MAX) :
    int_add a b = a + b := wrapInt_eq _ h1 h2

theorem int_sub_eq (a b : Int) (h1 : INT_MIN ≤ a - b) (h2 : a - b ≤ INT_MAX) :
    int_sub a b = a - b := wrapInt_eq _ h1 h2

theorem int_mul_eq (a b : Int) (h1 : INT_MIN ≤ a * b) (h2 : a * b ≤ INT_MAX) :
    int_mul a b = a * b := wrapInt_eq _ h1 h2

theorem int_div_eq (a b : Int) (ha : 0 ≤ a) (hb : 0 ≤ b) : int_div a b = a / b :=
  Int.tdiv_eq_ediv ha hb

theorem int_mod_eq (a b : Int) (ha : 0 ≤ a) (hb : 0 ≤ b) : int_mod a b = a % b :=
  Int.tmod_eq_emod ha hb

/-- A loop whose body keeps an invariant indexed by the counter runs to the end
and establishes the invariant at the bound. -/
theorem foldlM_range_inv {σ : Type} (P : Nat → σ → Prop) (body : σ → Nat → Option σ)
    (n : Nat) (s : σ) (h0 : P 0 s)
    (hstep : ∀ i : Nat, i < n → ∀ st, P i st → ∃ st2, body st i = some st2 ∧ P (i + 1) st2) :
    ∃ s2, (List.range n).foldlM body s = some s2 ∧ P n s2 := by
  induction n with
  | zero => exact ⟨s, rfl, h0⟩
  | succ k ih =>
    obtain ⟨s1, hs1, hP1⟩ := ih (fun i hi st hst => hstep i (Nat.lt_succ_of_lt hi) st hst)
    obtain ⟨s2, hs2, hP2⟩ := hstep k (Nat.lt_succ_self k) s1 hP1
    refine ⟨s2, ?_, hP2⟩
    rw [List.range_succ, List.foldlM_append, hs1]
    simp [hs2]

theorem for_loop_inv {σ : Type} (P : Int → σ → Prop) (body : Int → σ → Option σ)
    (n : Int) (hn : 0 ≤ n) (s : σ) (h0 : P 0 s)
    (hstep : ∀ i : Int, 0 ≤ i → i < n → ∀ st, P i st →
      ∃ st2, body i st = some st2 ∧ P (i + 1) st2) :
    ∃ s2, for_loop n body s = some s2 ∧ P n s2 := by
  have key := foldlM_range_inv (fun k st => P (k : Int) st)
    (fun st (i : Nat) => body (i : Int) st) n.toNat s (by simpa using h0)
    (fun i hi st hst => by
      have hi2 : (i : Int) < n := by omega
      obtain ⟨st2, h1, h2⟩ := hstep i (by omega) hi2 st hst
      exact ⟨st2, h1, by simpa using h2⟩)
  obtain ⟨s2, h1, h2⟩ := key
  refine ⟨s2, h1, ?_⟩
  have : ((n.toNat : Nat) : Int) = n := Int.toNat_of_nonneg hn
  simpa [this] using h2

/-- A loop whose body never aborts is a left fold. -/
theorem for_loop_eq_foldl {σ : Type} (body : Int → σ → Option σ) (f : σ → Nat → σ)
    (n : Int) (s : σ) (h : ∀ i : Nat, i < n.toNat → ∀ st, body (i : Int) st = some (f st i)) :
    for_loop n body s = some ((List.range n.toNat).foldl f s) := by
  unfold for_loop
  generalize n.toNat = m at h
  induction m with
  | zero => rfl
  | succ k ih =>
    rw [List.range_succ, List.foldlM_append, ih (fun i hi st => h i (Nat.lt_succ_of_lt hi) st)]
    simp [List.foldl_append, h k (Nat.lt_succ_self k)]

theorem foldl_flatMap_eq {β γ σ : Type} (l : List β) (f : β → List γ) (g : σ → γ → σ) (s : σ) :
    (l.flatMap f).foldl g s = l.foldl (fun st x => (f x).foldl g st) s := by
  induction l generalizing s with
  | nil => rfl
  | cons x xs ih => simp [List.flatMap_cons, List.foldl_append, ih]

/-- A loop whose `i`-th iteration folds over the list `F i` folds over the
concatenation of these lists. -/
theorem for_loop_eq_foldl_flatMap {γ σ : Type} (body : Int → σ → Option σ)
    (F : Nat → List γ) (g : σ → γ → σ) (n : Int) (s : σ)
    (h : ∀ i : Nat, i < n.toNat → ∀ st, body (i : Int) st = some ((F i).foldl g st)) :
    for_loop n body s = some (((List.range n.toNat).flatMap F).foldl g s) := by
  rw [foldl_flatMap_eq]
  exact for_loop_eq_foldl body _ n s h

/-- A loop whose `i`-th iteration applies `g` to `F i` folds over the mapped range. -/
theorem for_loop_eq_foldl_map {γ σ : Type} (body : Int → σ → Option σ)
    (F : Nat → γ) (g : σ → γ → σ) (n : Int) (s : σ)
    (h : ∀ i : Nat, i < n.toNat → ∀ st, body (i : Int) st = some (g st (F i))) :
    for_loop n body s = some (((List.range n.toNat).map F).foldl g s) := by
  rw [List.foldl_map]
  exact for_loop_eq_foldl body _ n s h

/-! ## Construction -/

theorem UArray2b_new_stage_step {α : Type} [Inhabited α] (size len cb rb row col : Int)
    (hc : 0 ≤ col) :
    UArray2_put (UArray2b_new_stage size len cb rb row col) (col, row)
      (some (⟨len, size, fun _ => default⟩ : UArray_T α))
      = UArray2b_new_stage size len cb rb row (col + 1) := by
  unfold UArray2_put UArray2b_new_stage
  simp only [UArray2_T.mk.injEq, true_and]
  funext c r
  by_cases h1 : c = col ∧ r = row
  · rw [if_pos h1, if_pos]
    exact Or.inr ⟨h1.2, by omega, by omega⟩
  · rw [if_neg h1]
    by_cases h2 : (0 ≤ c ∧ c < cb ∧ 0 ≤ r ∧ r < row) ∨ (r = row ∧ 0 ≤ c ∧ c < col)
    · rw [if_pos h2, if_pos]
      rcases h2 with h2 | h2
      · exact Or.inl h2
      · exact Or.inr ⟨h2.1, h2.2.1, by omega⟩
    · rw [if_neg h2, if_neg]
      intro h3
      rcases h3 with h3 | h3
      · exact h2 (Or.inl h3)
      · have : c ≠ col := fun hcc => h1 ⟨hcc, h3.1⟩
        exact h2 (Or.inr ⟨h3.1, h3.2.1, by omega⟩)

theorem UArray2b_new_stage_row {α : Type} [Inhabited α] (size len cb rb row : Int)
    (hr : 0 ≤ row) :
    (UArray2b_new_stage size len cb rb row cb : UArray2_T (Option (UArray_T α)))
      = UArray2b_new_stage size len cb rb (row + 1) 0 := by
  unfold UArray2b_new_stage
  simp only [UArray2_T.mk.injEq, true_and]
  funext c r
  have : ((0 ≤ c ∧ c < cb ∧ 0 ≤ r ∧ r < row) ∨ (r = row ∧ 0 ≤ c ∧ c < cb)) ↔
      ((0 ≤ c ∧ c < cb ∧ 0 ≤ r ∧ r < row + 1) ∨ (r = row + 1 ∧ 0 ≤ c ∧ c < 0)) := by
    omega
  simp only [this]

theorem UArray2b_new_stage_last {α : Type} [Inhabited α] (size len cb rb : Int) :
    (UArray2b_new_stage size len cb rb rb 0 : UArray2_T (Option (UArray_T α)))
      = UArray2b_new_blocks size len cb rb := by
  unfold UArray2b_new_stage UArray2b_new_blocks
  simp only [UArray2_T.mk.injEq, true_and]
  funext c r
  have : ((0 ≤ c ∧ c < cb ∧ 0 ≤ r ∧ r < rb) ∨ (r = rb ∧ 0 ≤ c ∧ c < 0)) ↔
      (0 ≤ c ∧ c < cb ∧ 0 ≤ r ∧ r < rb) := by
    omega
  simp only [this]

theorem UArray2b_new_stage_first {α : Type} [Inhabited α] (size len cb rb : Int) :
    (⟨cb, rb, 8, fun _ _ => default⟩ : UArray2_T (Option (UArray_T α)))
      = UArray2b_new_stage size len cb rb 0 0 := by
  unfold UArray2b_new_stage
  simp only [UArray2_T.mk.injEq, true_and]
  funext c r
  rw [if_neg]
  · rfl
  · omega

/-- The allocation loop fills the whole grid when the block length is accepted. -/
theorem UArray2b_new_fill_eq {α : Type} [Inhabited α] (size bs cb rb : Int)
    (hs : 0 < size) (hcb : 0 ≤ cb) (hrb : 0 ≤ rb) (hlen : 0 ≤ int_mul bs bs) :
    UArray2b_new_fill size bs cb rb (⟨cb, rb, 8, fun _ _ => default⟩ : UArray2_T (Option (UArray_T α)))
      = some (UArray2b_new_blocks size (int_mul bs bs) cb rb) := by
  unfold UArray2b_new_fill
  obtain ⟨g, hg, hP⟩ := for_loop_inv
    (fun row g => g = (UArray2b_new_stage size (int_mul bs bs) cb rb row 0 :
      UArray2_T (Option (UArray_T α))))
    (fun row g => for_loop cb (fun col g =>
      match UArray_new (int_mul bs bs) size with
      | none => none
      | some block =>
        match UArray2_at g col row with
        | none => none
        | some p => some (UArray2_put g p (some block))) g)
    rb hrb _ (UArray2b_new_stage_first size (int_mul bs bs) cb rb)
    (fun row hr0 hr1 st hst => by
      obtain ⟨g2, hg2, hQ⟩ := for_loop_inv
        (fun col g => g = (UArray2b_new_stage size (int_mul bs bs) cb rb row col :
          UArray2_T (Option (UArray_T α))))
        (fun col g =>
          match UArray_new (int_mul bs bs) size with
          | none => none
          | some block =>
            match UArray2_at g col row with
            | none => none
            | some p => some (UArray2_put g p (some block)))
        cb hcb st hst
        (fun col hc0 hc1 st2 hst2 => by
          subst hst2
          refine ⟨UArray2b_new_stage size (int_mul bs bs) cb rb row (col + 1), ?_, rfl⟩
          have h1 : (UArray_new (int_mul bs bs) size : Option (UArray_T α))
              = some ⟨int_mul bs bs, size, fun _ => default⟩ := by
            unfold UArray_new
            rw [if_pos ⟨hlen, hs⟩]
          have h2 : UArray2_at (UArray2b_new_stage size (int_mul bs bs) cb rb row col :
              UArray2_T (Option (UArray_T α))) col row = some (col, row) := by
            unfold UArray2_at UArray2b_new_stage
            rw [if_pos ⟨hc0, hc1, hr0, hr1⟩]
          simp only [h1, h2]
          rw [UArray2b_new_stage_step size (int_mul bs bs) cb rb row col hc0])
      exact ⟨g2, hg2, by rw [hQ, UArray2b_new_stage_row _ _ _ _ _ hr0]⟩)
  rw [hg, hP, UArray2b_new_stage_last]

/-- Closed form of `UArray2b_new` whenever the grid dimensions and the block
length it computes are accepted by the array libraries. -/
theorem UArray2b_new_eq {α : Type} [Inhabited α] (w h s bs : Int)
    (hw : 0 < w) (hh : 0 < h) (hs : 0 < s) (hb : 0 < bs)
    (hcb : 0 ≤ UArray2b_new_col_block w bs) (hrb : 0 ≤ UArray2b_new_col_block h bs)
    (hlen : 0 ≤ int_mul bs bs) :
    (UArray2b_new w h s bs : Option (UArray2b_T α)) =
      some ⟨w, h, s, bs, UArray2b_new_blocks s (int_mul bs bs)
        (UArray2b_new_col_block w bs) (UArray2b_new_col_block h bs)⟩ := by
  unfold UArray2b_new
  rw [if_neg (not_not.mpr hw), if_neg (not_not.mpr hh), if_neg (not_not.mpr hs),
    if_neg (not_not.mpr hb)]
  have h1 : (UArray2_new (UArray2b_new_col_block w bs) (UArray2b_new_col_block h bs) 8 :
      Option (UArray2_T (Option (UArray_T α))))
      = some ⟨UArray2b_new_col_block w bs, UArray2b_new_col_block h bs, 8, fun _ _ => default⟩ := by
    unfold UArray2_new
    rw [if_pos ⟨hcb, hrb, by decide⟩]
  simp only [h1, UArray2b_new_fill_eq s bs _ _ hs hcb hrb hlen]

/-- Without overflow the grid width is the mathematical quotient. -/
theorem UArray2b_new_col_block_eq (w bs : Int) (hw : 0 < w) (hb : 0 < bs)
    (h : w + bs - 1 ≤ INT_MAX) : UArray2b_new_col_block w bs = (w + bs - 1) / bs := by
  unfold UArray2b_new_col_block
  have hmin : INT_MIN = -2147483648 := rfl
  have hmax : INT_MAX = 2147483647 := rfl
  have e : int_sub (int_add w bs) 1 = w + bs - 1 := by
    unfold int_sub int_add wrapInt
    omega
  rw [e, int_div_eq _ _ (by omega) (by omega)]

/-- The quotient `(w + bs - 1) / bs` is the least `q` with `w <= q * bs`. -/
theorem ceil_div_spec (w bs : Int) (hb : 0 < bs) :
    w ≤ (w + bs - 1) / bs * bs ∧ (w + bs - 1) / bs * bs < w + bs := by
  have h1 := Int.ediv_mul_le (w + bs - 1) (Int.ne_of_gt hb)
  have h2 := Int.lt_ediv_add_one_mul_self (w + bs - 1) hb
  constructor
  · nlinarith
  · omega

theorem ceil_div_pos (w bs : Int) (hw : 0 < w) (hb : 0 < bs) : 0 < (w + bs - 1) / bs := by
  have h := (ceil_div_spec w bs hb).1
  by_contra hne
  have : (w + bs - 1) / bs ≤ 0 := by omega
  nlinarith

/-- The array `UArray2b_new` returns when nothing overflows. -/
theorem UArray2b_new_ok {α : Type} [Inhabited α] (w h s bs : Int)
    (hw : 0 < w) (hh : 0 < h) (hs : 0 < s) (hb : 0 < bs) (hno : NoOverflow w h bs) :
    (UArray2b_new w h s bs : Option (UArray2b_T α)) =
      some ⟨w, h, s, bs, UArray2b_new_blocks s (bs * bs)
        ((w + bs - 1) / bs) ((h + bs - 1) / bs)⟩ := by
  obtain ⟨h1, h2, h3⟩ := hno
  have hmin : INT_MIN = -2147483648 := rfl
  have hmax : INT_MAX = 2147483647 := rfl
  have e1 := UArray2b_new_col_block_eq w bs hw hb h1
  have e2 := UArray2b_new_col_block_eq h bs hh hb h2
  have e3 : int_mul bs bs = bs * bs := int_mul_eq bs bs (by nlinarith) h3
  have p1 := ceil_div_pos w bs hw hb
  have p2 := ceil_div_pos h bs hh hb
  rw [UArray2b_new_eq w h s bs hw hh hs hb (by omega) (by omega) (by rw [e3]; nlinarith),
    e1, e2, e3]

/-- The array `UArray2b_new` returns when nothing overflows satisfies the invariant. -/
theorem UArray2b_new_valid {α : Type} [Inhabited α] (w h s bs : Int)
    (hw : 0 < w) (hh : 0 < h) (hs : 0 < s) (hb : 0 < bs) (hno : NoOverflow w h bs)
    (a : UArray2b_T α) (ha : UArray2b_new w h s bs = some a) : Valid a := by
  rw [UArray2b_new_ok w h s bs hw hh hs hb hno] at ha
  cases ha
  refine ⟨hw, hh, hs, hb, hno, rfl, rfl, ?_⟩
  intro c r hc0 hc1 hr0 hr1
  refine ⟨⟨bs * bs, s, fun _ => default⟩, ?_, rfl⟩
  show (UArray2b_new_blocks s (bs * bs) ((w + bs - 1) / bs) ((h + bs - 1) / bs)).cells c r = _
  unfold UArray2b_new_blocks
  exact if_pos ⟨hc0, hc1, hr0, hr1⟩

/-! ## Indexing -/

/-- In-block offsets stay below `blocksize * blocksize`. -/
theorem offset_lt (bs i j : Int) (hi0 : 0 ≤ i) (hi : i < bs) (hj0 : 0 ≤ j) (hj : j < bs) :
    0 ≤ i * bs + j ∧ i * bs + j < bs * bs := by
  constructor
  · nlinarith
  · nlinarith

/-- On an array satisfying the invariant, `UArray2b_at` succeeds on every
in-bounds coordinate and returns the block and offset of the mathematical
quotients and remainders. -/
theorem UArray2b_at_valid {α : Type} (a : UArray2b_T α) (hv : Valid a) (col row : Int)
    (hc0 : 0 ≤ col) (hc1 : col < a.width) (hr0 : 0 ≤ row) (hr1 : row < a.height) :
    UArray2b_at a col row =
      some ⟨col / a.blocksize, row / a.blocksize,
        row % a.blocksize * a.blocksize + col % a.blocksize⟩ := by
  have hb := hv.blocksize_pos
  obtain ⟨-, -, hsq⟩ := hv.no_overflow
  have hmin : INT_MIN = -2147483648 := rfl
  have hmax : INT_MAX = 2147483647 := rfl
  have hbc0 : 0 ≤ col / a.blocksize := Int.ediv_nonneg hc0 (le_of_lt hb)
  have hbr0 : 0 ≤ row / a.blocksize := Int.ediv_nonneg hr0 (le_of_lt hb)
  have hbc1 : col / a.blocksize < a.blocks.width := by
    rw [hv.grid_width]
    exact Int.ediv_lt_of_lt_mul hb (lt_of_lt_of_le hc1 (ceil_div_spec a.width a.blocksize hb).1)
  have hbr1 : row / a.blocksize < a.blocks.height := by
    rw [hv.grid_height]
    exact Int.ediv_lt_of_lt_mul hb (lt_of_lt_of_le hr1 (ceil_div_spec a.height a.blocksize hb).1)
  have hi0 : 0 ≤ row % a.blocksize := Int.emod_nonneg _ (Int.ne_of_gt hb)
  have hi1 : row % a.blocksize < a.blocksize := Int.emod_lt_of_pos _ hb
  have hj0 : 0 ≤ col % a.blocksize := Int.emod_nonneg _ (Int.ne_of_gt hb)
  have hj1 : col % a.blocksize < a.blocksize := Int.emod_lt_of_pos _ hb
  have hoff := offset_lt a.blocksize _ _ hi0 hi1 hj0 hj1
  have hmul : 0 ≤ row % a.blocksize * a.blocksize ∧
      row % a.blocksize * a.blocksize < a.blocksize * a.blocksize := by
    constructor
    · nlinarith
    · nlinarith
  obtain ⟨b, hcell, hlen⟩ := hv.block_slots _ _ hbc0 hbc1 hbr0 hbr1
  unfold UArray2b_at
  rw [if_neg (not_not.mpr ⟨hc0, hc1⟩), if_neg (not_not.mpr ⟨hr0, hr1⟩)]
  simp only [int_div_eq col _ hc0 (le_of_lt hb), int_div_eq row _ hr0 (le_of_lt hb),
    int_mod_eq col _ hc0 (le_of_lt hb), int_mod_eq row _ hr0 (le_of_lt hb)]
  have e1 : UArray2_at a.blocks (col / a.blocksize) (row / a.blocksize)
      = some (col / a.blocksize, row / a.blocksize) := by
    unfold UArray2_at
    rw [if_pos ⟨hbc0, hbc1, hbr0, hbr1⟩]
  have e2 : int_add (int_mul (row % a.blocksize) a.blocksize) (col % a.blocksize)
      = row % a.blocksize * a.blocksize + col % a.blocksize := by
    rw [int_mul_eq _ _ (by omega) (by omega), int_add_eq _ _ (by omega) (by omega)]
  have e3 : UArray_at (UArray2_get a.blocks (col / a.blocksize, row / a.blocksize))
      (row % a.blocksize * a.blocksize + col % a.blocksize)
      = some (row % a.blocksize * a.blocksize + col % a.blocksize) := by
    unfold UArray2_get
    simp only [hcell]
    unfold UArray_at
    simp only []
    rw [if_pos ⟨hoff.1, by rw [hlen]; exact hoff.2⟩]
  simp only [e1, e2, e3]

theorem offset_inj (bs i j i2 j2 : Int) (hj0 : 0 ≤ j) (hj : j < bs)
    (hk0 : 0 ≤ j2) (hk : j2 < bs) (h : i * bs + j = i2 * bs + j2) : i = i2 ∧ j = j2 := by
  have hi : i = i2 := by
    rcases lt_trichotomy i i2 with hlt | heq | hgt
    · exfalso
      have : (i + 1) * bs ≤ i2 * bs := by nlinarith
      nlinarith
    · exact heq
    · exfalso
      have : (i2 + 1) * bs ≤ i * bs := by nlinarith
      nlinarith
  subst hi
  exact ⟨rfl, by omega⟩

/-- Quotient and remainder determine a non-negative coordinate. -/
theorem div_mod_inj (bs x y : Int) (h1 : x / bs = y / bs)
    (h2 : x % bs = y % bs) : x = y := by
  have e1 := Int.emod_add_ediv x bs
  have e2 := Int.emod_add_ediv y bs
  rw [h1, h2] at e1
  omega

/-- What a successful `UArray2b_at` has checked and computed. -/
theorem UArray2b_at_some {α : Type} (a : UArray2b_T α) (col row : Int) (p : Slot)
    (h : UArray2b_at a col row = some p) :
    (0 ≤ col ∧ col < a.width) ∧ (0 ≤ row ∧ row < a.height) ∧
    p.block_col = int_div col a.blocksize ∧ p.block_row = int_div row a.blocksize ∧
    p.index = int_add (int_mul (int_mod row a.blocksize) a.blocksize) (int_mod col a.blocksize) ∧
    (0 ≤ p.block_col ∧ p.block_col < a.blocks.width) ∧
    (0 ≤ p.block_row ∧ p.block_row < a.blocks.height) ∧
    ∃ b, a.blocks.cells p.block_col p.block_row = some b ∧ 0 ≤ p.index ∧ p.index < b.length := by
  unfold UArray2b_at at h
  by_cases hc : col ≥ 0 ∧ col < a.width
  · by_cases hr : row ≥ 0 ∧ row < a.height
    · rw [if_neg (not_not.mpr hc), if_neg (not_not.mpr hr)] at h
      simp only [] at h
      by_cases hg : 0 ≤ int_div col a.blocksize ∧ int_div col a.blocksize < a.blocks.width ∧
          0 ≤ int_div row a.blocksize ∧ int_div row a.blocksize < a.blocks.height
      · have e1 : UArray2_at a.blocks (int_div col a.blocksize) (int_div row a.blocksize)
            = some (int_div col a.blocksize, int_div row a.blocksize) := by
          unfold UArray2_at
          rw [if_pos hg]
        rw [e1] at h
        simp only [UArray2_get] at h
        cases hcell : a.blocks.cells (int_div col a.blocksize) (int_div row a.blocksize) with
        | none =>
          rw [hcell] at h
          simp [UArray_at] at h
        | some b =>
          rw [hcell] at h
          simp only [UArray_at] at h
          by_cases hi : 0 ≤ int_add (int_mul (int_mod row a.blocksize) a.blocksize)
              (int_mod col a.blocksize) ∧
              int_add (int_mul (int_mod row a.blocksize) a.blocksize)
                (int_mod col a.blocksize) < b.length
          · rw [if_pos hi] at h
            simp only [Option.some.injEq] at h
            subst h
            exact ⟨⟨hc.1, hc.2⟩, ⟨hr.1, hr.2⟩, rfl, rfl, rfl, ⟨hg.1, hg.2.1⟩,
              ⟨hg.2.2.1, hg.2.2.2⟩, b, hcell, hi.1, hi.2⟩
          · rw [if_neg hi] at h
            simp at h
      · have e1 : UArray2_at a.blocks (int_div col a.blocksize) (int_div row a.blocksize)
            = none := by
          unfold UArray2_at
          rw [if_neg hg]
        rw [e1] at h
        simp at h
    · rw [if_neg (not_not.mpr hc), if_pos hr] at h
      simp at h
  · rw [if_pos hc] at h
    simp at h

/-- `UArray2b_at` reads the header and the shape of the grid only. -/
theorem UArray2b_at_shape {α : Type} (a a2 : UArray2b_T α) (hs : SameShape a a2)
    (col row : Int) : UArray2b_at a2 col row = UArray2b_at a col row := by
  obtain ⟨h1, h2, -, h4, h5, h6, h7⟩ := hs
  unfold UArray2b_at UArray2_at UArray2_get
  rw [h1, h2, h4, h5, h6]
  by_cases hc : col ≥ 0 ∧ col < a.width
  · by_cases hr : row ≥ 0 ∧ row < a.height
    · rw [if_neg (not_not.mpr hc), if_neg (not_not.mpr hr), if_neg (not_not.mpr hc),
        if_neg (not_not.mpr hr)]
      simp only []
      by_cases hg : 0 ≤ int_div col a.blocksize ∧ int_div col a.blocksize < a.blocks.width ∧
          0 ≤ int_div row a.blocksize ∧ int_div row a.blocksize < a.blocks.height
      · rw [if_pos hg]
        simp only []
        have h8 := h7 (int_div col a.blocksize) (int_div row a.blocksize)
        cases hx : a2.blocks.cells (int_div col a.blocksize) (int_div row a.blocksize) with
        | none =>
          cases hy : a.blocks.cells (int_div col a.blocksize) (int_div row a.blocksize) with
          | none => rfl
          | some b => rw [hx, hy] at h8; simp at h8
        | some b2 =>
          cases hy : a.blocks.cells (int_div col a.blocksize) (int_div row a.blocksize) with
          | none => rw [hx, hy] at h8; simp at h8
          | some b =>
            rw [hx, hy] at h8
            simp only [Option.map_some', Option.some.injEq] at h8
            simp only [UArray_at, h8]
      · rw [if_neg hg]
    · rw [if_neg (not_not.mpr hc), if_pos hr, if_neg (not_not.mpr hc), if_pos hr]
  · rw [if_pos hc, if_pos hc]

theorem SameShape.refl {α : Type} (a : UArray2b_T α) : SameShape a a :=
  ⟨rfl, rfl, rfl, rfl, rfl, rfl, fun _ _ => rfl⟩

theorem SameShape.trans {α : Type} {a b c : UArray2b_T α} (h1 : SameShape a b)
    (h2 : SameShape b c) : SameShape a c := by
  obtain ⟨p1, p2, p3, p4, p5, p6, p7⟩ := h1
  obtain ⟨q1, q2, q3, q4, q5, q6, q7⟩ := h2
  exact ⟨q1.trans p1, q2.trans p2, q3.trans p3, q4.trans p4, q5.trans p5, q6.trans p6,
    fun c r => (q7 c r).trans (p7 c r)⟩

/-- A write through an element pointer changes the contents only. -/
theorem Slot_store_shape {α : Type} (a a2 : UArray2b_T α) (p : Slot) (v : α)
    (h : Slot_store a p v = some a2) : SameShape a a2 := by
  unfold Slot_store at h
  cases hcell : a.blocks.cells p.block_col p.block_row with
  | none => rw [hcell] at h; simp at h
  | some b =>
    rw [hcell] at h
    simp only [] at h
    by_cases hi : 0 ≤ p.index ∧ p.index < b.length
    · rw [if_pos hi] at h
      simp only [Option.some.injEq] at h
      subst h
      refine ⟨rfl, rfl, rfl, rfl, rfl, rfl, ?_⟩
      intro c r
      simp only [UArray2_put]
      by_cases hcr : c = p.block_col ∧ r = p.block_row
      · rw [if_pos hcr, hcr.1, hcr.2, hcell]
        rfl
      · rw [if_neg hcr]
    · rw [if_neg hi] at h
      simp at h

/-- A write through a pointer obtained from `UArray2b_at` succeeds, and the
value is read back through the same pointer. -/
theorem Slot_store_load {α : Type} (a : UArray2b_T α) (col row : Int) (p : Slot) (v : α)
    (h : UArray2b_at a col row = some p) :
    ∃ a2, Slot_store a p v = some a2 ∧ Slot_load a2 p = some v := by
  obtain ⟨-, -, -, -, -, -, -, b, hcell, hi0, hi1⟩ := UArray2b_at_some a col row p h
  have hst : Slot_store a p v = some ⟨a.width, a.height, a.size, a.blocksize,
      UArray2_put a.blocks (p.block_col, p.block_row)
        (some ⟨b.length, b.size, fun i => if i = p.index then v else b.elems i⟩)⟩ := by
    unfold Slot_store
    rw [hcell]
    simp only []
    rw [if_pos ⟨hi0, hi1⟩]
  refine ⟨_, hst, ?_⟩
  unfold Slot_load
  simp only [UArray2_put, and_self, if_true]
  rw [if_pos ⟨hi0, hi1⟩]

/-! ## Traversal -/

/-- Without overflow the clipping of `UArray2b_map` yields the number of
rows (columns) of the block that lie inside the array. -/
theorem UArray2b_map_clip_eq (bs h row : Int) (hb : 0 < bs)
    (hno : h + bs - 1 ≤ INT_MAX) (hr0 : 0 ≤ row) (hr1 : row < (h + bs - 1) / bs) :
    UArray2b_map_clip bs h row = min bs (h - row * bs) ∧ 0 < h - row * bs := by
  have hmin : INT_MIN = -2147483648 := rfl
  have hmax : INT_MAX = 2147483647 := rfl
  have hq1 := Int.ediv_mul_le (h + bs - 1) (Int.ne_of_gt hb)
  have hq2 := (ceil_div_spec h bs hb).2
  have hle : (row + 1) * bs ≤ (h + bs - 1) / bs * bs := by nlinarith
  have hrow : 0 ≤ row * bs := by nlinarith
  have hrow2 : row * bs < h := by nlinarith
  have hrow3 : row * bs ≤ (row + 1) * bs := by nlinarith
  have hrmax : row ≤ INT_MAX := by nlinarith
  have e1 : int_add row 1 = row + 1 := by
    apply int_add_eq
    · omega
    · nlinarith
  have e2 : int_mul (row + 1) bs = (row + 1) * bs := int_mul_eq _ _ (by omega) (by omega)
  have e3 : int_mul row bs = row * bs := int_mul_eq _ _ (by omega) (by omega)
  have e4 : int_sub h (row * bs) = h - row * bs := int_sub_eq _ _ (by omega) (by omega)
  refine ⟨?_, by omega⟩
  unfold UArray2b_map_clip
  rw [e1, e2, e3, e4]
  by_cases hc : (row + 1) * bs > h
  · rw [if_pos hc, min_eq_right]
    nlinarith
  · rw [if_neg hc, min_eq_left]
    nlinarith


/-- Bounds on the coordinates and the offset computed in the innermost loop. -/
theorem map_body_bounds (bs w col j : Int) (hb : 0 < bs) (hno : w + bs - 1 ≤ INT_MAX)
    (hc0 : 0 ≤ col) (hj0 : 0 ≤ j) (hj1 : j < bs) (hj2 : j < w - col * bs) :
    int_add (int_mul col bs) j = col * bs + j ∧ 0 ≤ col * bs + j ∧ col * bs + j < w := by
  have hmin : INT_MIN = -2147483648 := rfl
  have hmax : INT_MAX = 2147483647 := rfl
  have h1 : 0 ≤ col * bs := Int.mul_nonneg hc0 (le_of_lt hb)
  have e1 : int_mul col bs = col * bs := int_mul_eq _ _ (by omega) (by omega)
  have e2 : int_add (col * bs) j = col * bs + j := int_add_eq _ _ (by omega) (by omega)
  rw [e1, e2]
  omega

theorem map_body_offset (bs i j : Int) (hsq : bs * bs ≤ INT_MAX)
    (hi0 : 0 ≤ i) (hi1 : i < bs) (hj0 : 0 ≤ j) (hj1 : j < bs) :
    int_add (int_mul i bs) j = i * bs + j := by
  have hmin : INT_MIN = -2147483648 := rfl
  have hmax : INT_MAX = 2147483647 := rfl
  have hoff := offset_lt bs i j hi0 hi1 hj0 hj1
  have h1 : 0 ≤ i * bs := Int.mul_nonneg hi0 (by omega)
  have e1 : int_mul i bs = i * bs := int_mul_eq _ _ (by omega) (by omega)
  have e2 : int_add (i * bs) j = i * bs + j := int_add_eq _ _ (by omega) (by omega)
  rw [e1, e2]


/-- On an array satisfying the invariant no run-time check fires during a
traversal, and the callback is applied along `UArray2b_map_visits`. -/
theorem UArray2b_map_valid {α σ : Type} (a : UArray2b_T α) (hv : Valid a)
    (apply : Int → Int → UArray2b_T α → Slot → σ → σ) (cl : σ) :
    UArray2b_map a apply cl =
      some ((UArray2b_map_visits a).foldl (fun st v => apply v.1 v.2.1 a v.2.2 st) cl) := by
  have hb := hv.blocksize_pos
  obtain ⟨hnw, hnh, hsq⟩ := hv.no_overflow
  unfold UArray2b_map UArray2b_map_visits
  simp only [UArray2_height, UArray2_width]
  refine for_loop_eq_foldl_flatMap _ _ _ _ _ ?_
  intro row hrow st
  refine for_loop_eq_foldl_flatMap _ _ _ _ _ ?_
  intro col hcol st
  have hrow1 : (row : Int) < a.blocks.height := Int.lt_toNat.mp hrow
  have hcol1 : (col : Int) < a.blocks.width := Int.lt_toNat.mp hcol
  have hrow0 : (0 : Int) ≤ (row : Int) := Int.ofNat_nonneg row
  have hcol0 : (0 : Int) ≤ (col : Int) := Int.ofNat_nonneg col
  have e1 : UArray2_at a.blocks (col : Int) (row : Int) = some ((col : Int), (row : Int)) := by
    unfold UArray2_at
    rw [if_pos ⟨hcol0, hcol1, hrow0, hrow1⟩]
  simp only [e1]
  obtain ⟨b, hcell, hlen⟩ := hv.block_slots col row hcol0 hcol1 hrow0 hrow1
  obtain ⟨ch, -⟩ := UArray2b_map_clip_eq a.blocksize a.height row hb hnh hrow0
    (by rw [← hv.grid_height]; exact hrow1)
  obtain ⟨cw, -⟩ := UArray2b_map_clip_eq a.blocksize a.width col hb hnw hcol0
    (by rw [← hv.grid_width]; exact hcol1)
  refine for_loop_eq_foldl_flatMap _ _ _ _ _ ?_
  intro i hi st
  refine for_loop_eq_foldl_map _ _ _ _ _ ?_
  intro j hj st
  rw [ch] at hi
  rw [cw] at hj
  have hi0 : (0 : Int) ≤ (i : Int) := Int.ofNat_nonneg i
  have hj0 : (0 : Int) ≤ (j : Int) := Int.ofNat_nonneg j
  have hi1 : (i : Int) < min a.blocksize (a.height - row * a.blocksize) := Int.lt_toNat.mp hi
  have hj1 : (j : Int) < min a.blocksize (a.width - col * a.blocksize) := Int.lt_toNat.mp hj
  have hi2 : (i : Int) < a.blocksize := lt_of_lt_of_le hi1 (min_le_left _ _)
  have hi3 : (i : Int) < a.height - row * a.blocksize := lt_of_lt_of_le hi1 (min_le_right _ _)
  have hj2 : (j : Int) < a.blocksize := lt_of_lt_of_le hj1 (min_le_left _ _)
  have hj3 : (j : Int) < a.width - col * a.blocksize := lt_of_lt_of_le hj1 (min_le_right _ _)
  have hoff := offset_lt a.blocksize i j hi0 hi2 hj0 hj2
  have e2 := (map_body_bounds a.blocksize a.width col j hb hnw hcol0 hj0 hj2 hj3).1
  have e3 := (map_body_bounds a.blocksize a.height row i hb hnh hrow0 hi0 hi2 hi3).1
  have e4 := map_body_offset a.blocksize i j hsq hi0 hi2 hj0 hj2
  have e5 : UArray_at (UArray2_get a.blocks ((col : Int), (row : Int)))
      ((i : Int) * a.blocksize + j) = some ((i : Int) * a.blocksize + j) := by
    unfold UArray2_get
    simp only [hcell]
    unfold UArray_at
    simp only []
    rw [if_pos ⟨hoff.1, by rw [hlen]; exact hoff.2⟩]
  rw [e2, e3, e4, e5]

theorem foldl_log {γ : Type} (l init : List γ) :
    l.foldl (fun log x => log ++ [x]) init = init ++ l := by
  induction l generalizing init with
  | nil => simp
  | cons x xs ih => simp [ih]

/-- On an array satisfying the invariant the log of a traversal is
`UArray2b_map_visits`. -/
theorem UArray2b_map_calls_valid {α : Type} (a : UArray2b_T α) (hv : Valid a) :
    UArray2b_map_calls a = some (UArray2b_map_visits a) := by
  unfold UArray2b_map_calls
  rw [UArray2b_map_valid a hv]
  have h := foldl_log (UArray2b_map_visits a) []
  simp only [List.nil_append] at h
  exact congrArg some h

/-- Lists produced for different loop counters are told apart by a key, so
their concatenation has no duplicates. -/
theorem nodup_flatMap_range {γ : Type} (n : Nat) (F : Nat → List γ) (key : γ → Int)
    (hk : ∀ i : Nat, i < n → ∀ x ∈ F i, key x = (i : Int))
    (hn : ∀ i : Nat, i < n → (F i).Nodup) : ((List.range n).flatMap F).Nodup := by
  rw [List.nodup_flatMap]
  refine ⟨fun i hi => hn i (List.mem_range.mp hi), ?_⟩
  refine (List.nodup_range n).pairwise_of_forall_ne ?_
  intro i hi k hk2 hne x hx1 hx2
  have e1 := hk i (List.mem_range.mp hi) x hx1
  have e2 := hk k (List.mem_range.mp hk2) x hx2
  apply hne
  omega

/-- No callback invocation is repeated. -/
theorem UArray2b_map_visits_nodup {α : Type} (a : UArray2b_T α) :
    (UArray2b_map_visits a).Nodup := by
  unfold UArray2b_map_visits
  refine nodup_flatMap_range _ _ (fun v => v.2.2.block_row) ?_ ?_
  · intro row _ x hx
    simp only [List.mem_flatMap, List.mem_map] at hx
    obtain ⟨col, _, i, _, j, _, rfl⟩ := hx
    rfl
  · intro row _
    refine nodup_flatMap_range _ _ (fun v => v.2.2.block_col) ?_ ?_
    · intro col _ x hx
      simp only [List.mem_flatMap, List.mem_map] at hx
      obtain ⟨i, _, j, _, rfl⟩ := hx
      rfl
    · intro col _
      refine nodup_flatMap_range _ _ (fun v => v.2.1 - (row : Int) * a.blocksize) ?_ ?_
      · intro i _ x hx
        simp only [List.mem_map] at hx
        obtain ⟨j, _, rfl⟩ := hx
        simp
      · intro i _
        refine List.Nodup.map_on ?_ (List.nodup_range _)
        intro x _ y _ hxy
        simp only [Prod.mk.injEq, add_right_inj, Nat.cast_inj] at hxy
        exact hxy.1

theorem div_mod_of_decomp (bs q r : Int) (hr0 : 0 ≤ r) (hr : r < bs) :
    (q * bs + r) / bs = q ∧ (q * bs + r) % bs = r := by
  have hb : 0 < bs := by omega
  exact (Int.ediv_emod_unique hb).mpr ⟨by ring, hr0, hr⟩

theorem mem_visits {α : Type} (a : UArray2b_T α) (v : Int × Int × Slot) :
    v ∈ UArray2b_map_visits a ↔
      ∃ row : Nat, row < a.blocks.height.toNat ∧ ∃ col : Nat, col < a.blocks.width.toNat ∧
      ∃ i : Nat, i < (UArray2b_map_clip a.blocksize a.height row).toNat ∧
      ∃ j : Nat, j < (UArray2b_map_clip a.blocksize a.width col).toNat ∧
        ((col : Int) * a.blocksize + (j : Int), (row : Int) * a.blocksize + (i : Int),
          (⟨col, row, (i : Int) * a.blocksize + (j : Int)⟩ : Slot)) = v := by
  unfold UArray2b_map_visits
  simp only [List.mem_flatMap, List.mem_map, List.mem_range]

/-- The callback is invoked at `(col, row, elem)` exactly when `elem` is the
pointer `UArray2b_at` returns for `(col, row)`. -/
theorem mem_visits_iff_at {α : Type} (a : UArray2b_T α) (hv : Valid a)
    (v : Int × Int × Slot) :
    v ∈ UArray2b_map_visits a ↔ UArray2b_at a v.1 v.2.1 = some v.2.2 := by
  have hb := hv.blocksize_pos
  obtain ⟨hnw, hnh, hsq⟩ := hv.no_overflow
  rw [mem_visits]
  constructor
  · rintro ⟨row, hrow, col, hcol, i, hi, j, hj, rfl⟩
    have hrow1 : (row : Int) < a.blocks.height := Int.lt_toNat.mp hrow
    have hcol1 : (col : Int) < a.blocks.width := Int.lt_toNat.mp hcol
    have hrow0 : (0 : Int) ≤ (row : Int) := Int.ofNat_nonneg row
    have hcol0 : (0 : Int) ≤ (col : Int) := Int.ofNat_nonneg col
    obtain ⟨ch, -⟩ := UArray2b_map_clip_eq a.blocksize a.height row hb hnh hrow0
      (by rw [← hv.grid_height]; exact hrow1)
    obtain ⟨cw, -⟩ := UArray2b_map_clip_eq a.blocksize a.width col hb hnw hcol0
      (by rw [← hv.grid_width]; exact hcol1)
    rw [ch] at hi
    rw [cw] at hj
    have hi0 : (0 : Int) ≤ (i : Int) := Int.ofNat_nonneg i
    have hj0 : (0 : Int) ≤ (j : Int) := Int.ofNat_nonneg j
    have hi1 : (i : Int) < min a.blocksize (a.height - row * a.blocksize) := Int.lt_toNat.mp hi
    have hj1 : (j : Int) < min a.blocksize (a.width - col * a.blocksize) := Int.lt_toNat.mp hj
    have hi2 : (i : Int) < a.blocksize := lt_of_lt_of_le hi1 (min_le_left _ _)
    have hi3 : (i : Int) < a.height - row * a.blocksize := lt_of_lt_of_le hi1 (min_le_right _ _)
    have hj2 : (j : Int) < a.blocksize := lt_of_lt_of_le hj1 (min_le_left _ _)
    have hj3 : (j : Int) < a.width - col * a.blocksize := lt_of_lt_of_le hj1 (min_le_right _ _)
    obtain ⟨-, bc0, bc1⟩ := map_body_bounds a.blocksize a.width col j hb hnw hcol0 hj0 hj2 hj3
    obtain ⟨-, br0, br1⟩ := map_body_bounds a.blocksize a.height row i hb hnh hrow0 hi0 hi2 hi3
    obtain ⟨dc, mc⟩ := div_mod_of_decomp a.blocksize col j hj0 hj2
    obtain ⟨dr, mr⟩ := div_mod_of_decomp a.blocksize row i hi0 hi2
    show UArray2b_at a ((col : Int) * a.blocksize + j) ((row : Int) * a.blocksize + i) = _
    rw [UArray2b_at_valid a hv _ _ bc0 bc1 br0 br1, dc, dr, mc, mr]
  · intro h
    obtain ⟨c, r, p⟩ := v
    simp only at h
    obtain ⟨⟨hc0, hc1⟩, ⟨hr0, hr1⟩, -⟩ := UArray2b_at_some a c r p h
    rw [UArray2b_at_valid a hv c r hc0 hc1 hr0 hr1] at h
    simp only [Option.some.injEq] at h
    subst h
    have hbc0 : 0 ≤ c / a.blocksize := Int.ediv_nonneg hc0 (le_of_lt hb)
    have hbr0 : 0 ≤ r / a.blocksize := Int.ediv_nonneg hr0 (le_of_lt hb)
    have hbc1 : c / a.blocksize < (a.width + a.blocksize - 1) / a.blocksize :=
      Int.ediv_lt_of_lt_mul hb (lt_of_lt_of_le hc1 (ceil_div_spec a.width a.blocksize hb).1)
    have hbr1 : r / a.blocksize < (a.height + a.blocksize - 1) / a.blocksize :=
      Int.ediv_lt_of_lt_mul hb (lt_of_lt_of_le hr1 (ceil_div_spec a.height a.blocksize hb).1)
    have hi0 : 0 ≤ r % a.blocksize := Int.emod_nonneg _ (Int.ne_of_gt hb)
    have hi1 : r % a.blocksize < a.blocksize := Int.emod_lt_of_pos _ hb
    have hj0 : 0 ≤ c % a.blocksize := Int.emod_nonneg _ (Int.ne_of_gt hb)
    have hj1 : c % a.blocksize < a.blocksize := Int.emod_lt_of_pos _ hb
    have ec := Int.ediv_add_emod' c a.blocksize
    have er := Int.ediv_add_emod' r a.blocksize
    obtain ⟨ch, -⟩ := UArray2b_map_clip_eq a.blocksize a.height (r / a.blocksize) hb hnh hbr0 hbr1
    obtain ⟨cw, -⟩ := UArray2b_map_clip_eq a.blocksize a.width (c / a.blocksize) hb hnw hbc0 hbc1
    have tc : (((c / a.blocksize).toNat : Nat) : Int) = c / a.blocksize := Int.toNat_of_nonneg hbc0
    have tr : (((r / a.blocksize).toNat : Nat) : Int) = r / a.blocksize := Int.toNat_of_nonneg hbr0
    have ti : (((r % a.blocksize).toNat : Nat) : Int) = r % a.blocksize := Int.toNat_of_nonneg hi0
    have tj : (((c % a.blocksize).toNat : Nat) : Int) = c % a.blocksize := Int.toNat_of_nonneg hj0
    refine ⟨(r / a.blocksize).toNat, ?_, (c / a.blocksize).toNat, ?_,
      (r % a.blocksize).toNat, ?_, (c % a.blocksize).toNat, ?_, ?_⟩
    · rw [Int.lt_toNat, tr, hv.grid_height]
      exact hbr1
    · rw [Int.lt_toNat, tc, hv.grid_width]
      exact hbc1
    · rw [Int.lt_toNat, ti, tr, ch]
      exact lt_min hi1 (by linarith)
    · rw [Int.lt_toNat, tj, tc, cw]
      exact lt_min hj1 (by linarith)
    · rw [tc, tr, ti, tj, ec, er]

/-- No coordinate pair is passed to the callback twice. -/
theorem visits_coords_nodup {α : Type} (a : UArray2b_T α) (hv : Valid a) :
    ((UArray2b_map_visits a).map (fun v => (v.1, v.2.1))).Nodup := by
  refine List.Nodup.map_on ?_ (UArray2b_map_visits_nodup a)
  intro x hx y hy hxy
  obtain ⟨c, r, p⟩ := x
  obtain ⟨c2, r2, p2⟩ := y
  simp only [Prod.mk.injEq] at hxy
  obtain ⟨rfl, rfl⟩ := hxy
  have h1 := (mem_visits_iff_at a hv _).mp hx
  have h2 := (mem_visits_iff_at a hv _).mp hy
  simp only at h1 h2
  rw [h1] at h2
  simp only [Option.some.injEq] at h2
  rw [h2]

/-- The coordinate pairs passed to the callback are the in-bounds ones. -/
theorem visits_coords_mem {α : Type} (a : UArray2b_T α) (hv : Valid a) (c r : Int) :
    (c, r) ∈ (UArray2b_map_visits a).map (fun v => (v.1, v.2.1)) ↔
      (0 ≤ c ∧ c < a.width) ∧ (0 ≤ r ∧ r < a.height) := by
  rw [List.mem_map]
  constructor
  · rintro ⟨⟨c2, r2, p⟩, hmem, heq⟩
    simp only [Prod.mk.injEq] at heq
    obtain ⟨rfl, rfl⟩ := heq
    have h1 := (mem_visits_iff_at a hv _).mp hmem
    obtain ⟨hc, hr, -⟩ := UArray2b_at_some a _ _ _ h1
    exact ⟨hc, hr⟩
  · rintro ⟨⟨hc0, hc1⟩, ⟨hr0, hr1⟩⟩
    refine ⟨(c, r, _), (mem_visits_iff_at a hv _).mpr
      (UArray2b_at_valid a hv c r hc0 hc1 hr0 hr1), rfl⟩

/-- The callback is invoked `width * height` times. -/
theorem visits_length {α : Type} (a : UArray2b_T α) (hv : Valid a) :
    ((UArray2b_map_visits a).length : Int) = a.width * a.height := by
  have hnd := visits_coords_nodup a hv
  have hcard := List.toFinset_card_of_nodup hnd
  have hset : ((UArray2b_map_visits a).map (fun v => (v.1, v.2.1))).toFinset
      = Finset.Ico 0 a.width ×ˢ Finset.Ico 0 a.height := by
    ext ⟨c, r⟩
    rw [List.mem_toFinset, visits_coords_mem a hv, Finset.mem_product, Finset.mem_Ico,
      Finset.mem_Ico]
  rw [hset, Finset.card_product, Int.card_Ico, Int.card_Ico, List.length_map] at hcard
  rw [← hcard]
  have hw := hv.width_pos
  have hh := hv.height_pos
  push_cast
  rw [sub_zero, sub_zero, Int.toNat_of_nonneg (le_of_lt hw), Int.toNat_of_nonneg (le_of_lt hh)]

/-! ## Facts that hold for every array the constructor returns -/

/-- Partial correctness of a loop: a property preserved by every iteration that
does not abort holds at the end of a loop that does not abort. -/
theorem for_loop_partial {σ : Type} (P : σ → Prop) (body : Int → σ → Option σ) (n : Int)
    (hstep : ∀ i : Int, 0 ≤ i → i < n → ∀ st st2, P st → body i st = some st2 → P st2)
    (s s2 : σ) (h0 : P s) (h : for_loop n body s = some s2) : P s2 := by
  unfold for_loop at h
  have hmem : ∀ i ∈ List.range n.toNat, ((i : Nat) : Int) < n := by
    intro i hi
    exact Int.lt_toNat.mp (List.mem_range.mp hi)
  generalize List.range n.toNat = l at h hmem
  induction l generalizing s with
  | nil =>
    simp only [List.foldlM_nil, pure, Option.some.injEq] at h
    rw [← h]
    exact h0
  | cons x xs ih =>
    rw [List.foldlM_cons] at h
    cases hb : body (x : Int) s with
    | none =>
      rw [hb] at h
      simp [bind] at h
    | some s1 =>
      rw [hb] at h
      simp only [bind, Option.bind] at h
      exact ih s1 (hstep x (Int.ofNat_nonneg x) (hmem x (List.mem_cons_self x xs)) s s1 h0 hb)
        h (fun i hi => hmem i (List.mem_cons_of_mem x hi))

theorem int_div_neg_le (x bs : Int) (hx : x < 0) (hb : 0 < bs) : int_div x bs ≤ 0 := by
  unfold int_div
  have h1 : x = -(-x) := by ring
  rw [h1, Int.neg_tdiv]
  have h2 : 0 ≤ (-x).tdiv bs := Int.tdiv_nonneg (by omega) (le_of_lt hb)
  omega

/-- A grid with at least one column was computed without overflow. -/
theorem UArray2b_new_col_block_pos (w bs : Int) (hw : 0 < w) (hb : 0 < bs)
    (hwm : w ≤ INT_MAX) (hbm : bs ≤ INT_MAX) (h : 0 < UArray2b_new_col_block w bs) :
    w + bs - 1 ≤ INT_MAX := by
  have hmax : INT_MAX = 2147483647 := rfl
  by_contra hne
  have e : int_sub (int_add w bs) 1 < 0 := by
    unfold int_sub int_add wrapInt
    omega
  have := int_div_neg_le _ bs e hb
  unfold UArray2b_new_col_block at h
  omega

/-- The header and the grid dimensions of every array `UArray2b_new` returns. -/
theorem UArray2b_new_some {α : Type} [Inhabited α] (w h s bs : Int) (a : UArray2b_T α)
    (hnew : UArray2b_new w h s bs = some a) :
    (0 < w ∧ 0 < h ∧ 0 < s ∧ 0 < bs) ∧
    (a.width = w ∧ a.height = h ∧ a.size = s ∧ a.blocksize = bs) ∧
    (a.blocks.width = UArray2b_new_col_block w bs ∧
      a.blocks.height = UArray2b_new_col_block h bs) := by
  unfold UArray2b_new at hnew
  by_cases hw : w > 0
  · by_cases hh : h > 0
    · by_cases hs : s > 0
      · by_cases hb : bs > 0
        · rw [if_neg (not_not.mpr hw), if_neg (not_not.mpr hh), if_neg (not_not.mpr hs),
            if_neg (not_not.mpr hb)] at hnew
          simp only [] at hnew
          cases h0 : (UArray2_new (UArray2b_new_col_block w bs) (UArray2b_new_col_block h bs) 8 :
              Option (UArray2_T (Option (UArray_T α)))) with
          | none => rw [h0] at hnew; simp at hnew
          | some blocks0 =>
            rw [h0] at hnew
            simp only [] at hnew
            cases h1 : UArray2b_new_fill s bs (UArray2b_new_col_block w bs)
                (UArray2b_new_col_block h bs) blocks0 with
            | none => rw [h1] at hnew; simp at hnew
            | some blocks =>
              rw [h1] at hnew
              simp only [Option.some.injEq] at hnew
              subst hnew
              refine ⟨⟨hw, hh, hs, hb⟩, ⟨rfl, rfl, rfl, rfl⟩, ?_⟩
              have hd0 : blocks0.width = UArray2b_new_col_block w bs ∧
                  blocks0.height = UArray2b_new_col_block h bs := by
                unfold UArray2_new at h0
                by_cases hc : 0 ≤ UArray2b_new_col_block w bs ∧
                    0 ≤ UArray2b_new_col_block h bs ∧ (0 : Int) < 8
                · rw [if_pos hc] at h0
                  simp only [Option.some.injEq] at h0
                  subst h0
                  exact ⟨rfl, rfl⟩
                · rw [if_neg hc] at h0
                  simp at h0
              unfold UArray2b_new_fill at h1
              refine for_loop_partial
                (fun g : UArray2_T (Option (UArray_T α)) =>
                  g.width = UArray2b_new_col_block w bs ∧
                  g.height = UArray2b_new_col_block h bs) _ _ ?_ blocks0 blocks hd0 h1
              intro row _ _ st st2 hst hbody
              refine for_loop_partial
                (fun g : UArray2_T (Option (UArray_T α)) =>
                  g.width = UArray2b_new_col_block w bs ∧
                  g.height = UArray2b_new_col_block h bs) _ _ ?_ st st2 hst hbody
              intro col _ _ g g2 hg hstep
              cases hu : (UArray_new (int_mul bs bs) s : Option (UArray_T α)) with
              | none => rw [hu] at hstep; simp at hstep
              | some block =>
                rw [hu] at hstep
                simp only [] at hstep
                cases hp : UArray2_at g col row with
                | none => rw [hp] at hstep; simp at hstep
                | some p =>
                  rw [hp] at hstep
                  simp only [Option.some.injEq] at hstep
                  subst hstep
                  exact hg
        · rw [if_neg (not_not.mpr hw), if_neg (not_not.mpr hh), if_neg (not_not.mpr hs),
            if_pos hb] at hnew
          simp at hnew
      · rw [if_neg (not_not.mpr hw), if_neg (not_not.mpr hh), if_pos hs] at hnew
        simp at hnew
    · rw [if_neg (not_not.mpr hw), if_pos hh] at hnew
      simp at hnew
  · rw [if_pos hw] at hnew
    simp at hnew

/-- `UArray2b_at` on the coordinates of slot `(i, j)` of block `(col, row)`
performs the same library calls as the loop body of `UArray2b_map`. -/
theorem UArray2b_at_of_decomp {α : Type} (a : UArray2b_T α) (hb : 0 < a.blocksize)
    (col row i j elem : Int)
    (hc : 0 ≤ col ∧ col < a.blocks.width) (hr : 0 ≤ row ∧ row < a.blocks.height)
    (hj : 0 ≤ j ∧ j < a.blocksize) (hi : 0 ≤ i ∧ i < a.blocksize)
    (hcw : col * a.blocksize + j < a.width) (hrh : row * a.blocksize + i < a.height)
    (he : UArray_at (UArray2_get a.blocks (col, row))
      (int_add (int_mul i a.blocksize) j) = some elem) :
    UArray2b_at a (col * a.blocksize + j) (row * a.blocksize + i) = some ⟨col, row, elem⟩ := by
  have hc0 : 0 ≤ col * a.blocksize + j := by
    have := Int.mul_nonneg hc.1 (le_of_lt hb)
    omega
  have hr0 : 0 ≤ row * a.blocksize + i := by
    have := Int.mul_nonneg hr.1 (le_of_lt hb)
    omega
  obtain ⟨dc, mc⟩ := div_mod_of_decomp a.blocksize col j hj.1 hj.2
  obtain ⟨dr, mr⟩ := div_mod_of_decomp a.blocksize row i hi.1 hi.2
  unfold UArray2b_at
  rw [if_neg (not_not.mpr ⟨hc0, hcw⟩), if_neg (not_not.mpr ⟨hr0, hrh⟩)]
  simp only [int_div_eq _ _ hc0 (le_of_lt hb), int_div_eq _ _ hr0 (le_of_lt hb),
    int_mod_eq _ _ hc0 (le_of_lt hb), int_mod_eq _ _ hr0 (le_of_lt hb), dc, dr, mc, mr]
  have e1 : UArray2_at a.blocks col row = some (col, row) := by
    unfold UArray2_at
    rw [if_pos ⟨hc.1, hc.2, hr.1, hr.2⟩]
  simp only [e1, he]

/-- Every call a completed traversal has made to the callback passes the
pointer that `UArray2b_at` returns for the coordinates of that call. -/
theorem UArray2b_map_calls_sound {α : Type} (a : UArray2b_T α) (hb : 0 < a.blocksize)
    (hcols : 0 < a.blocks.width → a.width + a.blocksize - 1 ≤ INT_MAX ∧
      a.blocks.width = (a.width + a.blocksize - 1) / a.blocksize)
    (hrows : 0 < a.blocks.height → a.height + a.blocksize - 1 ≤ INT_MAX ∧
      a.blocks.height = (a.height + a.blocksize - 1) / a.blocksize)
    (calls : List (Int × Int × Slot)) (h : UArray2b_map_calls a = some calls) :
    ∀ v ∈ calls, UArray2b_at a v.1 v.2.1 = some v.2.2 := by
  unfold UArray2b_map_calls UArray2b_map at h
  simp only [UArray2_height, UArray2_width] at h
  refine for_loop_partial
    (fun log : List (Int × Int × Slot) => ∀ v ∈ log, UArray2b_at a v.1 v.2.1 = some v.2.2)
    _ _ ?_ [] calls (fun v hv => absurd hv (List.not_mem_nil v)) h
  intro row hr0 hr1 st st2 hst hbody
  obtain ⟨hnh, hgh⟩ := hrows (by omega)
  refine for_loop_partial
    (fun log : List (Int × Int × Slot) => ∀ v ∈ log, UArray2b_at a v.1 v.2.1 = some v.2.2)
    _ _ ?_ st st2 hst hbody
  intro col hc0 hc1 st3 st4 hst3 hbody2
  obtain ⟨hnw, hgw⟩ := hcols (by omega)
  have e1 : UArray2_at a.blocks col row = some (col, row) := by
    unfold UArray2_at
    rw [if_pos ⟨hc0, hc1, hr0, hr1⟩]
  rw [e1] at hbody2
  simp only [] at hbody2
  obtain ⟨ch, -⟩ := UArray2b_map_clip_eq a.blocksize a.height row hb hnh hr0
    (by rw [← hgh]; exact hr1)
  obtain ⟨cw, -⟩ := UArray2b_map_clip_eq a.blocksize a.width col hb hnw hc0
    (by rw [← hgw]; exact hc1)
  rw [ch, cw] at hbody2
  refine for_loop_partial
    (fun log : List (Int × Int × Slot) => ∀ v ∈ log, UArray2b_at a v.1 v.2.1 = some v.2.2)
    _ _ ?_ st3 st4 hst3 hbody2
  intro i hi0 hi1 st5 st6 hst5 hbody3
  refine for_loop_partial
    (fun log : List (Int × Int × Slot) => ∀ v ∈ log, UArray2b_at a v.1 v.2.1 = some v.2.2)
    _ _ ?_ st5 st6 hst5 hbody3
  intro j hj0 hj1 st7 st8 hst7 hbody4
  have hi2 : i < a.blocksize := lt_of_lt_of_le hi1 (min_le_left _ _)
  have hi3 : i < a.height - row * a.blocksize := lt_of_lt_of_le hi1 (min_le_right _ _)
  have hj2 : j < a.blocksize := lt_of_lt_of_le hj1 (min_le_left _ _)
  have hj3 : j < a.width - col * a.blocksize := lt_of_lt_of_le hj1 (min_le_right _ _)
  obtain ⟨e2, -, bc1⟩ := map_body_bounds a.blocksize a.width col j hb hnw hc0 hj0 hj2 hj3
  obtain ⟨e3, -, br1⟩ := map_body_bounds a.blocksize a.height row i hb hnh hr0 hi0 hi2 hi3
  cases he : UArray_at (UArray2_get a.blocks (col, row)) (int_add (int_mul i a.blocksize) j) with
  | none =>
    rw [he] at hbody4
    simp at hbody4
  | some elem =>
    rw [he, e2, e3] at hbody4
    simp only [Option.some.injEq] at hbody4
    subst hbody4
    intro v hv
    rcases List.mem_append.mp hv with hv1 | hv2
    · exact hst7 v hv1
    · rw [List.mem_singleton] at hv2
      subst hv2
      exact UArray2b_at_of_decomp a hb col row i j elem ⟨hc0, hc1⟩ ⟨hr0, hr1⟩ ⟨hj0, hj2⟩
        ⟨hi0, hi2⟩ bc1 br1 he

/-- Every array `UArray2b_new` returns for `int` arguments meets the
conditions of `UArray2b_map_calls_sound`. -/
theorem UArray2b_new_grid {α : Type} [Inhabited α] (w h s bs : Int) (a : UArray2b_T α)
    (hwm : w ≤ INT_MAX) (hhm : h ≤ INT_MAX) (hbm : bs ≤ INT_MAX)
    (hnew : UArray2b_new w h s bs = some a) :
    0 < a.blocksize ∧
    (0 < a.blocks.width → a.width + a.blocksize - 1 ≤ INT_MAX ∧
      a.blocks.width = (a.width + a.blocksize - 1) / a.blocksize) ∧
    (0 < a.blocks.height → a.height + a.blocksize - 1 ≤ INT_MAX ∧
      a.blocks.height = (a.height + a.blocksize - 1) / a.blocksize) := by
  obtain ⟨⟨hw, hh, -, hb⟩, ⟨e1, e2, -, e4⟩, ⟨e5, e6⟩⟩ := UArray2b_new_some w h s bs a hnew
  rw [e1, e2, e4, e5, e6]
  refine ⟨hb, ?_, ?_⟩
  · intro hpos
    have hno := UArray2b_new_col_block_pos w bs hw hb hwm hbm hpos
    exact ⟨hno, UArray2b_new_col_block_eq w bs hw hb hno⟩
  · intro hpos
    have hno := UArray2b_new_col_block_pos h bs hh hb hhm hbm hpos
    exact ⟨hno, UArray2b_new_col_block_eq h bs hh hb hno⟩

theorem Op.run_shape {α σ : Type} (a a2 : UArray2b_T α) (op : Op α σ)
    (h : Op.run a op = some a2) : SameShape a a2 := by
  cases op with
  | write col row v =>
    simp only [Op.run] at h
    cases hp : UArray2b_at a col row with
    | none => rw [hp] at h; simp at h
    | some p =>
      rw [hp] at h
      exact Slot_store_shape a a2 p v h
  | index col row =>
    simp only [Op.run, Option.map_eq_some'] at h
    obtain ⟨_, _, rfl⟩ := h
    exact SameShape.refl a
  | read col row =>
    simp only [Op.run, Option.map_eq_some'] at h
    obtain ⟨_, _, rfl⟩ := h
    exact SameShape.refl a
  | traverse apply cl =>
    simp only [Op.run, Option.map_eq_some'] at h
    obtain ⟨_, _, rfl⟩ := h
    exact SameShape.refl a
  | width => simp only [Op.run, Option.some.injEq] at h; subst h; exact SameShape.refl a
  | height => simp only [Op.run, Option.some.injEq] at h; subst h; exact SameShape.refl a
  | size => simp only [Op.run, Option.some.injEq] at h; subst h; exact SameShape.refl a
  | blocksize => simp only [Op.run, Option.some.injEq] at h; subst h; exact SameShape.refl a

theorem Op.runAll_shape {α σ : Type} (ops : List (Op α σ)) (a a2 : UArray2b_T α)
    (h : Op.runAll a ops = some a2) : SameShape a a2 := by
  unfold Op.runAll at h
  induction ops generalizing a with
  | nil =>
    simp only [List.foldlM_nil, pure, Option.some.injEq] at h
    subst h
    exact SameShape.refl a
  | cons op rest ih =>
    rw [List.foldlM_cons] at h
    cases h1 : Op.run a op with
    | none => rw [h1] at h; simp [bind] at h
    | some a1 =>
      rw [h1] at h
      simp only [bind, Option.bind] at h
      exact SameShape.trans (Op.run_shape a a1 op h1) (ih a1 h)

/-! ## Allocated slots and the 64K blocksize -/

theorem sum_map_range_const (n : Nat) (f : Nat → Int) (c : Int)
    (h : ∀ i : Nat, i < n → f i = c) : ((List.range n).map f).sum = (n : Int) * c := by
  induction n with
  | zero => simp
  | succ k ih =>
    rw [List.range_succ, List.map_append, List.sum_append,
      ih (fun i hi => h i (Nat.lt_succ_of_lt hi))]
    simp only [List.map_cons, List.map_nil, List.sum_cons, List.sum_nil, add_zero,
      h k (Nat.lt_succ_self k)]
    push_cast
    ring

/-- On an array satisfying the invariant the blocks hold
`blockCols * blockRows * blocksize²` slots together. -/
theorem UArray2b_slots_valid {α : Type} (a : UArray2b_T α) (hv : Valid a) :
    UArray2b_slots a = a.blocks.width * a.blocks.height * (a.blocksize * a.blocksize) := by
  have hb := hv.blocksize_pos
  have hgw : 0 ≤ a.blocks.width := by
    rw [hv.grid_width]
    exact le_of_lt (ceil_div_pos a.width a.blocksize hv.width_pos hb)
  have hgh : 0 ≤ a.blocks.height := by
    rw [hv.grid_height]
    exact le_of_lt (ceil_div_pos a.height a.blocksize hv.height_pos hb)
  unfold UArray2b_slots
  rw [sum_map_range_const a.blocks.height.toNat _
    (a.blocks.width * (a.blocksize * a.blocksize))]
  · rw [Int.toNat_of_nonneg hgh]
    ring
  · intro row hrow
    rw [sum_map_range_const a.blocks.width.toNat _ (a.blocksize * a.blocksize)]
    · rw [Int.toNat_of_nonneg hgw]
    · intro col hcol
      obtain ⟨b, hcell, hlen⟩ := hv.block_slots col row (Int.ofNat_nonneg col)
        (Int.lt_toNat.mp hcol) (Int.ofNat_nonneg row) (Int.lt_toNat.mp hrow)
      simp only [hcell, hlen]

/-- The block grid covers the array. -/
theorem grid_covers (w h bs : Int) (hw : 0 < w) (hh : 0 < h) (hb : 0 < bs) :
    w * h ≤ (w + bs - 1) / bs * ((h + bs - 1) / bs) * (bs * bs) := by
  have h1 := (ceil_div_spec w bs hb).1
  have h2 := (ceil_div_spec h bs hb).1
  have h3 : w * h ≤ ((w + bs - 1) / bs * bs) * ((h + bs - 1) / bs * bs) :=
    mul_le_mul h1 h2 (le_of_lt hh) (by omega)
  calc w * h ≤ ((w + bs - 1) / bs * bs) * ((h + bs - 1) / bs * bs) := h3
    _ = (w + bs - 1) / bs * ((h + bs - 1) / bs) * (bs * bs) := by ring

/-- The value of the 64K blocksize: the integer square root of `65536 / size`,
raised to 1 when it is 0. -/
theorem UArray2b_new_64K_blocksize_eq (size : Int) (hs : 0 < size) :
    UArray2b_new_64K_blocksize size =
      max 1 ((Nat.sqrt (65536 / size).toNat : Nat) : Int) := by
  unfold UArray2b_new_64K_blocksize int_sqrt
  have e1 : int_mul 64 1024 = 65536 := by decide
  rw [e1, int_div_eq 65536 size (by decide) (le_of_lt hs)]
  simp only []
  by_cases hlt : ((Nat.sqrt (65536 / size).toNat : Nat) : Int) < 1
  · rw [if_pos hlt, max_eq_left (le_of_lt hlt)]
  · rw [if_neg hlt, max_eq_right (by omega)]

/-- The integer square root of `65536 / size` bounds every `c` with
`c * c * size <= 65536`. -/
theorem sqrt_bound (size c : Int) (hs : 0 < size) (hc : 0 ≤ c) (h : c * c * size ≤ 65536) :
    c ≤ ((Nat.sqrt (65536 / size).toNat : Nat) : Int) := by
  have h1 : c * c ≤ 65536 / size := (Int.le_ediv_iff_mul_le hs).mpr h
  have h2 : c.toNat * c.toNat ≤ (65536 / size).toNat := by
    have h3 : ((c.toNat * c.toNat : Nat) : Int) = c * c := by
      push_cast
      rw [Int.toNat_of_nonneg hc]
    have h4 : 0 ≤ (65536 : Int) / size := Int.ediv_nonneg (by decide) (le_of_lt hs)
    have h5 := Int.toNat_of_nonneg h4
    omega
  have h6 := Nat.le_sqrt.mpr h2
  have h7 := Int.toNat_of_nonneg hc
  omega

/-- The square of the integer square root of `65536 / size`, times `size`, is
within the budget. -/
theorem sqrt_fits (size : Int) (hs : 0 < size) :
    ((Nat.sqrt (65536 / size).toNat : Nat) : Int) * ((Nat.sqrt (65536 / size).toNat : Nat) : Int)
      * size ≤ 65536 := by
  have h4 : 0 ≤ (65536 : Int) / size := Int.ediv_nonneg (by decide) (le_of_lt hs)
  have h1 := Nat.sqrt_le (65536 / size).toNat
  have h2 : ((Nat.sqrt (65536 / size).toNat * Nat.sqrt (65536 / size).toNat : Nat) : Int)
      ≤ 65536 / size := by
    have h5 := Int.toNat_of_nonneg h4
    omega
  push_cast at h2
  have h3 := Int.ediv_mul_le 65536 (Int.ne_of_gt hs)
  calc ((Nat.sqrt (65536 / size).toNat : Nat) : Int) * ((Nat.sqrt (65536 / size).toNat : Nat) : Int)
        * size ≤ 65536 / size * size := Int.mul_le_mul_of_nonneg_right h2 (le_of_lt hs)
    _ ≤ 65536 := h3

/-! ## Order of a traversal -/

theorem foldlM_range_some_append {γ : Type} (body : Int → List γ → Option (List γ))
    (F : Nat → List γ) (m : Nat)
    (hstep : ∀ i : Nat, i < m → ∀ st st2, body (i : Int) st = some st2 → st2 = st ++ F i)
    (s s2 : List γ)
    (h : (List.range m).foldlM (fun st (i : Nat) => body (i : Int) st) s = some s2) :
    s2 = s ++ (List.range m).flatMap F := by
  induction m generalizing s2 with
  | zero =>
    simp only [List.range_zero, List.foldlM_nil, pure, Option.some.injEq] at h
    simp [h]
  | succ k ih =>
    rw [List.range_succ, List.foldlM_append] at h
    cases h1 : List.foldlM (fun st (i : Nat) => body (i : Int) st) s (List.range k) with
    | none => rw [h1] at h; simp [bind] at h
    | some s1 =>
      rw [h1] at h
      simp only [bind, Option.bind, List.foldlM_cons, List.foldlM_nil] at h
      cases h2 : body (k : Int) s1 with
      | none => rw [h2] at h; simp at h
      | some s3 =>
        rw [h2] at h
        simp only [pure, Option.some.injEq] at h
        subst h
        have e1 := ih (fun i hi st st2 hb => hstep i (Nat.lt_succ_of_lt hi) st st2 hb) s1 h1
        have e2 := hstep k (Nat.lt_succ_self k) s1 s3 h2
        rw [e2, e1, List.range_succ, List.flatMap_append]
        simp

/-- A loop over a log whose iterations, when they do not abort, append the
list `F i` appends the concatenation of these lists when it does not abort. -/
theorem for_loop_some_append {γ : Type} (body : Int → List γ → Option (List γ))
    (F : Nat → List γ) (n : Int)
    (hstep : ∀ i : Nat, i < n.toNat → ∀ st st2, body (i : Int) st = some st2 → st2 = st ++ F i)
    (s s2 : List γ) (h : for_loop n body s = some s2) :
    s2 = s ++ (List.range n.toNat).flatMap F :=
  foldlM_range_some_append body F n.toNat hstep s s2 h

/-- The variant of `for_loop_some_append` for iterations that append one entry. -/
theorem for_loop_some_append_map {γ : Type} (body : Int → List γ → Option (List γ))
    (F : Nat → γ) (n : Int)
    (hstep : ∀ i : Nat, i < n.toNat → ∀ st st2, body (i : Int) st = some st2 → st2 = st ++ [F i])
    (s s2 : List γ) (h : for_loop n body s = some s2) :
    s2 = s ++ (List.range n.toNat).map F := by
  have e := for_loop_some_append body (fun i => [F i]) n hstep s s2 h
  rw [e]
  congr 1
  induction (List.range n.toNat) with
  | nil => rfl
  | cons x xs ih => simp [List.flatMap_cons, ih]

theorem UArray2b_map_calls_raw_aux {α : Type} (a : UArray2b_T α)
    (calls : List (Int × Int × Slot)) (h : UArray2b_map_calls a = some calls) :
    calls = [] ++ UArray2b_map_raw a := by
  unfold UArray2b_map_calls UArray2b_map at h
  simp only [UArray2_height, UArray2_width] at h
  unfold UArray2b_map_raw
  refine for_loop_some_append _ _ _ ?_ [] calls h
  intro row hrow st st2 hb
  refine for_loop_some_append _ _ _ ?_ st st2 hb
  intro col hcol st3 st4 hb2
  cases hat : UArray2_at a.blocks (col : Int) (row : Int) with
  | none => rw [hat] at hb2; simp at hb2
  | some block =>
    have hblock : block = ((col : Int), (row : Int)) := by
      unfold UArray2_at at hat
      by_cases hc : 0 ≤ (col : Int) ∧ (col : Int) < a.blocks.width ∧ 0 ≤ (row : Int) ∧
          (row : Int) < a.blocks.height
      · rw [if_pos hc] at hat
        simp only [Option.some.injEq] at hat
        exact hat.symm
      · rw [if_neg hc] at hat
        simp at hat
    subst hblock
    rw [hat] at hb2
    simp only [] at hb2
    refine for_loop_some_append _ _ _ ?_ st3 st4 hb2
    intro i hi st5 st6 hb3
    refine for_loop_some_append_map _ _ _ ?_ st5 st6 hb3
    intro j hj st7 st8 hb4
    cases he : UArray_at (UArray2_get a.blocks ((col : Int), (row : Int)))
        (int_add (int_mul (i : Int) a.blocksize) (j : Int)) with
    | none => rw [he] at hb4; simp at hb4
    | some elem =>
      have helem : elem = int_add (int_mul (i : Int) a.blocksize) (j : Int) := by
        unfold UArray_at at he
        cases hcell : UArray2_get a.blocks ((col : Int), (row : Int)) with
        | none => rw [hcell] at he; simp at he
        | some u =>
          rw [hcell] at he
          simp only [] at he
          by_cases hc : 0 ≤ int_add (int_mul (i : Int) a.blocksize) (j : Int) ∧
              int_add (int_mul (i : Int) a.blocksize) (j : Int) < u.length
          · rw [if_pos hc] at he
            simp only [Option.some.injEq] at he
            exact he.symm
          · rw [if_neg hc] at he
            simp at he
      rw [he] at hb4
      simp only [Option.some.injEq] at hb4
      rw [← hb4, helem]

/-- The log of a traversal that completes is `UArray2b_map_raw`, on every array. -/
theorem UArray2b_map_calls_raw {α : Type} (a : UArray2b_T α) (calls : List (Int × Int × Slot))
    (h : UArray2b_map_calls a = some calls) : calls = UArray2b_map_raw a := by
  have key := UArray2b_map_calls_raw_aux a calls h
  rw [List.nil_append] at key
  exact key

theorem pairwise_flatMap_range {γ : Type} (R : γ → γ → Prop) (n : Nat) (F : Nat → List γ)
    (h1 : ∀ i : Nat, i < n → List.Pairwise R (F i))
    (h2 : ∀ i1 i2 : Nat, i1 < i2 → i2 < n → ∀ x ∈ F i1, ∀ y ∈ F i2, R x y) :
    List.Pairwise R ((List.range n).flatMap F) := by
  rw [List.pairwise_flatMap]
  refine ⟨fun i hi => h1 i (List.mem_range.mp hi), ?_⟩
  refine List.Pairwise.imp_of_mem ?_ (List.pairwise_lt_range n)
  intro i1 i2 _ hi2 hlt
  exact h2 i1 i2 hlt (List.mem_range.mp hi2)

theorem pairwise_map_range {γ : Type} (R : γ → γ → Prop) (n : Nat) (f : Nat → γ)
    (h : ∀ i1 i2 : Nat, i1 < i2 → i2 < n → R (f i1) (f i2)) :
    List.Pairwise R ((List.range n).map f) := by
  rw [List.pairwise_map]
  refine List.Pairwise.imp_of_mem ?_ (List.pairwise_lt_range n)
  intro i1 i2 _ hi2 hlt
  exact h i1 i2 hlt (List.mem_range.mp hi2)

/-- In a non-empty grid computed by `UArray2b_new`, the coordinates the loop
body of `UArray2b_map` computes for slot `(i, j)` of block `(col, row)` do not
wrap, and their block-major key is `(row, col, i, j)`. -/
theorem raw_entry_key {α : Type} (a : UArray2b_T α) (hb : 0 < a.blocksize)
    (hcols : 0 < a.blocks.width → a.width + a.blocksize - 1 ≤ INT_MAX ∧
      a.blocks.width = (a.width + a.blocksize - 1) / a.blocksize)
    (hrows : 0 < a.blocks.height → a.height + a.blocksize - 1 ≤ INT_MAX ∧
      a.blocks.height = (a.height + a.blocksize - 1) / a.blocksize)
    (row col i j : Nat) (hrow : row < a.blocks.height.toNat) (hcol : col < a.blocks.width.toNat)
    (hi : i < (UArray2b_map_clip a.blocksize a.height row).toNat)
    (hj : j < (UArray2b_map_clip a.blocksize a.width col).toNat) :
    block_major_key a.blocksize (int_add (int_mul (col : Int) a.blocksize) (j : Int))
      (int_add (int_mul (row : Int) a.blocksize) (i : Int))
      = ((row : Int), (col : Int), (i : Int), (j : Int)) := by
  have hrow1 : (row : Int) < a.blocks.height := Int.lt_toNat.mp hrow
  have hcol1 : (col : Int) < a.blocks.width := Int.lt_toNat.mp hcol
  have hrow0 : (0 : Int) ≤ (row : Int) := Int.ofNat_nonneg row
  have hcol0 : (0 : Int) ≤ (col : Int) := Int.ofNat_nonneg col
  obtain ⟨hnh, hgh⟩ := hrows (lt_of_le_of_lt hrow0 hrow1)
  obtain ⟨hnw, hgw⟩ := hcols (lt_of_le_of_lt hcol0 hcol1)
  obtain ⟨ch, -⟩ := UArray2b_map_clip_eq a.blocksize a.height row hb hnh hrow0
    (by rw [← hgh]; exact hrow1)
  obtain ⟨cw, -⟩ := UArray2b_map_clip_eq a.blocksize a.width col hb hnw hcol0
    (by rw [← hgw]; exact hcol1)
  rw [ch] at hi
  rw [cw] at hj
  have hi0 : (0 : Int) ≤ (i : Int) := Int.ofNat_nonneg i
  have hj0 : (0 : Int) ≤ (j : Int) := Int.ofNat_nonneg j
  have hi1 : (i : Int) < min a.blocksize (a.height - row * a.blocksize) := Int.lt_toNat.mp hi
  have hj1 : (j : Int) < min a.blocksize (a.width - col * a.blocksize) := Int.lt_toNat.mp hj
  have hi2 : (i : Int) < a.blocksize := lt_of_lt_of_le hi1 (min_le_left _ _)
  have hi3 : (i : Int) < a.height - row * a.blocksize := lt_of_lt_of_le hi1 (min_le_right _ _)
  have hj2 : (j : Int) < a.blocksize := lt_of_lt_of_le hj1 (min_le_left _ _)
  have hj3 : (j : Int) < a.width - col * a.blocksize := lt_of_lt_of_le hj1 (min_le_right _ _)
  obtain ⟨e2, -, -⟩ := map_body_bounds a.blocksize a.width col j hb hnw hcol0 hj0 hj2 hj3
  obtain ⟨e3, -, -⟩ := map_body_bounds a.blocksize a.height row i hb hnh hrow0 hi0 hi2 hi3
  obtain ⟨dc, mc⟩ := div_mod_of_decomp a.blocksize col j hj0 hj2
  obtain ⟨dr, mr⟩ := div_mod_of_decomp a.blocksize row i hi0 hi2
  unfold block_major_key
  rw [e2, e3, dc, dr, mc, mr]

/-- The calls of `UArray2b_map_raw` are strictly increasing in the
block-major key of their coordinates. -/
theorem UArray2b_map_raw_sorted {α : Type} (a : UArray2b_T α) (hb : 0 < a.blocksize)
    (hcols : 0 < a.blocks.width → a.width + a.blocksize - 1 ≤ INT_MAX ∧
      a.blocks.width = (a.width + a.blocksize - 1) / a.blocksize)
    (hrows : 0 < a.blocks.height → a.height + a.blocksize - 1 ≤ INT_MAX ∧
      a.blocks.height = (a.height + a.blocksize - 1) / a.blocksize) :
    List.Pairwise (fun v1 v2 : Int × Int × Slot =>
      key_lt (block_major_key a.blocksize v1.1 v1.2.1) (block_major_key a.blocksize v2.1 v2.2.1))
      (UArray2b_map_raw a) := by
  have hkey := raw_entry_key a hb hcols hrows
  unfold UArray2b_map_raw
  refine pairwise_flatMap_range _ _ _ ?_ ?_
  · intro row hrow
    refine pairwise_flatMap_range _ _ _ ?_ ?_
    · intro col hcol
      refine pairwise_flatMap_range _ _ _ ?_ ?_
      · intro i hi
        refine pairwise_map_range _ _ _ ?_
        intro j1 j2 hlt hj2
        simp only
        rw [hkey row col i j1 hrow hcol hi (lt_trans hlt hj2), hkey row col i j2 hrow hcol hi hj2]
        refine Or.inr ⟨rfl, Or.inr ⟨rfl, Or.inr ⟨rfl, ?_⟩⟩⟩
        exact Int.ofNat_lt.mpr hlt
      · intro i1 i2 hlt hi2 x hx y hy
        simp only [List.mem_map, List.mem_range] at hx hy
        obtain ⟨j1, hj1, rfl⟩ := hx
        obtain ⟨j2, hj2, rfl⟩ := hy
        simp only
        rw [hkey row col i1 j1 hrow hcol (lt_trans hlt hi2) hj1, hkey row col i2 j2 hrow hcol hi2 hj2]
        exact Or.inr ⟨rfl, Or.inr ⟨rfl, Or.inl (Int.ofNat_lt.mpr hlt)⟩⟩
    · intro c1 c2 hlt hc2 x hx y hy
      simp only [List.mem_flatMap, List.mem_map, List.mem_range] at hx hy
      obtain ⟨i1, hi1, j1, hj1, rfl⟩ := hx
      obtain ⟨i2, hi2, j2, hj2, rfl⟩ := hy
      simp only
      rw [hkey row c1 i1 j1 hrow (lt_trans hlt hc2) hi1 hj1, hkey row c2 i2 j2 hrow hc2 hi2 hj2]
      exact Or.inr ⟨rfl, Or.inl (Int.ofNat_lt.mpr hlt)⟩
  · intro r1 r2 hlt hr2 x hx y hy
    simp only [List.mem_flatMap, List.mem_map, List.mem_range] at hx hy
    obtain ⟨c1, hc1, i1, hi1, j1, hj1, rfl⟩ := hx
    obtain ⟨c2, hc2, i2, hi2, j2, hj2, rfl⟩ := hy
    simp only
    rw [hkey r1 c1 i1 j1 (lt_trans hlt hr2) hc1 hi1 hj1, hkey r2 c2 i2 j2 hr2 hc2 hi2 hj2]
    exact Or.inl (Int.ofNat_lt.mpr hlt)

theorem pairwise_getElem? {γ : Type} (R : γ → γ → Prop) (l : List γ) (hp : List.Pairwise R l)
    (i j : Nat) (hij : i < j) (x y : γ) (hx : l[i]? = some x) (hy : l[j]? = some y) : R x y := by
  obtain ⟨hi, rfl⟩ := List.getElem?_eq_some.mp hx
  obtain ⟨hj, rfl⟩ := List.getElem?_eq_some.mp hy
  exact List.pairwise_iff_getElem.mp hp i j hi hj hij

/-- Between two keys of one block, in the strict key order, lie only keys of
that block. -/
theorem key_lt_between (k1 k2 k3 : Int × Int × Int × Int) (h12 : key_lt k1 k2)
    (h23 : key_lt k2 k3) (h13 : k1.1 = k3.1 ∧ k1.2.1 = k3.2.1) :
    k2.1 = k1.1 ∧ k2.2.1 = k1.2.1 := by
  obtain ⟨a1, b1, c1, d1⟩ := k1
  obtain ⟨a2, b2, c2, d2⟩ := k2
  obtain ⟨a3, b3, c3, d3⟩ := k3
  unfold key_lt at h12 h23
  simp only at h12 h23 h13 ⊢
  omega

/-- The traversal of an array returned by `UArray2b_new` is block-major. -/
theorem UArray2b_map_calls_sorted {α : Type} [Inhabited α] (w h s bs : Int)
    (a : UArray2b_T α) (calls : List (Int × Int × Slot))
    (hwm : w ≤ INT_MAX) (hhm : h ≤ INT_MAX) (hbm : bs ≤ INT_MAX)
    (hnew : UArray2b_new w h s bs = some a) (hcalls : UArray2b_map_calls a = some calls) :
    List.Pairwise (fun v1 v2 : Int × Int × Slot =>
      key_lt (block_major_key bs v1.1 v1.2.1) (block_major_key bs v2.1 v2.2.1)) calls := by
  obtain ⟨hb, hcols, hrows⟩ := UArray2b_new_grid w h s bs a hwm hhm hbm hnew
  have hbs : a.blocksize = bs := (UArray2b_new_some w h s bs a hnew).2.1.2.2.2
  rw [UArray2b_map_calls_raw a calls hcalls, ← hbs]
  exact UArray2b_map_raw_sorted a hb hcols hrows

/-- On an array satisfying the invariant two in-bounds coordinate pairs with the
same pointer are equal. -/
theorem UArray2b_at_inj_valid {α : Type} (a : UArray2b_T α) (hv : Valid a)
    (c1 r1 c2 r2 : Int)
    (hc1 : 0 ≤ c1 ∧ c1 < a.width) (hr1 : 0 ≤ r1 ∧ r1 < a.height)
    (hc2 : 0 ≤ c2 ∧ c2 < a.width) (hr2 : 0 ≤ r2 ∧ r2 < a.height)
    (h : UArray2b_at a c1 r1 = UArray2b_at a c2 r2) : c1 = c2 ∧ r1 = r2 := by
  have hb := hv.blocksize_pos
  rw [UArray2b_at_valid a hv c1 r1 hc1.1 hc1.2 hr1.1 hr1.2,
    UArray2b_at_valid a hv c2 r2 hc2.1 hc2.2 hr2.1 hr2.2] at h
  simp only [Option.some.injEq, Slot.mk.injEq] at h
  obtain ⟨e1, e2, e3⟩ := h
  obtain ⟨e4, e5⟩ := offset_inj a.blocksize _ _ _ _
    (Int.emod_nonneg _ (Int.ne_of_gt hb)) (Int.emod_lt_of_pos _ hb)
    (Int.emod_nonneg _ (Int.ne_of_gt hb)) (Int.emod_lt_of_pos _ hb) e3
  exact ⟨div_mod_inj a.blocksize c1 c2 e1 e5, div_mod_inj a.blocksize r1 r2 e2 e4⟩

/-! ## Failure of the constructors and of the index -/

/-- A non-positive argument makes `UArray2b_new` fail its assertions. -/
theorem UArray2b_new_nonpos {α : Type} [Inhabited α] (w h s bs : Int)
    (hbad : w ≤ 0 ∨ h ≤ 0 ∨ s ≤ 0 ∨ bs ≤ 0) :
    (UArray2b_new w h s bs : Option (UArray2b_T α)) = none := by
  cases hnew : (UArray2b_new w h s bs : Option (UArray2b_T α)) with
  | none => rfl
  | some a =>
    obtain ⟨⟨hw, hh, hs, hb⟩, -⟩ := UArray2b_new_some w h s bs a hnew
    omega

/-- A non-positive argument makes `UArray2b_new_64K_block` fail its assertions. -/
theorem UArray2b_new_64K_block_nonpos {α : Type} [Inhabited α] (w h s : Int)
    (hbad : w ≤ 0 ∨ h ≤ 0 ∨ s ≤ 0) :
    (UArray2b_new_64K_block w h s : Option (UArray2b_T α)) = none := by
  unfold UArray2b_new_64K_block
  by_cases hw : w > 0
  · by_cases hh : h > 0
    · by_cases hs : s > 0
      · omega
      · rw [if_neg (not_not.mpr hw), if_neg (not_not.mpr hh), if_pos hs]
    · rw [if_neg (not_not.mpr hw), if_pos hh]
  · rw [if_pos hw]

/-- With positive arguments `UArray2b_new_64K_block` is `UArray2b_new` at the
chosen blocksize. -/
theorem UArray2b_new_64K_block_pos {α : Type} [Inhabited α] (w h s : Int)
    (hw : 0 < w) (hh : 0 < h) (hs : 0 < s) :
    (UArray2b_new_64K_block w h s : Option (UArray2b_T α))
      = UArray2b_new w h s (UArray2b_new_64K_blocksize s) := by
  unfold UArray2b_new_64K_block
  rw [if_neg (not_not.mpr hw), if_neg (not_not.mpr hh), if_neg (not_not.mpr hs)]

/-- The 64K blocksize is at least 1 and its square is at most 65536. -/
theorem UArray2b_new_64K_blocksize_range (s : Int) (hs : 0 < s) :
    1 ≤ UArray2b_new_64K_blocksize s ∧
      UArray2b_new_64K_blocksize s * UArray2b_new_64K_blocksize s ≤ 65536 := by
  have hval := UArray2b_new_64K_blocksize_eq s hs
  have hfit := sqrt_fits s hs
  have hroot0 : (0 : Int) ≤ ((Nat.sqrt (65536 / s).toNat : Nat) : Int) := Int.ofNat_nonneg _
  refine ⟨by rw [hval]; exact le_max_left _ _, ?_⟩
  rw [hval]
  by_cases h1 : 1 ≤ ((Nat.sqrt (65536 / s).toNat : Nat) : Int)
  · rw [max_eq_right h1]
    have h2 : ((Nat.sqrt (65536 / s).toNat : Nat) : Int)
        * ((Nat.sqrt (65536 / s).toNat : Nat) : Int)
        ≤ ((Nat.sqrt (65536 / s).toNat : Nat) : Int)
          * ((Nat.sqrt (65536 / s).toNat : Nat) : Int) * s := by nlinarith
    omega
  · rw [max_eq_left (by omega)]
    decide

/-- For element size 4 the 64K blocksize is 128. -/
theorem UArray2b_new_64K_blocksize_four : UArray2b_new_64K_blocksize 4 = 128 := by
  have hval := UArray2b_new_64K_blocksize_eq 4 (by decide)
  have hfit := sqrt_fits 4 (by decide)
  have hlow := sqrt_bound 4 128 (by decide) (by decide) (by decide)
  have hroot : ((Nat.sqrt (65536 / (4 : Int)).toNat : Nat) : Int) = 128 := by nlinarith
  rw [hval, hroot]
  decide

/-- `UArray2b_at` fails on every out-of-bounds coordinate, on every array. -/
theorem UArray2b_at_out_of_bounds {α : Type} (a : UArray2b_T α) (col row : Int)
    (hbad : col < 0 ∨ col ≥ a.width ∨ row < 0 ∨ row ≥ a.height) :
    UArray2b_at a col row = none := by
  cases hat : UArray2b_at a col row with
  | none => rfl
  | some p =>
    obtain ⟨hc, hr, -⟩ := UArray2b_at_some a col row p hat
    omega

/-! ## Image transformations -/

/-- One copy step on a lawful method suite: it succeeds, keeps the shape of the
new image, sets the destination pixel and leaves the other pixels unchanged. -/
theorem copy_to_spec {A P α : Type} (m : A2Methods_T A P α) (ok : A → Prop)
    (hl : Lawful m ok) (src : A) (dst : Pnm_ppm A P α) (hm : dst.methods = m)
    (hok : ok dst.pixels) (c r : Int) (elem : P) (hsrc : m.at_ src c r = some elem)
    (dest : Int × Int) (hd1 : 0 ≤ dest.1 ∧ dest.1 < m.width dst.pixels)
    (hd2 : 0 ≤ dest.2 ∧ dest.2 < m.height dst.pixels) :
    ∃ dst1 q0, copy_to dst dest src elem = some dst1 ∧ dst1.methods = m ∧ ok dst1.pixels ∧
      m.width dst1.pixels = m.width dst.pixels ∧ m.height dst1.pixels = m.height dst.pixels ∧
      (∀ c2 r2 : Int, m.at_ dst1.pixels c2 r2 = m.at_ dst.pixels c2 r2) ∧
      m.at_ dst.pixels dest.1 dest.2 = some q0 ∧
      m.load dst1.pixels q0 = m.load src elem ∧
      (∀ q, q ≠ q0 → m.load dst1.pixels q = m.load dst.pixels q) := by
  obtain ⟨q0, hq0⟩ := hl.at_some dst.pixels hok dest.1 dest.2 hd1.1 hd1.2 hd2.1 hd2.2
  obtain ⟨x, hx⟩ := hl.load_some src c r elem hsrc
  obtain ⟨px, hpx⟩ := hl.store_some dst.pixels dest.1 dest.2 q0 x hq0
  refine ⟨⟨dst.width, dst.height, dst.denominator, px, dst.methods⟩, q0, ?_, hm,
    hl.store_ok _ _ _ _ hok hpx, hl.store_width _ _ _ _ hpx, hl.store_height _ _ _ _ hpx,
    hl.store_at _ _ _ _ hpx, hq0, ?_, hl.load_store_other _ _ _ _ hpx⟩
  · unfold copy_to Pnm_rgb_copy
    rw [hm, hq0]
    simp only [hx, hpx]
  · rw [hx]
    exact hl.load_store_same _ _ _ _ hpx

/-- A traversal whose calls copy the pixel at `(col, row)` to the pixel at
`T col row` of the new image, for an injective `T` into the bounds of the new
image: it completes, every visited pixel is found at its destination, and the
pixels that are no destination are unchanged. -/
theorem traverse_copy {A P α : Type} (m : A2Methods_T A P α) (ok : A → Prop)
    (hl : Lawful m ok) (src : A) (W H : Int) (T : Int → Int → Int × Int)
    (step : Pnm_ppm A P α → Int × Int × P → Option (Pnm_ppm A P α))
    (hstep : ∀ (st : Pnm_ppm A P α) (v : Int × Int × P), st.methods = m →
      m.width st.pixels = W → m.height st.pixels = H → m.at_ src v.1 v.2.1 = some v.2.2 →
      step st v = copy_to st (T v.1 v.2.1) src v.2.2)
    (hT : ∀ c r : Int, (0 ≤ c ∧ c < m.width src) → (0 ≤ r ∧ r < m.height src) →
      (0 ≤ (T c r).1 ∧ (T c r).1 < W) ∧ (0 ≤ (T c r).2 ∧ (T c r).2 < H))
    (hinj : ∀ c r c2 r2 : Int, (0 ≤ c ∧ c < m.width src) → (0 ≤ r ∧ r < m.height src) →
      (0 ≤ c2 ∧ c2 < m.width src) → (0 ≤ r2 ∧ r2 < m.height src) →
      T c r = T c2 r2 → c = c2 ∧ r = r2)
    (visits : List (Int × Int × P))
    (hnd : (visits.map (fun v => (v.1, v.2.1))).Nodup)
    (hat : ∀ v ∈ visits, m.at_ src v.1 v.2.1 = some v.2.2)
    (dst : Pnm_ppm A P α) (hm : dst.methods = m) (hok : ok dst.pixels)
    (hw : m.width dst.pixels = W) (hh : m.height dst.pixels = H) :
    ∃ dst2, visits.foldlM step dst = some dst2 ∧ dst2.methods = m ∧ ok dst2.pixels ∧
      m.width dst2.pixels = W ∧ m.height dst2.pixels = H ∧
      (∀ c r : Int, m.at_ dst2.pixels c r = m.at_ dst.pixels c r) ∧
      (∀ v ∈ visits, ∀ q, m.at_ dst.pixels (T v.1 v.2.1).1 (T v.1 v.2.1).2 = some q →
        m.load dst2.pixels q = m.load src v.2.2) ∧
      (∀ (c r : Int) q, m.at_ dst.pixels c r = some q →
        (∀ v ∈ visits, T v.1 v.2.1 ≠ (c, r)) → m.load dst2.pixels q = m.load dst.pixels q) := by
  induction visits generalizing dst with
  | nil =>
    exact ⟨dst, rfl, hm, hok, hw, hh, fun _ _ => rfl,
      fun v hv => absurd hv (List.not_mem_nil v), fun _ _ _ _ _ => rfl⟩
  | cons v vs ih =>
    rw [List.map_cons, List.nodup_cons] at hnd
    have hv := hat v (List.mem_cons_self v vs)
    obtain ⟨hvc, hvr⟩ := hl.at_bounds src v.1 v.2.1 v.2.2 hv
    obtain ⟨hd1, hd2⟩ := hT v.1 v.2.1 hvc hvr
    obtain ⟨dst1, q0, hcopy, hm1, hok1, hw1, hh1, hat1, hq0, hload1, hother1⟩ :=
      copy_to_spec m ok hl src dst hm hok v.1 v.2.1 v.2.2 hv (T v.1 v.2.1)
        (by rw [hw]; exact hd1) (by rw [hh]; exact hd2)
    obtain ⟨dst2, hfold, hm2, hok2, hw2, hh2, hat2, hvis2, hun2⟩ :=
      ih hnd.2 (fun u hu => hat u (List.mem_cons_of_mem v hu)) dst1 hm1 hok1
        (by rw [hw1]; exact hw) (by rw [hh1]; exact hh)
    have hfresh : ∀ u ∈ vs, T u.1 u.2.1 ≠ T v.1 v.2.1 := by
      intro u hu heq
      have hu2 := hat u (List.mem_cons_of_mem v hu)
      obtain ⟨huc, hur⟩ := hl.at_bounds src u.1 u.2.1 u.2.2 hu2
      obtain ⟨e1, e2⟩ := hinj u.1 u.2.1 v.1 v.2.1 huc hur hvc hvr heq
      apply hnd.1
      rw [List.mem_map]
      exact ⟨u, hu, by rw [e1, e2]⟩
    refine ⟨dst2, ?_, hm2, hok2, hw2, hh2, fun c r => by rw [hat2, hat1], ?_, ?_⟩
    · rw [List.foldlM_cons, hstep dst v hm hw hh hv, hcopy]
      exact hfold
    · intro u hu q hq
      rcases List.mem_cons.mp hu with heq | hmem
      · subst heq
        rw [hq0] at hq
        simp only [Option.some.injEq] at hq
        subst hq
        rw [hun2 (T u.1 u.2.1).1 (T u.1 u.2.1).2 q0 (by rw [hat1]; exact hq0) hfresh]
        exact hload1
      · exact hvis2 u hmem q (by rw [hat1]; exact hq)
    · intro c r q hq hnot
      rw [hun2 c r q (by rw [hat1]; exact hq) (fun u hu => hnot u (List.mem_cons_of_mem v hu))]
      apply hother1
      intro heq
      subst heq
      obtain ⟨e1, e2⟩ := hl.at_inj dst.pixels hok c r (T v.1 v.2.1).1 (T v.1 v.2.1).2 q hq hq0
      exact hnot v (List.mem_cons_self v vs) (by rw [e1, e2])

theorem UArray2_at_eq_some {β : Type} (a : UArray2_T β) (c r : Int) (p : Int × Int)
    (h : UArray2_at a c r = some p) :
    p = (c, r) ∧ (0 ≤ c ∧ c < a.width) ∧ (0 ≤ r ∧ r < a.height) := by
  unfold UArray2_at at h
  by_cases hc : 0 ≤ c ∧ c < a.width ∧ 0 ≤ r ∧ r < a.height
  · rw [if_pos hc] at h
    simp only [Option.some.injEq] at h
    exact ⟨h.symm, ⟨hc.1, hc.2.1⟩, ⟨hc.2.2.1, hc.2.2.2⟩⟩
  · rw [if_neg hc] at h
    simp at h

theorem UArray2_store_eq_some {β : Type} (a a2 : UArray2_T β) (p : Int × Int) (v : β)
    (h : UArray2_store a p v = some a2) :
    a2 = UArray2_put a p v ∧ (0 ≤ p.1 ∧ p.1 < a.width ∧ 0 ≤ p.2 ∧ p.2 < a.height) := by
  unfold UArray2_store at h
  by_cases hc : 0 ≤ p.1 ∧ p.1 < a.width ∧ 0 ≤ p.2 ∧ p.2 < a.height
  · rw [if_pos hc] at h
    simp only [Option.some.injEq] at h
    exact ⟨h.symm, hc⟩
  · rw [if_neg hc] at h
    simp at h

/-- The plain backend is a lawful method suite. -/
theorem uarray2_methods_plain_lawful {β : Type} :
    Lawful (uarray2_methods_plain : A2Methods_T (UArray2_T β) (Int × Int) β) (fun _ => True) where
  at_some := by
    intro a _ c r h1 h2 h3 h4
    exact ⟨(c, r), if_pos ⟨h1, h2, h3, h4⟩⟩
  at_bounds := by
    intro a c r p h
    exact (UArray2_at_eq_some a c r p h).2
  at_inj := by
    intro a _ c r c2 r2 p h1 h2
    have e1 := (UArray2_at_eq_some a c r p h1).1
    have e2 := (UArray2_at_eq_some a c2 r2 p h2).1
    rw [e1] at e2
    simp only [Prod.mk.injEq] at e2
    exact e2
  load_some := by
    intro a c r p h
    obtain ⟨e, hc, hr⟩ := UArray2_at_eq_some a c r p h
    subst e
    exact ⟨_, if_pos ⟨hc.1, hc.2, hr.1, hr.2⟩⟩
  store_some := by
    intro a c r p v h
    obtain ⟨e, hc, hr⟩ := UArray2_at_eq_some a c r p h
    subst e
    exact ⟨_, if_pos ⟨hc.1, hc.2, hr.1, hr.2⟩⟩
  store_ok := fun _ _ _ _ _ _ => trivial
  store_width := by
    intro a p v a2 h
    rw [(UArray2_store_eq_some a a2 p v h).1]
    rfl
  store_height := by
    intro a p v a2 h
    rw [(UArray2_store_eq_some a a2 p v h).1]
    rfl
  store_at := by
    intro a p v a2 h c r
    rw [(UArray2_store_eq_some a a2 p v h).1]
    rfl
  load_store_same := by
    intro a p v a2 h
    obtain ⟨e, hb⟩ := UArray2_store_eq_some a a2 p v h
    subst e
    show UArray2_load (UArray2_put a p v) p = some v
    have hb2 : 0 ≤ p.1 ∧ p.1 < (UArray2_put a p v).width ∧ 0 ≤ p.2 ∧
        p.2 < (UArray2_put a p v).height := hb
    unfold UArray2_load
    rw [if_pos hb2]
    simp [UArray2_get, UArray2_put]
  load_store_other := by
    intro a p v a2 h q hq
    obtain ⟨e, hb⟩ := UArray2_store_eq_some a a2 p v h
    subst e
    show UArray2_load (UArray2_put a p v) q = UArray2_load a q
    unfold UArray2_load UArray2_get UArray2_put
    have hne : ¬ (q.1 = p.1 ∧ q.2 = p.2) := fun hx => hq (Prod.ext hx.1 hx.2)
    simp only [if_neg hne]

/-- In-range subtraction of a coordinate and 1 from a dimension does not wrap. -/
theorem flip_coord (d c : Int) (hd : d ≤ INT_MAX) (hc : 0 ≤ c ∧ c < d) :
    int_sub (int_sub d c) 1 = d - 1 - c ∧ (0 ≤ d - 1 - c ∧ d - 1 - c < d) := by
  have hmin : INT_MIN = -2147483648 := rfl
  have hmax : INT_MAX = 2147483647 := rfl
  rw [int_sub_eq d c (by omega) (by omega), int_sub_eq (d - c) 1 (by omega) (by omega)]
  omega

/-- The destination `apply_180` computes for an in-bounds source coordinate. -/
theorem apply_180_step {A P α : Type} (m : A2Methods_T A P α) (src : A) (st : Pnm_ppm A P α)
    (col row : Int) (elem : P) (hm : st.methods = m)
    (hwm : m.width st.pixels ≤ INT_MAX) (hhm : m.height st.pixels ≤ INT_MAX)
    (hc : 0 ≤ col ∧ col < m.width st.pixels) (hr : 0 ≤ row ∧ row < m.height st.pixels) :
    apply_180 col row src elem st =
      copy_to st (m.width st.pixels - 1 - col, m.height st.pixels - 1 - row) src elem := by
  unfold apply_180 copy_to
  simp only [hm]
  rw [(flip_coord _ col hwm hc).1, (flip_coord _ row hhm hr).1]

/-- The destination `apply_90` computes for an in-bounds source coordinate. -/
theorem apply_90_step {A P α : Type} (m : A2Methods_T A P α) (src : A) (st : Pnm_ppm A P α)
    (col row : Int) (elem : P) (hm : st.methods = m) (hhm : m.height src ≤ INT_MAX)
    (hr : 0 ≤ row ∧ row < m.height src) :
    apply_90 col row src elem st = copy_to st (m.height src - 1 - row, col) src elem := by
  unfold apply_90 copy_to
  simp only [hm]
  rw [(flip_coord _ row hhm hr).1]

/-- `apply_270` of `ppmtrans.c` computes the destination of `apply_90`. -/
theorem apply_270_eq_apply_90 {A P α : Type} (col row : Int) (uarray : A) (elem : P)
    (cl : Pnm_ppm A P α) : apply_270 col row uarray elem cl = apply_90 col row uarray elem cl :=
  rfl

/-- A full traversal with `apply_180` into a new image of the dimensions of
the source completes and leaves `old[w-1-col, h-1-row]` at `(col, row)`. -/
theorem run_apply_180 {A P α : Type} (m : A2Methods_T A P α) (ok : A → Prop)
    (hl : Lawful m ok) (src : A) (dst : Pnm_ppm A P α) (visits : List (Int × Int × P))
    (hm : dst.methods = m) (hok : ok dst.pixels)
    (hw : m.width dst.pixels = m.width src) (hh : m.height dst.pixels = m.height src)
    (hwm : m.width src ≤ INT_MAX) (hhm : m.height src ≤ INT_MAX)
    (hfull : FullTraversal m src visits) :
    ∃ dst2, run_map apply_180 src visits dst = some dst2 ∧
      ∀ col row : Int, (0 ≤ col ∧ col < m.width src) → (0 ≤ row ∧ row < m.height src) →
        ∃ q p x, m.at_ dst2.pixels col row = some q ∧
          m.at_ src (m.width src - 1 - col) (m.height src - 1 - row) = some p ∧
          m.load src p = some x ∧ m.load dst2.pixels q = some x := by
  obtain ⟨hnd, hmem, hat⟩ := hfull
  obtain ⟨dst2, hfold, hm2, hok2, hw2, hh2, hat2, hvis, -⟩ :=
    traverse_copy m ok hl src (m.width src) (m.height src)
      (fun c r => (m.width src - 1 - c, m.height src - 1 - r))
      (fun st v => apply_180 v.1 v.2.1 src v.2.2 st)
      (by
        intro st v hst hsw hsh hv
        obtain ⟨hvc, hvr⟩ := hl.at_bounds src v.1 v.2.1 v.2.2 hv
        show apply_180 v.1 v.2.1 src v.2.2 st =
          copy_to st (m.width src - 1 - v.1, m.height src - 1 - v.2.1) src v.2.2
        rw [apply_180_step m src st v.1 v.2.1 v.2.2 hst (by rw [hsw]; exact hwm)
          (by rw [hsh]; exact hhm) (by rw [hsw]; exact hvc) (by rw [hsh]; exact hvr), hsw, hsh])
      (by
        intro c r hc hr
        simp only
        omega)
      (by
        intro c r c2 r2 _ _ _ _ heq
        simp only [Prod.mk.injEq] at heq
        omega)
      visits hnd hat dst hm hok hw hh
  refine ⟨dst2, hfold, ?_⟩
  intro col row hc hr
  have hsrc : (m.width src - 1 - col, m.height src - 1 - row) ∈
      visits.map (fun v => (v.1, v.2.1)) := (hmem _ _).mpr ⟨by omega, by omega⟩
  obtain ⟨v, hv, hveq⟩ := List.mem_map.mp hsrc
  simp only [Prod.mk.injEq] at hveq
  obtain ⟨q, hq⟩ := hl.at_some dst.pixels hok col row hc.1
    (by rw [hw]; exact hc.2) hr.1 (by rw [hh]; exact hr.2)
  have hv2 := hat v hv
  obtain ⟨x, hx⟩ := hl.load_some src v.1 v.2.1 v.2.2 hv2
  have hT1 : m.width src - 1 - v.1 = col := by rw [hveq.1]; omega
  have hT2 : m.height src - 1 - v.2.1 = row := by rw [hveq.2]; omega
  have hload := hvis v hv q (by
    show m.at_ dst.pixels (m.width src - 1 - v.1) (m.height src - 1 - v.2.1) = some q
    rw [hT1, hT2]
    exact hq)
  refine ⟨q, v.2.2, x, by rw [hat2]; exact hq, ?_, hx, by rw [hload]; exact hx⟩
  rw [← hveq.1, ← hveq.2]
  exact hv2

/-- A full traversal with `apply_90` (or with any apply function computing the
same destination) into a new image of width `h` and height `w` completes and
leaves `old[col, row]` at `(h - 1 - row, col)`. -/
theorem run_apply_90 {A P α : Type} (m : A2Methods_T A P α) (ok : A → Prop)
    (hl : Lawful m ok) (src : A) (dst : Pnm_ppm A P α) (visits : List (Int × Int × P))
    (hm : dst.methods = m) (hok : ok dst.pixels)
    (hw : m.width dst.pixels = m.height src) (hh : m.height dst.pixels = m.width src)
    (hhm : m.height src ≤ INT_MAX)
    (hfull : FullTraversal m src visits) :
    ∃ dst2, run_map apply_90 src visits dst = some dst2 ∧
      ∀ col row : Int, (0 ≤ col ∧ col < m.width src) → (0 ≤ row ∧ row < m.height src) →
        ∃ q p x, m.at_ dst2.pixels (m.height src - 1 - row) col = some q ∧
          m.at_ src col row = some p ∧
          m.load src p = some x ∧ m.load dst2.pixels q = some x := by
  obtain ⟨hnd, hmem, hat⟩ := hfull
  obtain ⟨dst2, hfold, hm2, hok2, hw2, hh2, hat2, hvis, -⟩ :=
    traverse_copy m ok hl src (m.height src) (m.width src)
      (fun c r => (m.height src - 1 - r, c))
      (fun st v => apply_90 v.1 v.2.1 src v.2.2 st)
      (by
        intro st v hst _ _ hv
        obtain ⟨hvc, hvr⟩ := hl.at_bounds src v.1 v.2.1 v.2.2 hv
        show apply_90 v.1 v.2.1 src v.2.2 st =
          copy_to st (m.height src - 1 - v.2.1, v.1) src v.2.2
        rw [apply_90_step m src st v.1 v.2.1 v.2.2 hst hhm hvr])
      (by
        intro c r hc hr
        simp only
        omega)
      (by
        intro c r c2 r2 _ _ _ _ heq
        simp only [Prod.mk.injEq] at heq
        omega)
      visits hnd hat dst hm hok hw hh
  refine ⟨dst2, hfold, ?_⟩
  intro col row hc hr
  have hsrc : (col, row) ∈ visits.map (fun v => (v.1, v.2.1)) := (hmem _ _).mpr ⟨hc, hr⟩
  obtain ⟨v, hv, hveq⟩ := List.mem_map.mp hsrc
  simp only [Prod.mk.injEq] at hveq
  obtain ⟨q, hq⟩ := hl.at_some dst.pixels hok (m.height src - 1 - row) col
    (by omega) (by rw [hw]; omega) hc.1 (by rw [hh]; exact hc.2)
  have hv2 := hat v hv
  obtain ⟨x, hx⟩ := hl.load_some src v.1 v.2.1 v.2.2 hv2
  have hload := hvis v hv q (by
    show m.at_ dst.pixels (m.height src - 1 - v.2.1) v.1 = some q
    rw [hveq.1, hveq.2]
    exact hq)
  refine ⟨q, v.2.2, x, by rw [hat2]; exact hq, ?_, hx, by rw [hload]; exact hx⟩
  rw [← hveq.1, ← hveq.2]
  exact hv2

/-! ## Concrete arrays -/

theorem test_array_new : UArray2b_new 5 5 4 2 = some test_array := by
  rw [UArray2b_new_ok 5 5 4 2 (by decide) (by decide) (by decide) (by decide)
    ⟨by decide, by decide, by decide⟩]
  rfl

theorem test_array_valid : Valid test_array :=
  UArray2b_new_valid 5 5 4 2 (by decide) (by decide) (by decide) (by decide)
    ⟨by decide, by decide, by decide⟩ test_array test_array_new

theorem wrapped_array_new : UArray2b_new 10000 46342 1 92682 = some wrapped_array := by
  rw [UArray2b_new_eq 10000 46342 1 92682 (by decide) (by decide) (by decide) (by decide)
    (by decide) (by decide) (by decide)]
  rfl

theorem zero_slot_array_new : UArray2b_new 1 1 1 65536 = some zero_slot_array := by
  rw [UArray2b_new_eq 1 1 1 65536 (by decide) (by decide) (by decide) (by decide)
    (by decide) (by decide) (by decide)]
  rfl

theorem edge_array_new : UArray2b_new 7 7 4 3 = some edge_array := by
  rw [UArray2b_new_ok 7 7 4 3 (by decide) (by decide) (by decide) (by decide)
    ⟨by decide, by decide, by decide⟩]
  rfl

theorem edge_array_valid : Valid edge_array :=
  UArray2b_new_valid 7 7 4 3 (by decide) (by decide) (by decide) (by decide)
    ⟨by decide, by decide, by decide⟩ edge_array edge_array_new

theorem row_major_2x2_full :
    FullTraversal (uarray2_methods_plain : A2Methods_T (UArray2_T Nat) (Int × Int) Nat)
      image_2x2 row_major_2x2 := by
  refine ⟨by decide, ?_, by decide⟩
  intro c r
  have h2 : (uarray2_methods_plain : A2Methods_T (UArray2_T Nat) (Int × Int) Nat).width
      image_2x2 = 2 := rfl
  have h3 : (uarray2_methods_plain : A2Methods_T (UArray2_T Nat) (Int × Int) Nat).height
      image_2x2 = 2 := rfl
  rw [h2, h3]
  simp only [row_major_2x2, List.map_cons, List.map_nil, List.mem_cons, Prod.mk.injEq,
    List.mem_nil_iff, or_false]
  omega

theorem row_major_3x2_full :
    FullTraversal (uarray2_methods_plain : A2Methods_T (UArray2_T Nat) (Int × Int) Nat)
      image_3x2 row_major_3x2 := by
  refine ⟨by decide, ?_, by decide⟩
  intro c r
  have h2 : (uarray2_methods_plain : A2Methods_T (UArray2_T Nat) (Int × Int) Nat).width
      image_3x2 = 3 := rfl
  have h3 : (uarray2_methods_plain : A2Methods_T (UArray2_T Nat) (Int × Int) Nat).height
      image_3x2 = 2 := rfl
  rw [h2, h3]
  simp only [row_major_3x2, List.map_cons, List.map_nil, List.mem_cons, Prod.mk.injEq,
    List.mem_nil_iff, or_false]
  omega

/-- On the plain backend, a pixel of the new image that equals a pixel of the
source, both given through their pointers, in terms of coordinates. -/
theorem plain_pixel_eq {β : Type} (src dst2 : UArray2_T β) (c r c2 r2 : Int)
    (h : ∃ q p x, (uarray2_methods_plain : A2Methods_T (UArray2_T β) (Int × Int) β).at_ dst2 c r
        = some q ∧
      (uarray2_methods_plain : A2Methods_T (UArray2_T β) (Int × Int) β).at_ src c2 r2 = some p ∧
      (uarray2_methods_plain : A2Methods_T (UArray2_T β) (Int × Int) β).load src p = some x ∧
      (uarray2_methods_plain : A2Methods_T (UArray2_T β) (Int × Int) β).load dst2 q = some x) :
    UArray2_load dst2 (c, r) = UArray2_load src (c2, r2) := by
  obtain ⟨q, p, x, hq, hp, hx, hl⟩ := h
  have e1 := (UArray2_at_eq_some dst2 c r q hq).1
  have e2 := (UArray2_at_eq_some src c2 r2 p hp).1
  subst e1
  subst e2
  exact hl.trans hx.symm

/-! ## The light callbacks of the plain backend -/

theorem foldlM_conj {σ τ γ : Type} (ι : τ → σ) (f : σ → γ → Option σ) (g : τ → γ → Option τ)
    (h : ∀ x t, f (ι t) x = (g t x).map ι) :
    ∀ (l : List γ) (t : τ), l.foldlM f (ι t) = (l.foldlM g t).map ι
  | [], t => rfl
  | x :: xs, t => by
    rw [List.foldlM_cons, List.foldlM_cons, h]
    cases hg : g t x with
    | none => rfl
    | some t2 =>
      show xs.foldlM f (ι t2) = (xs.foldlM g t2).map ι
      exact foldlM_conj ι f g h xs t2

/-- Two loops whose bodies correspond under an embedding `ι` of the states of
the second into the states of the first run in lockstep. -/
theorem for_loop_conj {σ τ : Type} (ι : τ → σ) (n : Int) (f : Int → σ → Option σ)
    (g : Int → τ → Option τ) (h : ∀ i t, f i (ι t) = (g i t).map ι) (t : τ) :
    for_loop n f (ι t) = (for_loop n g t).map ι :=
  foldlM_conj ι (fun st (i : Nat) => f (i : Int) st) (fun st (i : Nat) => g (i : Int) st)
    (fun x t => h (x : Int) t) (List.range n.toNat) t

theorem apply_small_conj {β σ : Type} (apply : Int × Int → σ → Option σ) (i j : Int)
    (a : UArray2_T β) (elem : Int × Int) (t : σ) :
    a2plain.apply_small i j a elem ⟨apply, t⟩
      = (apply elem t).map fun t2 => (⟨apply, t2⟩ : small_closure (Int × Int) σ) := by
  show (match apply elem t with
    | none => none
    | some cl2 => some (⟨apply, cl2⟩ : small_closure (Int × Int) σ)) = _
  cases apply elem t <;> rfl

theorem small_map_row_major_eq {β σ : Type} (a2 : UArray2_T β)
    (apply : Int × Int → σ → Option σ) (cl : σ) :
    a2plain.small_map_row_major a2 apply cl
      = a2plain.map_row_major a2 (fun _ _ _ elem cl => apply elem cl) cl := by
  unfold a2plain.small_map_row_major a2plain.map_row_major UArray2_map_row_major
  show Option.map (fun c => c.cl) (for_loop a2.height _ ((fun t => (⟨apply, t⟩ :
    small_closure (Int × Int) σ)) cl)) = _
  rw [for_loop_conj (fun t => (⟨apply, t⟩ : small_closure (Int × Int) σ)) a2.height _
    (fun row cl => for_loop a2.width (fun col cl => apply (col, row) cl) cl)]
  · rw [Option.map_map]
    exact congrFun Option.map_id_fun _
  · intro row t
    exact for_loop_conj (fun t => (⟨apply, t⟩ : small_closure (Int × Int) σ)) a2.width _
      (fun col cl => apply (col, row) cl)
      (fun col t => apply_small_conj apply col row a2 (col, row) t) t

theorem small_map_col_major_eq {β σ : Type} (a2 : UArray2_T β)
    (apply : Int × Int → σ → Option σ) (cl : σ) :
    a2plain.small_map_col_major a2 apply cl
      = a2plain.map_col_major a2 (fun _ _ _ elem cl => apply elem cl) cl := by
  unfold a2plain.small_map_col_major a2plain.map_col_major UArray2_map_col_major
  show Option.map (fun c => c.cl) (for_loop a2.width _ ((fun t => (⟨apply, t⟩ :
    small_closure (Int × Int) σ)) cl)) = _
  rw [for_loop_conj (fun t => (⟨apply, t⟩ : small_closure (Int × Int) σ)) a2.width _
    (fun col cl => for_loop a2.height (fun row cl => apply (col, row) cl) cl)]
  · rw [Option.map_map]
    exact congrFun Option.map_id_fun _
  · intro col t
    exact for_loop_conj (fun t => (⟨apply, t⟩ : small_closure (Int × Int) σ)) a2.height _
      (fun row cl => apply (col, row) cl)
      (fun row t => apply_small_conj apply col row a2 (col, row) t) t

/-! ## Allocation and release -/

theorem mem_run_append (live : List MemObj) (t1 t2 : List MemEvent) :
    mem_run live (t1 ++ t2) = (mem_run live t1).bind fun l => mem_run l t2 := by
  unfold mem_run
  rw [List.foldlM_append]
  rfl

theorem mem_run_of_append (live l1 l2 : List MemObj) (t1 t2 : List MemEvent)
    (h1 : mem_run live t1 = some l1) (h2 : mem_run l1 t2 = some l2) :
    mem_run live (t1 ++ t2) = some l2 := by
  rw [mem_run_append, h1]
  exact h2

theorem mem_run_alloc_access (live : List MemObj) (o : MemObj) (hg : MemObj.grid ∈ live) :
    mem_run live [MemEvent.alloc o, MemEvent.access MemObj.grid] = some (o :: live) := by
  have hg2 : MemObj.grid ∈ o :: live := List.mem_cons_of_mem o hg
  show (mem_step live (MemEvent.alloc o)).bind (fun l =>
    (mem_step l (MemEvent.access MemObj.grid)).bind fun l2 => some l2) = some (o :: live)
  show (if MemObj.grid ∈ o :: live then some (o :: live) else none).bind (fun l2 => some l2)
    = some (o :: live)
  rw [if_pos hg2]
  rfl

theorem mem_run_access_release (live : List MemObj) (o : MemObj) (hg : MemObj.grid ∈ live)
    (ho : o ∈ live) :
    mem_run live [MemEvent.access MemObj.grid, MemEvent.release o] = some (live.erase o) := by
  show (mem_step live (MemEvent.access MemObj.grid)).bind (fun l =>
    (mem_step l (MemEvent.release o)).bind fun l2 => some l2) = some (live.erase o)
  show (if MemObj.grid ∈ live then some live else none).bind (fun l =>
    (mem_step l (MemEvent.release o)).bind fun l2 => some l2) = some (live.erase o)
  rw [if_pos hg]
  show (if o ∈ live then some (live.erase o) else none).bind (fun l2 => some l2)
    = some (live.erase o)
  rw [if_pos ho]
  rfl

/-- The allocations of the blocks of the cells `cs` put these blocks on the heap. -/
theorem mem_run_new_cells (cs : List (Int × Int)) :
    ∀ live : List MemObj, MemObj.grid ∈ live →
      mem_run live (cs.flatMap fun p =>
        [MemEvent.alloc (MemObj.block p.1 p.2), MemEvent.access MemObj.grid])
      = some ((cs.map fun p => MemObj.block p.1 p.2).reverse ++ live) := by
  induction cs with
  | nil => intro live _; rfl
  | cons p t ih =>
    intro live hg
    rw [List.flatMap_cons]
    refine mem_run_of_append live _ _ _ _ (mem_run_alloc_access live _ hg) ?_
    rw [ih _ (List.mem_cons_of_mem _ hg)]
    simp

/-- The releases of the blocks of distinct cells `cs` take exactly these blocks
off the heap. -/
theorem mem_run_free_cells (cs : List (Int × Int)) :
    ∀ live : List MemObj, cs.Nodup → MemObj.grid ∈ live →
      mem_run ((cs.map fun p => MemObj.block p.1 p.2).reverse ++ live) (cs.flatMap fun p =>
        [MemEvent.access MemObj.grid, MemEvent.release (MemObj.block p.1 p.2)])
      = some live := by
  induction cs with
  | nil => intro live _ _; rfl
  | cons p t ih =>
    intro live hnd hg
    have hp : p ∉ t := (List.nodup_cons.mp hnd).1
    have hnot : MemObj.block p.1 p.2 ∉ (t.map fun q => MemObj.block q.1 q.2).reverse := by
      intro hmem
      rw [List.mem_reverse, List.mem_map] at hmem
      obtain ⟨q, hq, he⟩ := hmem
      have e1 : q.1 = p.1 := by injection he
      have e2 : q.2 = p.2 := by injection he
      exact hp (by rw [← Prod.ext e1 e2]; exact hq)
    have hheap : ((p :: t).map fun q => MemObj.block q.1 q.2).reverse ++ live
        = (t.map fun q => MemObj.block q.1 q.2).reverse ++ (MemObj.block p.1 p.2 :: live) := by
      simp
    rw [hheap, List.flatMap_cons]
    refine mem_run_of_append _ _ _ _ _ (mem_run_access_release _ (MemObj.block p.1 p.2)
      (List.mem_append_right _ (List.mem_cons_of_mem _ hg))
      (List.mem_append_right _ (List.mem_cons_self _ _))) ?_
    rw [List.erase_append_right _ hnot, List.erase_cons_head]
    exact ih live (List.nodup_cons.mp hnd).2 hg

theorem grid_cells_nodup (cb rb : Int) : (grid_cells cb rb).Nodup := by
  unfold grid_cells
  refine nodup_flatMap_range rb.toNat _ (fun p => p.2) ?_ ?_
  · intro i _ x hx
    obtain ⟨c, _, hc⟩ := List.mem_map.mp hx
    rw [← hc]
  · intro i _
    refine (List.nodup_range cb.toNat).map ?_
    intro c1 c2 h
    have e : (c1 : Int) = (c2 : Int) := by injection h
    exact Int.ofNat.inj e

theorem mem_grid_cells (cb rb : Int) (p : Int × Int) :
    p ∈ grid_cells cb rb ↔ (0 ≤ p.1 ∧ p.1 < cb) ∧ (0 ≤ p.2 ∧ p.2 < rb) := by
  unfold grid_cells
  simp only [List.mem_flatMap, List.mem_map, List.mem_range]
  constructor
  · rintro ⟨row, hrow, col, hcol, rfl⟩
    exact ⟨⟨Int.ofNat_nonneg col, Int.lt_toNat.mp hcol⟩,
      ⟨Int.ofNat_nonneg row, Int.lt_toNat.mp hrow⟩⟩
  · rintro ⟨⟨hc0, hc1⟩, ⟨hr0, hr1⟩⟩
    refine ⟨p.2.toNat, ?_, p.1.toNat, ?_, ?_⟩
    · rw [Int.lt_toNat, Int.toNat_of_nonneg hr0]
      exact hr1
    · rw [Int.lt_toNat, Int.toNat_of_nonneg hc0]
      exact hc1
    · rw [Int.toNat_of_nonneg hc0, Int.toNat_of_nonneg hr0]

theorem grid_cells_length (cb rb : Int) :
    (grid_cells cb rb).length = rb.toNat * cb.toNat := by
  unfold grid_cells
  induction rb.toNat with
  | zero => simp
  | succ k ih =>
    rw [List.range_succ, List.flatMap_append, List.length_append, ih]
    simp [Nat.succ_mul]

theorem mem_run_access_twice (live : List MemObj) (hg : MemObj.grid ∈ live) :
    mem_run live [MemEvent.access MemObj.grid, MemEvent.access MemObj.grid] = some live := by
  show (if MemObj.grid ∈ live then some live else none).bind (fun l =>
    (mem_step l (MemEvent.access MemObj.grid)).bind fun l2 => some l2) = some live
  rw [if_pos hg]
  show (if MemObj.grid ∈ live then some live else none).bind (fun l2 => some l2) = some live
  rw [if_pos hg]
  rfl

theorem mem_run_release_grid_handle (live0 : List MemObj) :
    mem_run (MemObj.grid :: MemObj.handle :: live0)
      [MemEvent.release MemObj.grid, MemEvent.release MemObj.handle] = some live0 := by
  show (if MemObj.grid ∈ MemObj.grid :: MemObj.handle :: live0 then
      some ((MemObj.grid :: MemObj.handle :: live0).erase MemObj.grid) else none).bind
    (fun l => (mem_step l (MemEvent.release MemObj.handle)).bind fun l2 => some l2)
    = some live0
  rw [if_pos (List.mem_cons_self _ _), List.erase_cons_head]
  show (if MemObj.handle ∈ MemObj.handle :: live0 then
      some ((MemObj.handle :: live0).erase MemObj.handle) else none).bind
    (fun l2 => some l2) = some live0
  rw [if_pos (List.mem_cons_self _ _), List.erase_cons_head]
  rfl

/-- The events of a construction followed by the events of a destruction leave
the heap as it was. -/
theorem mem_run_new_free (cb rb : Int) (live0 : List MemObj) :
    mem_run live0 (UArray2b_new_trace cb rb ++ UArray2b_free_trace cb rb) = some live0 := by
  unfold UArray2b_new_trace UArray2b_free_trace
  have hg : MemObj.grid ∈ MemObj.grid :: MemObj.handle :: live0 := List.mem_cons_self _ _
  have hg2 : MemObj.grid ∈ ((grid_cells cb rb).map fun p => MemObj.block p.1 p.2).reverse
      ++ (MemObj.grid :: MemObj.handle :: live0) := List.mem_append_right _ hg
  refine mem_run_of_append live0
    (((grid_cells cb rb).map fun p => MemObj.block p.1 p.2).reverse
      ++ (MemObj.grid :: MemObj.handle :: live0)) live0 _ _ ?_ ?_
  · exact mem_run_of_append live0 (MemObj.grid :: MemObj.handle :: live0) _ _ _ rfl
      (mem_run_new_cells _ _ hg)
  · refine mem_run_of_append _ (MemObj.grid :: MemObj.handle :: live0) live0 _ _ ?_
      (mem_run_release_grid_handle live0)
    exact mem_run_of_append _ _ _ _ _ (mem_run_access_twice _ hg2)
      (mem_run_free_cells _ _ (grid_cells_nodup cb rb) hg)
theorem foldlM_proj {σ τ γ : Type} (π : σ → τ) (f : σ → γ → Option σ) (g : τ → γ → Option τ)
    (h : ∀ x s, (f s x).map π = g (π s) x) :
    ∀ (l : List γ) (s : σ), (l.foldlM f s).map π = l.foldlM g (π s)
  | [], _ => rfl
  | x :: xs, s => by
    rw [List.foldlM_cons, List.foldlM_cons, ← h]
    cases hf : f s x with
    | none => rfl
    | some s2 =>
      show (xs.foldlM f s2).map π = xs.foldlM g (π s2)
      exact foldlM_proj π f g h xs s2

/-- A loop on a state with extra components projects to the loop on the state
without them when the bodies do. -/
theorem for_loop_proj {σ τ : Type} (π : σ → τ) (n : Int) (f : Int → σ → Option σ)
    (g : Int → τ → Option τ) (h : ∀ i s, (f i s).map π = g i (π s)) (s : σ) :
    (for_loop n f s).map π = for_loop n g (π s) :=
  foldlM_proj π (fun st (i : Nat) => f (i : Int) st) (fun st (i : Nat) => g (i : Int) st)
    (fun x s => h (x : Int) s) (List.range n.toNat) s

theorem foldlM_range_some_proj {σ γ : Type} (proj : σ → List γ) (body : Int → σ → Option σ)
    (F : Nat → List γ) (m : Nat)
    (hstep : ∀ i : Nat, i < m → ∀ st st2, body (i : Int) st = some st2 →
      proj st2 = proj st ++ F i)
    (s s2 : σ)
    (h : (List.range m).foldlM (fun st (i : Nat) => body (i : Int) st) s = some s2) :
    proj s2 = proj s ++ (List.range m).flatMap F := by
  induction m generalizing s2 with
  | zero =>
    simp only [List.range_zero, List.foldlM_nil, pure, Option.some.injEq] at h
    simp [h]
  | succ k ih =>
    rw [List.range_succ, List.foldlM_append] at h
    cases h1 : List.foldlM (fun st (i : Nat) => body (i : Int) st) s (List.range k) with
    | none => rw [h1] at h; simp [bind] at h
    | some s1 =>
      rw [h1] at h
      simp only [bind, Option.bind, List.foldlM_cons, List.foldlM_nil] at h
      cases h2 : body (k : Int) s1 with
      | none => rw [h2] at h; simp at h
      | some s3 =>
        rw [h2] at h
        simp only [pure, Option.some.injEq] at h
        subst h
        have e1 := ih (fun i hi st st2 hb => hstep i (Nat.lt_succ_of_lt hi) st st2 hb) s1 h1
        have e2 := hstep k (Nat.lt_succ_self k) s1 s3 h2
        rw [e2, e1, List.range_succ, List.flatMap_append]
        simp

/-- A loop whose iterations, when they do not abort, append the list `F i` to a
log kept in the state has appended the concatenation of these lists when it does
not abort. -/
theorem for_loop_some_proj {σ γ : Type} (proj : σ → List γ) (body : Int → σ → Option σ)
    (F : Nat → List γ) (n : Int)
    (hstep : ∀ i : Nat, i < n.toNat → ∀ st st2, body (i : Int) st = some st2 →
      proj st2 = proj st ++ F i)
    (s s2 : σ) (h : for_loop n body s = some s2) :
    proj s2 = proj s ++ (List.range n.toNat).flatMap F :=
  foldlM_range_some_proj proj body F n.toNat hstep s s2 h

/-- A loop with at least one iteration whose body always aborts aborts. -/
theorem for_loop_none {σ : Type} (n : Int) (f : Int → σ → Option σ) (s : σ) (hn : 0 < n)
    (h : ∀ i st, f i st = none) : for_loop n f s = none := by
  unfold for_loop
  have hpos : 0 < n.toNat := Int.lt_toNat.mpr hn
  obtain ⟨k, hk⟩ := Nat.exists_eq_succ_of_ne_zero (Nat.pos_iff_ne_zero.mp hpos)
  rw [hk, List.range_succ_eq_map, List.foldlM_cons, h]
  rfl

theorem UArray2b_new_fill_mem_fst {α : Type} [Inhabited α] (size bs cb rb : Int)
    (g : UArray2_T (Option (UArray_T α))) (tr : List MemEvent) :
    (UArray2b_new_fill_mem size bs cb rb g tr).map Prod.fst = UArray2b_new_fill size bs cb rb g := by
  unfold UArray2b_new_fill_mem UArray2b_new_fill
  refine for_loop_proj Prod.fst rb _ _ ?_ (g, tr)
  intro row st
  refine for_loop_proj Prod.fst cb _ _ ?_ st
  intro col st2
  cases (UArray_new (int_mul bs bs) size : Option (UArray_T α)) with
  | none => rfl
  | some block =>
    show Option.map Prod.fst (match UArray2_at st2.1 col row with
      | none => none
      | some p => some (UArray2_put st2.1 p (some block),
          st2.2 ++ [MemEvent.alloc (MemObj.block p.1 p.2), MemEvent.access MemObj.grid]))
      = (match UArray2_at st2.1 col row with
      | none => none
      | some p => some (UArray2_put st2.1 p (some block)))
    cases UArray2_at st2.1 col row <;> rfl

/-- What a `UArray2b_new_mem` that returns has done. -/
theorem UArray2b_new_mem_inv {α : Type} [Inhabited α] (w h s bs : Int)
    (r : UArray2b_T α × List MemEvent) (hnew : UArray2b_new_mem w h s bs = some r) :
    (0 < w ∧ 0 < h ∧ 0 < s ∧ 0 < bs) ∧
    (0 ≤ UArray2b_new_col_block w bs ∧ 0 ≤ UArray2b_new_col_block h bs) ∧
    ∃ st, UArray2b_new_fill_mem s bs (UArray2b_new_col_block w bs) (UArray2b_new_col_block h bs)
        (⟨UArray2b_new_col_block w bs, UArray2b_new_col_block h bs, 8, fun _ _ => default⟩ :
          UArray2_T (Option (UArray_T α)))
        [MemEvent.alloc MemObj.handle, MemEvent.alloc MemObj.grid] = some st ∧
      r = (⟨w, h, s, bs, st.1⟩, st.2) := by
  unfold UArray2b_new_mem at hnew
  by_cases hw : w > 0
  · by_cases hh : h > 0
    · by_cases hs : s > 0
      · by_cases hb : bs > 0
        · rw [if_neg (not_not.mpr hw), if_neg (not_not.mpr hh), if_neg (not_not.mpr hs),
            if_neg (not_not.mpr hb)] at hnew
          simp only [] at hnew
          cases h0 : (UArray2_new (UArray2b_new_col_block w bs) (UArray2b_new_col_block h bs) 8 :
              Option (UArray2_T (Option (UArray_T α)))) with
          | none => rw [h0] at hnew; simp at hnew
          | some blocks0 =>
            rw [h0] at hnew
            simp only [] at hnew
            unfold UArray2_new at h0
            by_cases hc : 0 ≤ UArray2b_new_col_block w bs ∧
                0 ≤ UArray2b_new_col_block h bs ∧ (0 : Int) < 8
            · rw [if_pos hc] at h0
              simp only [Option.some.injEq] at h0
              subst h0
              cases h1 : UArray2b_new_fill_mem s bs (UArray2b_new_col_block w bs)
                  (UArray2b_new_col_block h bs)
                  (⟨UArray2b_new_col_block w bs, UArray2b_new_col_block h bs, 8,
                    fun _ _ => default⟩ : UArray2_T (Option (UArray_T α)))
                  [MemEvent.alloc MemObj.handle, MemEvent.alloc MemObj.grid] with
              | none => rw [h1] at hnew; simp at hnew
              | some st =>
                rw [h1] at hnew
                simp only [Option.some.injEq] at hnew
                exact ⟨⟨hw, hh, hs, hb⟩, ⟨hc.1, hc.2.1⟩, st, rfl, hnew.symm⟩
            · rw [if_neg hc] at h0
              simp at h0
        · rw [if_neg (not_not.mpr hw), if_neg (not_not.mpr hh), if_neg (not_not.mpr hs),
            if_pos hb] at hnew
          simp at hnew
      · rw [if_neg (not_not.mpr hw), if_neg (not_not.mpr hh), if_pos hs] at hnew
        simp at hnew
    · rw [if_neg (not_not.mpr hw), if_pos hh] at hnew
      simp at hnew
  · rw [if_pos hw] at hnew
    simp at hnew
/-- The instrumented constructor returns the array of `UArray2b_new`. -/
theorem UArray2b_new_mem_fst {α : Type} [Inhabited α] (w h s bs : Int) :
    (UArray2b_new_mem w h s bs : Option (UArray2b_T α × List MemEvent)).map Prod.fst
      = UArray2b_new w h s bs := by
  unfold UArray2b_new_mem UArray2b_new
  by_cases hw : w > 0
  · by_cases hh : h > 0
    · by_cases hs : s > 0
      · by_cases hb : bs > 0
        · simp only [if_neg (not_not.mpr hw), if_neg (not_not.mpr hh), if_neg (not_not.mpr hs),
            if_neg (not_not.mpr hb)]
          cases (UArray2_new (UArray2b_new_col_block w bs) (UArray2b_new_col_block h bs) 8 :
              Option (UArray2_T (Option (UArray_T α)))) with
          | none => rfl
          | some blocks0 =>
            simp only []
            rw [← UArray2b_new_fill_mem_fst s bs _ _ blocks0
              [MemEvent.alloc MemObj.handle, MemEvent.alloc MemObj.grid]]
            cases UArray2b_new_fill_mem s bs (UArray2b_new_col_block w bs)
                (UArray2b_new_col_block h bs) blocks0
                [MemEvent.alloc MemObj.handle, MemEvent.alloc MemObj.grid] <;> rfl
        · simp only [if_neg (not_not.mpr hw), if_neg (not_not.mpr hh), if_neg (not_not.mpr hs),
            if_pos hb]
          rfl
      · simp only [if_neg (not_not.mpr hw), if_neg (not_not.mpr hh), if_pos hs]
        rfl
    · simp only [if_neg (not_not.mpr hw), if_pos hh]
      rfl
  · simp only [if_pos hw]
    rfl

theorem UArray2b_new_mem_of_new {α : Type} [Inhabited α] (w h s bs : Int) (a : UArray2b_T α)
    (hnew : UArray2b_new w h s bs = some a) :
    ∃ tr, (UArray2b_new_mem w h s bs : Option (UArray2b_T α × List MemEvent)) = some (a, tr) := by
  have e := @UArray2b_new_mem_fst α _ w h s bs
  rw [hnew] at e
  cases hm : (UArray2b_new_mem w h s bs : Option (UArray2b_T α × List MemEvent)) with
  | none => rw [hm] at e; simp at e
  | some r =>
    rw [hm] at e
    simp only [Option.map_some', Option.some.injEq] at e
    exact ⟨r.2, by rw [← e]⟩

theorem UArray2b_new_of_mem {α : Type} [Inhabited α] (w h s bs : Int)
    (r : UArray2b_T α × List MemEvent) (hnew : UArray2b_new_mem w h s bs = some r) :
    UArray2b_new w h s bs = some r.1 := by
  rw [← UArray2b_new_mem_fst, hnew]
  rfl

/-- The events of a `UArray2b_new_mem` that returns. -/
theorem UArray2b_new_mem_trace {α : Type} [Inhabited α] (w h s bs : Int)
    (r : UArray2b_T α × List MemEvent) (hnew : UArray2b_new_mem w h s bs = some r) :
    r.2 = UArray2b_new_trace r.1.blocks.width r.1.blocks.height := by
  have hdims := (UArray2b_new_some w h s bs r.1 (UArray2b_new_of_mem w h s bs r hnew)).2.2
  obtain ⟨_, _, st, hfill, hr⟩ := UArray2b_new_mem_inv w h s bs r hnew
  rw [hdims.1, hdims.2]
  have e2 : r.2 = st.2 := by rw [hr]
  rw [e2]
  unfold UArray2b_new_fill_mem at hfill
  unfold UArray2b_new_trace grid_cells
  rw [List.flatMap_assoc]
  refine for_loop_some_proj Prod.snd _ _ _ ?_ _ st hfill
  intro row _ st1 st2 hb
  have e := for_loop_some_proj Prod.snd _
    (fun (col : Nat) => [MemEvent.alloc (MemObj.block (col : Int) (row : Int)),
      MemEvent.access MemObj.grid]) _ ?_ st1 st2 hb
  · rw [e]
    congr 1
    induction (List.range (UArray2b_new_col_block w bs).toNat) with
    | nil => rfl
    | cons x xs ih => simp [List.flatMap_cons, ih]
  · intro col _ st3 st4 hb2
    cases hn : (UArray_new (int_mul bs bs) s : Option (UArray_T α)) with
    | none =>
      rw [hn] at hb2
      simp at hb2
    | some block =>
      rw [hn] at hb2
      simp only [] at hb2
      cases hat : UArray2_at st3.1 (col : Int) (row : Int) with
      | none =>
        rw [hat] at hb2
        simp at hb2
      | some p =>
        rw [hat] at hb2
        simp only [Option.some.injEq] at hb2
        have hp := (UArray2_at_eq_some st3.1 _ _ p hat).1
        rw [← hb2, hp]

/-- Every cell of the grid of an array that `UArray2b_new` returns holds a block. -/
theorem UArray2b_new_cells {α : Type} [Inhabited α] (w h s bs : Int) (a : UArray2b_T α)
    (hnew : UArray2b_new w h s bs = some a) (c r : Int)
    (hc : 0 ≤ c ∧ c < a.blocks.width) (hr : 0 ≤ r ∧ r < a.blocks.height) :
    ∃ b, a.blocks.cells c r = some b := by
  obtain ⟨tr, hmem⟩ := UArray2b_new_mem_of_new w h s bs a hnew
  obtain ⟨hpos, hnn, st, hfill, hr2⟩ := UArray2b_new_mem_inv w h s bs (a, tr) hmem
  have hdims := (UArray2b_new_some w h s bs a hnew).2.2
  have ha : a.blocks = st.1 := by
    have := congrArg Prod.fst hr2
    simp only at this
    rw [this]
  have hfill2 := UArray2b_new_fill_mem_fst s bs (UArray2b_new_col_block w bs)
    (UArray2b_new_col_block h bs)
    (⟨UArray2b_new_col_block w bs, UArray2b_new_col_block h bs, 8, fun _ _ => default⟩ :
      UArray2_T (Option (UArray_T α)))
    [MemEvent.alloc MemObj.handle, MemEvent.alloc MemObj.grid]
  rw [hfill] at hfill2
  simp only [Option.map_some'] at hfill2
  rw [hdims.1] at hc
  rw [hdims.2] at hr
  by_cases hlen : 0 ≤ int_mul bs bs
  · rw [UArray2b_new_fill_eq s bs _ _ hpos.2.2.1 hnn.1 hnn.2 hlen] at hfill2
    simp only [Option.some.injEq] at hfill2
    rw [ha, hfill2]
    unfold UArray2b_new_blocks
    simp only []
    rw [if_pos ⟨hc.1, hc.2, hr.1, hr.2⟩]
    exact ⟨_, rfl⟩
  · exfalso
    have hcb : 0 < UArray2b_new_col_block w bs := lt_of_le_of_lt hc.1 hc.2
    have hrb : 0 < UArray2b_new_col_block h bs := lt_of_le_of_lt hr.1 hr.2
    have hnone : (UArray_new (int_mul bs bs) s : Option (UArray_T α)) = none := by
      unfold UArray_new
      rw [if_neg (fun hh => hlen hh.1)]
    have : UArray2b_new_fill s bs (UArray2b_new_col_block w bs) (UArray2b_new_col_block h bs)
        (⟨UArray2b_new_col_block w bs, UArray2b_new_col_block h bs, 8, fun _ _ => default⟩ :
          UArray2_T (Option (UArray_T α))) = none := by
      unfold UArray2b_new_fill
      refine for_loop_none _ _ _ hrb ?_
      intro row g
      refine for_loop_none _ _ _ hcb ?_
      intro col g2
      show (match (UArray_new (int_mul bs bs) s : Option (UArray_T α)) with
        | none => none
        | some block =>
          match UArray2_at g2 col row with
          | none => none
          | some p => some (UArray2_put g2 p (some block))) = none
      rw [hnone]
    rw [this] at hfill2
    simp at hfill2

/-- On an array whose grid cells all hold a block, `UArray2b_free` returns, the
caller's handle is NULL afterwards, and the events are those of
`UArray2b_free_trace`. -/
theorem UArray2b_free_eq {α : Type} (a : UArray2b_T α)
    (hcells : ∀ c r : Int, (0 ≤ c ∧ c < a.blocks.width) → (0 ≤ r ∧ r < a.blocks.height) →
      ∃ b, a.blocks.cells c r = some b) :
    UArray2b_free (some (some a))
      = some (none, UArray2b_free_trace a.blocks.width a.blocks.height) := by
  have hloop : for_loop (UArray2_height a.blocks) (fun row tr =>
        for_loop (UArray2_width a.blocks) (fun col tr =>
          match UArray2_at a.blocks col row with
          | none => none
          | some block =>
            match UArray_free (UArray2_get a.blocks block) with
            | none => none
            | some _ => some (tr ++ [MemEvent.access MemObj.grid,
                MemEvent.release (MemObj.block block.1 block.2)])) tr)
        [MemEvent.access MemObj.grid, MemEvent.access MemObj.grid]
      = some ([MemEvent.access MemObj.grid, MemEvent.access MemObj.grid] ++
        (grid_cells a.blocks.width a.blocks.height).flatMap fun p =>
          [MemEvent.access MemObj.grid, MemEvent.release (MemObj.block p.1 p.2)]) := by
    have hfold : ∀ (l : List (Int × Int)) (init : List MemEvent),
        l.foldl (fun tr p => tr ++ [MemEvent.access MemObj.grid,
          MemEvent.release (MemObj.block p.1 p.2)]) init
        = init ++ l.flatMap fun p =>
          [MemEvent.access MemObj.grid, MemEvent.release (MemObj.block p.1 p.2)] := by
      intro l
      induction l with
      | nil => intro init; simp
      | cons x xs ih => intro init; simp [ih]
    rw [← hfold]
    unfold grid_cells UArray2_height UArray2_width
    refine for_loop_eq_foldl_flatMap _ _ _ _ _ ?_
    intro row hrow st
    refine for_loop_eq_foldl_map _ _ _ _ _ ?_
    intro col hcol st2
    have hrow1 : (row : Int) < a.blocks.height := Int.lt_toNat.mp hrow
    have hcol1 : (col : Int) < a.blocks.width := Int.lt_toNat.mp hcol
    have hrow0 : (0 : Int) ≤ (row : Int) := Int.ofNat_nonneg row
    have hcol0 : (0 : Int) ≤ (col : Int) := Int.ofNat_nonneg col
    have hat : UArray2_at a.blocks (col : Int) (row : Int) = some ((col : Int), (row : Int)) := by
      unfold UArray2_at
      rw [if_pos ⟨hcol0, hcol1, hrow0, hrow1⟩]
    obtain ⟨b, hb⟩ := hcells col row ⟨hcol0, hcol1⟩ ⟨hrow0, hrow1⟩
    have hfree : UArray_free (UArray2_get a.blocks ((col : Int), (row : Int))) = some () := by
      unfold UArray2_get
      simp only []
      rw [hb]
      rfl
    simp only [hat, hfree]
  unfold UArray2b_free
  simp only []
  rw [hloop]
  rfl
/-- On an array reached from a constructed array by client operations,
`UArray2b_free` returns with the events of `UArray2b_free_trace`. -/
theorem UArray2b_free_reachable {α σ : Type} [Inhabited α] (w h s bs : Int)
    (a a2 : UArray2b_T α) (ops : List (Op α σ))
    (hnew : UArray2b_new w h s bs = some a) (hops : Op.runAll a ops = some a2) :
    UArray2b_free (some (some a2))
      = some (none, UArray2b_free_trace a2.blocks.width a2.blocks.height) := by
  have hsh := Op.runAll_shape ops a a2 hops
  refine UArray2b_free_eq a2 ?_
  intro c r hc hr
  rw [hsh.2.2.2.2.1] at hc
  rw [hsh.2.2.2.2.2.1] at hr
  obtain ⟨b, hb⟩ := UArray2b_new_cells w h s bs a hnew c r hc hr
  have e := hsh.2.2.2.2.2.2 c r
  rw [hb] at e
  cases h2 : a2.blocks.cells c r with
  | none => rw [h2] at e; simp at e
  | some b2 => exact ⟨b2, rfl⟩

/-- In the concatenation of the lists `F y` over distinct `y`, an event that
occurs once in `F x` and in no other `F y` occurs once. -/
theorem count_flatMap_unique {γ : Type} (F : γ → List MemEvent) (e : MemEvent) (x : γ)
    (h1 : (F x).count e = 1) (h0 : ∀ y, y ≠ x → (F y).count e = 0) :
    ∀ cs : List γ, cs.Nodup → x ∈ cs → (cs.flatMap F).count e = 1 := by
  have hzero : ∀ cs : List γ, x ∉ cs → (cs.flatMap F).count e = 0 := by
    intro cs
    induction cs with
    | nil => intro _; rfl
    | cons p t ih =>
      intro hx
      rw [List.flatMap_cons, List.count_append,
        h0 p (fun hp => hx (by rw [hp]; exact List.mem_cons_self _ _)),
        ih (fun ht => hx (List.mem_cons_of_mem _ ht))]
  intro cs
  induction cs with
  | nil => intro _ hx; exact absurd hx (List.not_mem_nil x)
  | cons p t ih =>
    intro hnd hx
    rw [List.flatMap_cons, List.count_append]
    by_cases hp : p = x
    · subst hp
      rw [h1, hzero t (List.nodup_cons.mp hnd).1]
    · have hxt : x ∈ t := by
        rcases List.mem_cons.mp hx with h | h
        · exact absurd h.symm hp
        · exact h
      rw [h0 p hp, ih (List.nodup_cons.mp hnd).2 hxt]

theorem block_ne_of_ne (y : Int × Int) (c r : Int) (hy : y ≠ (c, r)) :
    ¬ (MemObj.block y.1 y.2 = MemObj.block c r) := by
  intro he
  have e1 : y.1 = c := by injection he
  have e2 : y.2 = r := by injection he
  exact hy (Prod.ext e1 e2)

/-- The construction allocates the block of every grid cell exactly once. -/
theorem UArray2b_new_trace_count (cb rb c r : Int) (hc : 0 ≤ c ∧ c < cb) (hr : 0 ≤ r ∧ r < rb) :
    (UArray2b_new_trace cb rb).count (MemEvent.alloc (MemObj.block c r)) = 1 := by
  unfold UArray2b_new_trace
  rw [List.count_append, count_flatMap_unique _ _ (c, r) ?_ ?_ _ (grid_cells_nodup cb rb)
    ((mem_grid_cells cb rb (c, r)).mpr ⟨hc, hr⟩)]
  · simp [List.count_cons]
  · simp [List.count_cons]
  · intro y hy
    have hne := block_ne_of_ne y c r hy
    simp [List.count_cons, hne]

/-- The destruction releases the block of every grid cell exactly once. -/
theorem UArray2b_free_trace_count (cb rb c r : Int) (hc : 0 ≤ c ∧ c < cb) (hr : 0 ≤ r ∧ r < rb) :
    (UArray2b_free_trace cb rb).count (MemEvent.release (MemObj.block c r)) = 1 := by
  unfold UArray2b_free_trace
  rw [List.count_append, List.count_append,
    count_flatMap_unique _ _ (c, r) ?_ ?_ _ (grid_cells_nodup cb rb)
      ((mem_grid_cells cb rb (c, r)).mpr ⟨hc, hr⟩)]
  · simp [List.count_cons]
  · simp [List.count_cons]
  · intro y hy
    have hne := block_ne_of_ne y c r hy
    simp [List.count_cons, hne]

/-- The destruction releases the grid once and the handle once. -/
theorem UArray2b_free_trace_count_grid (cb rb : Int) :
    (UArray2b_free_trace cb rb).count (MemEvent.release MemObj.grid) = 1 ∧
    (UArray2b_free_trace cb rb).count (MemEvent.release MemObj.handle) = 1 := by
  have hgrid : ∀ cs : List (Int × Int), (cs.flatMap fun p =>
      [MemEvent.access MemObj.grid, MemEvent.release (MemObj.block p.1 p.2)]).count
        (MemEvent.release MemObj.grid) = 0 := by
    intro cs
    induction cs with
    | nil => rfl
    | cons p t ih => rw [List.flatMap_cons, List.count_append, ih]; simp [List.count_cons]
  have hhandle : ∀ cs : List (Int × Int), (cs.flatMap fun p =>
      [MemEvent.access MemObj.grid, MemEvent.release (MemObj.block p.1 p.2)]).count
        (MemEvent.release MemObj.handle) = 0 := by
    intro cs
    induction cs with
    | nil => rfl
    | cons p t ih => rw [List.flatMap_cons, List.count_append, ih]; simp [List.count_cons]
  unfold UArray2b_free_trace
  refine ⟨?_, ?_⟩
  · rw [List.count_append, List.count_append, hgrid]
    simp [List.count_cons]
  · rw [List.count_append, List.count_append, hhandle]
    simp [List.count_cons]

/-! ## Clipping and the range of the inner accesses -/

/-- The active width of the block column `bc` (and likewise the active height
of a block row): the minimum of the blocksize and what is left of the array,
between 1 and the blocksize, and the blocksize except in the last column. -/
theorem UArray2b_map_clip_facts (bs w bc : Int) (hb : 0 < bs) (hno : w + bs - 1 ≤ INT_MAX)
    (h0 : 0 ≤ bc) (h1 : bc < (w + bs - 1) / bs) :
    UArray2b_map_clip bs w bc = min bs (w - bc * bs) ∧
    (1 ≤ UArray2b_map_clip bs w bc ∧ UArray2b_map_clip bs w bc ≤ bs) ∧
    (bc + 1 < (w + bs - 1) / bs → UArray2b_map_clip bs w bc = bs) := by
  obtain ⟨e, hpos⟩ := UArray2b_map_clip_eq bs w bc hb hno h0 h1
  rw [e]
  refine ⟨rfl, ⟨le_min hb hpos, min_le_left _ _⟩, ?_⟩
  intro h2
  have hle : bc + 2 ≤ (w + bs - 1) / bs := by
    have := Int.add_one_le_of_lt h2
    linarith
  have hmul := mul_le_mul_of_nonneg_right hle (le_of_lt hb)
  have hspec := (ceil_div_spec w bs hb).2
  have : bs ≤ w - bc * bs := by nlinarith
  exact min_eq_left this

theorem short_block_array_new : UArray2b_new 1 3 1 65537 = some short_block_array := by
  rw [UArray2b_new_eq 1 3 1 65537 (by decide) (by decide) (by decide) (by decide)
    (by decide) (by decide) (by decide)]
  rfl

/-- On an array satisfying the invariant, what `UArray2b_at` computes for an
in-bounds coordinate pair is in range: the block is a cell of the grid, the index
is a slot of that block, and the call returns. -/
theorem UArray2b_at_in_range {α : Type} (a : UArray2b_T α) (hv : Valid a) (col row : Int)
    (hc : 0 ≤ col ∧ col < a.width) (hr : 0 ≤ row ∧ row < a.height) :
    (0 ≤ col / a.blocksize ∧ col / a.blocksize < a.blocks.width) ∧
    (0 ≤ row / a.blocksize ∧ row / a.blocksize < a.blocks.height) ∧
    (0 ≤ row % a.blocksize * a.blocksize + col % a.blocksize ∧
      row % a.blocksize * a.blocksize + col % a.blocksize < a.blocksize * a.blocksize) ∧
    (∃ b, a.blocks.cells (col / a.blocksize) (row / a.blocksize) = some b ∧
      b.length = a.blocksize * a.blocksize) ∧
    UArray2b_at a col row = some ⟨col / a.blocksize, row / a.blocksize,
      row % a.blocksize * a.blocksize + col % a.blocksize⟩ := by
  have hat := UArray2b_at_valid a hv col row hc.1 hc.2 hr.1 hr.2
  obtain ⟨_, _, _, _, _, hbc, hbr, _⟩ := UArray2b_at_some a col row _ hat
  simp only at hbc hbr
  have hb := hv.blocksize_pos
  obtain ⟨b, hb1, hb2⟩ := hv.block_slots _ _ hbc.1 hbc.2 hbr.1 hbr.2
  exact ⟨hbc, hbr,
    offset_lt a.blocksize _ _ (Int.emod_nonneg _ (ne_of_gt hb)) (Int.emod_lt_of_pos _ hb)
      (Int.emod_nonneg _ (ne_of_gt hb)) (Int.emod_lt_of_pos _ hb),
    ⟨b, hb1, hb2⟩, hat⟩

/-- On an array satisfying the invariant, every pointer a traversal passes to
the callback designates a slot of a block of the grid. -/
theorem UArray2b_map_in_range {α : Type} (a : UArray2b_T α) (hv : Valid a)
    (v : Int × Int × Slot) (hmem : v ∈ UArray2b_map_visits a) :
    (0 ≤ v.2.2.block_col ∧ v.2.2.block_col < a.blocks.width) ∧
    (0 ≤ v.2.2.block_row ∧ v.2.2.block_row < a.blocks.height) ∧
    (0 ≤ v.2.2.index ∧ v.2.2.index < a.blocksize * a.blocksize) ∧
    (∃ b, a.blocks.cells v.2.2.block_col v.2.2.block_row = some b ∧
      b.length = a.blocksize * a.blocksize) ∧
    ∃ i j : Int, (0 ≤ i ∧ i < a.blocksize) ∧ (0 ≤ j ∧ j < a.blocksize) ∧
      v.2.2.index = i * a.blocksize + j := by
  have hat := (mem_visits_iff_at a hv v).mp hmem
  obtain ⟨hc, hr, _⟩ := UArray2b_at_some a v.1 v.2.1 v.2.2 hat
  obtain ⟨h1, h2, h3, h4, h5⟩ := UArray2b_at_in_range a hv v.1 v.2.1 hc hr
  rw [hat] at h5
  have e : v.2.2 = ⟨v.1 / a.blocksize, v.2.1 / a.blocksize,
      v.2.1 % a.blocksize * a.blocksize + v.1 % a.blocksize⟩ := Option.some.inj h5
  have hb := hv.blocksize_pos
  rw [e]
  exact ⟨h1, h2, h3, h4, v.2.1 % a.blocksize, v.1 % a.blocksize,
    ⟨Int.emod_nonneg _ (ne_of_gt hb), Int.emod_lt_of_pos _ hb⟩,
    ⟨Int.emod_nonneg _ (ne_of_gt hb), Int.emod_lt_of_pos _ hb⟩, rfl⟩

/-! ## A write and the other elements -/

/-- A write through a pointer leaves the element behind any other pointer as
it was. -/
theorem Slot_store_load_other {α : Type} (a a2 : UArray2b_T α) (p q : Slot) (v : α)
    (h : Slot_store a p v = some a2) (hne : q ≠ p) : Slot_load a2 q = Slot_load a q := by
  unfold Slot_store at h
  cases hcell : a.blocks.cells p.block_col p.block_row with
  | none => rw [hcell] at h; simp at h
  | some b =>
    rw [hcell] at h
    simp only [] at h
    by_cases hi : 0 ≤ p.index ∧ p.index < b.length
    · rw [if_pos hi] at h
      simp only [Option.some.injEq] at h
      subst h
      unfold Slot_load
      simp only [UArray2_put]
      by_cases hcr : q.block_col = p.block_col ∧ q.block_row = p.block_row
      · rw [if_pos hcr, hcr.1, hcr.2, hcell]
        simp only []
        have hidx : ¬ (q.index = p.index) := by
          intro e
          apply hne
          cases q
          cases p
          simp only [Slot.mk.injEq]
          exact ⟨hcr.1, hcr.2, e⟩
        rw [if_neg hidx]
      · rw [if_neg hcr]
    · rw [if_neg hi] at h
      simp at h

/-- The invariant depends on the shape of the array only, which writes keep. -/
theorem Valid_of_SameShape {α : Type} (a a2 : UArray2b_T α) (hv : Valid a)
    (hs : SameShape a a2) : Valid a2 := by
  obtain ⟨e1, e2, e3, e4, e5, e6, e7⟩ := hs
  refine ⟨by rw [e1]; exact hv.width_pos, by rw [e2]; exact hv.height_pos,
    by rw [e3]; exact hv.size_pos, by rw [e4]; exact hv.blocksize_pos,
    by rw [e1, e2, e4]; exact hv.no_overflow,
    by rw [e5, e1, e4]; exact hv.grid_width,
    by rw [e6, e2, e4]; exact hv.grid_height, ?_⟩
  intro c r hc0 hc1 hr0 hr1
  rw [e5] at hc1
  rw [e6] at hr1
  obtain ⟨b, hb1, hb2⟩ := hv.block_slots c r hc0 hc1 hr0 hr1
  have e := e7 c r
  rw [hb1] at e
  cases h2 : a2.blocks.cells c r with
  | none => rw [h2] at e; simp at e
  | some b2 =>
    rw [h2] at e
    simp only [Option.map_some', Option.some.injEq] at e
    exact ⟨b2, rfl, by rw [e, hb2, e4]⟩

/-- On an array satisfying the invariant, a write through the pointer of one
in-bounds coordinate pair leaves the element of every other in-bounds coordinate
pair, the pointers and the four accessors as they were. -/
theorem UArray2b_write_frame {α : Type} (a : UArray2b_T α) (hv : Valid a)
    (c1 r1 c2 r2 : Int) (v : α)
    (hc1 : 0 ≤ c1 ∧ c1 < a.width) (hr1 : 0 ≤ r1 ∧ r1 < a.height)
    (hc2 : 0 ≤ c2 ∧ c2 < a.width) (hr2 : 0 ≤ r2 ∧ r2 < a.height)
    (hne : ¬ (c1 = c2 ∧ r1 = r2)) :
    ∃ p1 p2 a2, UArray2b_at a c1 r1 = some p1 ∧ UArray2b_at a c2 r2 = some p2 ∧ p1 ≠ p2 ∧
      Slot_store a p1 v = some a2 ∧ Valid a2 ∧
      UArray2b_at a2 c2 r2 = some p2 ∧ Slot_load a2 p2 = Slot_load a p2 ∧
      (UArray2b_at a2 c2 r2).bind (Slot_load a2) = (UArray2b_at a c2 r2).bind (Slot_load a) ∧
      (UArray2b_width a2 = UArray2b_width a ∧ UArray2b_height a2 = UArray2b_height a ∧
        UArray2b_size a2 = UArray2b_size a ∧ UArray2b_blocksize a2 = UArray2b_blocksize a) := by
  have h1 := UArray2b_at_valid a hv c1 r1 hc1.1 hc1.2 hr1.1 hr1.2
  have h2 := UArray2b_at_valid a hv c2 r2 hc2.1 hc2.2 hr2.1 hr2.2
  have hp : (⟨c1 / a.blocksize, r1 / a.blocksize,
      r1 % a.blocksize * a.blocksize + c1 % a.blocksize⟩ : Slot)
      ≠ ⟨c2 / a.blocksize, r2 / a.blocksize,
        r2 % a.blocksize * a.blocksize + c2 % a.blocksize⟩ := by
    intro e
    apply hne
    refine UArray2b_at_inj_valid a hv c1 r1 c2 r2 hc1 hr1 hc2 hr2 ?_
    rw [h1, h2, e]
  obtain ⟨a2, hst, -⟩ := Slot_store_load a c1 r1 _ v h1
  have hsh := Slot_store_shape a a2 _ v hst
  have hat2 : UArray2b_at a2 c2 r2 = UArray2b_at a c2 r2 := UArray2b_at_shape a a2 hsh c2 r2
  have hload := Slot_store_load_other a a2 _ _ v hst (Ne.symm hp)
  refine ⟨_, _, a2, h1, h2, hp, hst, Valid_of_SameShape a a2 hv hsh, by rw [hat2, h2], hload, ?_,
    ⟨hsh.1, hsh.2.1, hsh.2.2.1, hsh.2.2.2.1⟩⟩
  rw [hat2, h2]
  exact hload
/-! ## Destinations in bounds and independence of the traversal order -/

theorem apply_copy_step {A P α : Type} (src : A) (st : Pnm_ppm A P α) (col row : Int)
    (elem : P) : apply_copy col row src elem st = copy_to st (col, row) src elem :=
  rfl

/-- A call that copies to an in-bounds destination of the new image returns. -/
theorem writesTo_of_copy {A P α : Type} (m : A2Methods_T A P α) (ok : A → Prop)
    (hl : Lawful m ok) (src : A) (dst : Pnm_ppm A P α) (hm : dst.methods = m)
    (hok : ok dst.pixels) (col row : Int) (elem : P) (helem : m.at_ src col row = some elem)
    (result : Option (Pnm_ppm A P α)) (dest : Int × Int)
    (hres : result = copy_to dst dest src elem)
    (hd1 : 0 ≤ dest.1 ∧ dest.1 < m.width dst.pixels)
    (hd2 : 0 ≤ dest.2 ∧ dest.2 < m.height dst.pixels) :
    WritesTo m src elem dst result dest := by
  obtain ⟨dst1, q0, hcopy, -, -, -, -, -, hq0, -, -⟩ :=
    copy_to_spec m ok hl src dst hm hok col row elem helem dest hd1 hd2
  exact ⟨hres, hd1, hd2, ⟨q0, hq0⟩, dst1, by rw [hres]; exact hcopy⟩

/-- A transformation whose calls copy the source pixel at `(col, row)` to
`T col row`, with `T` a bijection from the in-bounds coordinates of the source
to those of the new image, does not depend on the order of the traversal. -/
theorem order_independent_of_copy {A P α : Type} (m : A2Methods_T A P α) (ok : A → Prop)
    (hl : Lawful m ok) (src : A) (dst : Pnm_ppm A P α) (hm : dst.methods = m)
    (hok : ok dst.pixels)
    (apply : Int → Int → A → P → Pnm_ppm A P α → Option (Pnm_ppm A P α))
    (T : Int → Int → Int × Int)
    (hstep : ∀ (st : Pnm_ppm A P α) (col row : Int) (elem : P), st.methods = m →
      m.width st.pixels = m.width dst.pixels → m.height st.pixels = m.height dst.pixels →
      (0 ≤ col ∧ col < m.width src) → (0 ≤ row ∧ row < m.height src) →
      apply col row src elem st = copy_to st (T col row) src elem)
    (hT : ∀ c r : Int, (0 ≤ c ∧ c < m.width src) → (0 ≤ r ∧ r < m.height src) →
      (0 ≤ (T c r).1 ∧ (T c r).1 < m.width dst.pixels) ∧
      (0 ≤ (T c r).2 ∧ (T c r).2 < m.height dst.pixels))
    (hinj : ∀ c r c2 r2 : Int, (0 ≤ c ∧ c < m.width src) → (0 ≤ r ∧ r < m.height src) →
      (0 ≤ c2 ∧ c2 < m.width src) → (0 ≤ r2 ∧ r2 < m.height src) →
      T c r = T c2 r2 → c = c2 ∧ r = r2)
    (hsurj : ∀ c r : Int, (0 ≤ c ∧ c < m.width dst.pixels) →
      (0 ≤ r ∧ r < m.height dst.pixels) →
      ∃ c0 r0 : Int, (0 ≤ c0 ∧ c0 < m.width src) ∧ (0 ≤ r0 ∧ r0 < m.height src) ∧
        T c0 r0 = (c, r)) :
    OrderIndependent m src dst apply T := by
  have hstep2 : ∀ (st : Pnm_ppm A P α) (v : Int × Int × P), st.methods = m →
      m.width st.pixels = m.width dst.pixels → m.height st.pixels = m.height dst.pixels →
      m.at_ src v.1 v.2.1 = some v.2.2 →
      (fun st v => apply v.1 v.2.1 src v.2.2 st) st v
        = copy_to st (T v.1 v.2.1) src v.2.2 := by
    intro st v hst hw hh hv
    obtain ⟨hvc, hvr⟩ := hl.at_bounds src v.1 v.2.1 v.2.2 hv
    exact hstep st v.1 v.2.1 v.2.2 hst hw hh hvc hvr
  -- a visit of one full traversal has its twin in any other
  have htwin : ∀ visits1 visits2 : List (Int × Int × P),
      FullTraversal m src visits1 → FullTraversal m src visits2 →
      ∀ v1 ∈ visits1, v1 ∈ visits2 := by
    intro visits1 visits2 hf1 hf2 v1 hv1
    have hin : (v1.1, v1.2.1) ∈ visits1.map (fun v => (v.1, v.2.1)) :=
      List.mem_map.mpr ⟨v1, hv1, rfl⟩
    have hin2 := (hf2.2.1 v1.1 v1.2.1).mpr ((hf1.2.1 v1.1 v1.2.1).mp hin)
    obtain ⟨v2, hv2, heq⟩ := List.mem_map.mp hin2
    simp only [Prod.mk.injEq] at heq
    have hp1 := hf1.2.2 v1 hv1
    have hp2 := hf2.2.2 v2 hv2
    rw [heq.1, heq.2, hp1] at hp2
    have hp : v1.2.2 = v2.2.2 := Option.some.inj hp2
    have : v2 = v1 := by
      obtain ⟨a1, b1, p1⟩ := v1
      obtain ⟨a2, b2, p2⟩ := v2
      simp only at heq hp
      rw [heq.1, heq.2, hp]
    rw [← this]
    exact hv2
  refine ⟨hstep, hinj, ?_, ?_⟩
  · intro visits1 visits2 hf1 hf2
    obtain ⟨d1, hfold1, hm1, -, hw1, hh1, hat1, hvis1, hrest1⟩ :=
      traverse_copy m ok hl src (m.width dst.pixels) (m.height dst.pixels) T
        (fun st v => apply v.1 v.2.1 src v.2.2 st) hstep2 hT hinj visits1 hf1.1 hf1.2.2
        dst hm hok rfl rfl
    obtain ⟨d2, hfold2, hm2, -, hw2, hh2, hat2, hvis2, hrest2⟩ :=
      traverse_copy m ok hl src (m.width dst.pixels) (m.height dst.pixels) T
        (fun st v => apply v.1 v.2.1 src v.2.2 st) hstep2 hT hinj visits2 hf2.1 hf2.2.2
        dst hm hok rfl rfl
    refine ⟨d1, d2, hfold1, hfold2, hm1.trans hm2.symm, hw1.trans hw2.symm,
      hh1.trans hh2.symm, fun c r => (hat1 c r).trans (hat2 c r).symm, ?_⟩
    intro c r q hq
    rw [hat1] at hq
    by_cases hex : ∃ v ∈ visits1, T v.1 v.2.1 = (c, r)
    · obtain ⟨v, hv, hTv⟩ := hex
      have hq2 : m.at_ dst.pixels (T v.1 v.2.1).1 (T v.1 v.2.1).2 = some q := by
        rw [hTv]
        exact hq
      rw [hvis1 v hv q hq2, hvis2 v (htwin visits1 visits2 hf1 hf2 v hv) q hq2]
    · have hno1 : ∀ v ∈ visits1, T v.1 v.2.1 ≠ (c, r) := fun v hv hTv => hex ⟨v, hv, hTv⟩
      have hno2 : ∀ v ∈ visits2, T v.1 v.2.1 ≠ (c, r) :=
        fun v hv hTv => hex ⟨v, htwin visits2 visits1 hf2 hf1 v hv, hTv⟩
      rw [hrest1 c r q hq hno1, hrest2 c r q hq hno2]
  · intro visits hf c r hc hr
    obtain ⟨c0, r0, hc0, hr0, hT0⟩ := hsurj c r hc hr
    have hin : (c0, r0) ∈ visits.map (fun v => (v.1, v.2.1)) := (hf.2.1 c0 r0).mpr ⟨hc0, hr0⟩
    obtain ⟨v, hv, heq⟩ := List.mem_map.mp hin
    simp only [Prod.mk.injEq] at heq
    refine ⟨v, hv, by rw [heq.1, heq.2]; exact hT0, ?_⟩
    intro v2 hv2 hT2
    have hp1 := hf.2.2 v hv
    have hp2 := hf.2.2 v2 hv2
    obtain ⟨hb1, hb2⟩ := hl.at_bounds src v2.1 v2.2.1 v2.2.2 hp2
    have hcoord := hinj v2.1 v2.2.1 c0 r0 hb1 hb2 hc0 hr0 (hT2.trans hT0.symm)
    rw [hcoord.1, hcoord.2, ← heq.1, ← heq.2, hp1] at hp2
    have hp : v.2.2 = v2.2.2 := Option.some.inj hp2
    obtain ⟨a1, b1, p1⟩ := v
    obtain ⟨a2, b2, p2⟩ := v2
    simp only at heq hp hcoord
    rw [hcoord.1, hcoord.2, ← heq.1, ← heq.2, hp]
theorem col_major_3x2_full :
    FullTraversal (uarray2_methods_plain : A2Methods_T (UArray2_T Nat) (Int × Int) Nat)
      image_3x2 col_major_3x2 := by
  refine ⟨by decide, ?_, by decide⟩
  intro c r
  have h2 : (uarray2_methods_plain : A2Methods_T (UArray2_T Nat) (Int × Int) Nat).width
      image_3x2 = 3 := rfl
  have h3 : (uarray2_methods_plain : A2Methods_T (UArray2_T Nat) (Int × Int) Nat).height
      image_3x2 = 2 := rfl
  rw [h2, h3]
  simp only [col_major_3x2, List.map_cons, List.map_nil, List.mem_cons, Prod.mk.injEq,
    List.mem_nil_iff, or_false]
  omega

theorem order_independent_copy {A P α : Type} (m : A2Methods_T A P α) (ok : A → Prop)
    (hl : Lawful m ok) (src : A) (dst : Pnm_ppm A P α) (hm : dst.methods = m)
    (hok : ok dst.pixels)
    (hw : m.width dst.pixels = m.width src) (hh : m.height dst.pixels = m.height src) :
    OrderIndependent m src dst apply_copy (fun c r => (c, r)) := by
  refine order_independent_of_copy m ok hl src dst hm hok apply_copy _ ?_ ?_ ?_ ?_
  · intro st col row elem _ _ _ _ _
    rfl
  · intro c r hc hr
    rw [hw, hh]
    exact ⟨hc, hr⟩
  · intro c r c2 r2 _ _ _ _ heq
    simp only [Prod.mk.injEq] at heq
    exact heq
  · intro c r hc hr
    rw [hw] at hc
    rw [hh] at hr
    exact ⟨c, r, hc, hr, rfl⟩

theorem order_independent_90 {A P α : Type} (m : A2Methods_T A P α) (ok : A → Prop)
    (hl : Lawful m ok) (src : A) (dst : Pnm_ppm A P α) (hm : dst.methods = m)
    (hok : ok dst.pixels)
    (hw : m.width dst.pixels = m.height src) (hh : m.height dst.pixels = m.width src)
    (hhm : m.height src ≤ INT_MAX) :
    OrderIndependent m src dst apply_90 (fun c r => (m.height src - 1 - r, c)) := by
  refine order_independent_of_copy m ok hl src dst hm hok apply_90 _ ?_ ?_ ?_ ?_
  · intro st col row elem hst _ _ _ hr
    exact apply_90_step m src st col row elem hst hhm hr
  · intro c r hc hr
    rw [hw, hh]
    simp only
    omega
  · intro c r c2 r2 _ _ _ _ heq
    simp only [Prod.mk.injEq] at heq
    omega
  · intro c r hc hr
    rw [hw] at hc
    rw [hh] at hr
    refine ⟨r, m.height src - 1 - c, hr, by omega, ?_⟩
    show (m.height src - 1 - (m.height src - 1 - c), r) = (c, r)
    rw [Prod.mk.injEq]
    exact ⟨by omega, rfl⟩

theorem order_independent_180 {A P α : Type} (m : A2Methods_T A P α) (ok : A → Prop)
    (hl : Lawful m ok) (src : A) (dst : Pnm_ppm A P α) (hm : dst.methods = m)
    (hok : ok dst.pixels)
    (hw : m.width dst.pixels = m.width src) (hh : m.height dst.pixels = m.height src)
    (hwm : m.width src ≤ INT_MAX) (hhm : m.height src ≤ INT_MAX) :
    OrderIndependent m src dst apply_180
      (fun c r => (m.width src - 1 - c, m.height src - 1 - r)) := by
  refine order_independent_of_copy m ok hl src dst hm hok apply_180 _ ?_ ?_ ?_ ?_
  · intro st col row elem hst hsw hsh hc hr
    have e := apply_180_step m src st col row elem hst (by rw [hsw, hw]; exact hwm)
      (by rw [hsh, hh]; exact hhm) (by rw [hsw, hw]; exact hc) (by rw [hsh, hh]; exact hr)
    rw [hsw, hsh, hw, hh] at e
    exact e
  · intro c r hc hr
    rw [hw, hh]
    simp only
    omega
  · intro c r c2 r2 _ _ _ _ heq
    simp only [Prod.mk.injEq] at heq
    omega
  · intro c r hc hr
    rw [hw] at hc
    rw [hh] at hr
    refine ⟨m.width src - 1 - c, m.height src - 1 - r, by omega, by omega, ?_⟩
    simp only [Prod.mk.injEq]
    omega
/-! ## Blocksize 1 and the single block: row-major order -/

/-- The cells of `grid_cells w h` are in increasing order of `row * w + col`. -/
theorem grid_cells_sorted (w h : Int) :
    List.Pairwise (fun p q : Int × Int => p.2 * w + p.1 < q.2 * w + q.1) (grid_cells w h) := by
  unfold grid_cells
  refine pairwise_flatMap_range _ _ _ ?_ ?_
  · intro i _
    refine pairwise_map_range _ _ _ ?_
    intro c1 c2 hlt _
    have : (c1 : Int) < (c2 : Int) := Int.ofNat_lt.mpr hlt
    show (i : Int) * w + (c1 : Int) < (i : Int) * w + (c2 : Int)
    linarith
  · intro i1 i2 hlt _ x hx y hy
    obtain ⟨c1, hc1, rfl⟩ := List.mem_map.mp hx
    obtain ⟨c2, _, rfl⟩ := List.mem_map.mp hy
    have h1 : (c1 : Int) < w := Int.lt_toNat.mp (List.mem_range.mp hc1)
    have h2 : (0 : Int) ≤ (c2 : Int) := Int.ofNat_nonneg c2
    have h0 : (0 : Int) ≤ (c1 : Int) := Int.ofNat_nonneg c1
    have h3 : (i1 : Int) + 1 ≤ (i2 : Int) := by
      have : (i1 : Int) < (i2 : Int) := Int.ofNat_lt.mpr hlt
      linarith
    have hw : 0 < w := lt_of_le_of_lt h0 h1
    have h4 : ((i1 : Int) + 1) * w ≤ (i2 : Int) * w :=
      mul_le_mul_of_nonneg_right h3 (le_of_lt hw)
    show (i1 : Int) * w + (c1 : Int) < (i2 : Int) * w + (c2 : Int)
    nlinarith

/-- On an array with blocksize 1 that satisfies the invariant, the grid has the
dimensions of the array and the traversal visits the cells row by row. -/
theorem visits_blocksize_one {α : Type} (a : UArray2b_T α) (hv : Valid a)
    (hb1 : a.blocksize = 1) :
    (a.blocks.width = a.width ∧ a.blocks.height = a.height) ∧
    UArray2b_map_visits a
      = (grid_cells a.width a.height).map fun p => (p.1, p.2, (⟨p.1, p.2, 0⟩ : Slot)) := by
  have hgw : a.blocks.width = a.width := by
    rw [hv.grid_width, hb1]
    simp
  have hgh : a.blocks.height = a.height := by
    rw [hv.grid_height, hb1]
    simp
  refine ⟨⟨hgw, hgh⟩, ?_⟩
  have hclip : ∀ (d : Int) (k : Nat), d + a.blocksize - 1 ≤ INT_MAX →
      (k : Int) < (d + a.blocksize - 1) / a.blocksize →
      (UArray2b_map_clip a.blocksize d k).toNat = 1 := by
    intro d k hno hk
    obtain ⟨e, hpos⟩ := UArray2b_map_clip_eq a.blocksize d k hv.blocksize_pos hno
      (Int.ofNat_nonneg k) hk
    rw [e, hb1, min_eq_left (by rw [hb1] at hpos; linarith)]
    rfl
  unfold UArray2b_map_visits grid_cells
  rw [hgw, hgh, List.map_flatMap]
  refine List.flatMap_congr ?_
  intro row hrow
  have hrow1 : (row : Int) < (a.height + a.blocksize - 1) / a.blocksize := by
    rw [← hv.grid_height, hgh]
    exact Int.lt_toNat.mp (List.mem_range.mp hrow)
  rw [List.map_map, List.map_eq_flatMap]
  refine List.flatMap_congr ?_
  intro col hcol
  have hcol1 : (col : Int) < (a.width + a.blocksize - 1) / a.blocksize := by
    rw [← hv.grid_width, hgw]
    exact Int.lt_toNat.mp (List.mem_range.mp hcol)
  rw [hclip a.height row hv.no_overflow.2.1 hrow1, hclip a.width col hv.no_overflow.1 hcol1]
  have hr1 : List.range 1 = [0] := rfl
  rw [hr1]
  simp [hb1]

/-- On an array of a single block that satisfies the invariant, the grid is 1
by 1 and the traversal visits the cells row by row, at offset
`row * blocksize + col`. -/
theorem visits_single_block {α : Type} (a : UArray2b_T α) (hv : Valid a)
    (hwb : a.width ≤ a.blocksize) (hhb : a.height ≤ a.blocksize) :
    (a.blocks.width = 1 ∧ a.blocks.height = 1) ∧
    UArray2b_map_visits a
      = (grid_cells a.width a.height).map fun p =>
          (p.1, p.2, (⟨0, 0, p.2 * a.blocksize + p.1⟩ : Slot)) := by
  have hb := hv.blocksize_pos
  have hone : ∀ d : Int, 0 < d → d ≤ a.blocksize → (d + a.blocksize - 1) / a.blocksize = 1 := by
    intro d hd hdb
    obtain ⟨s1, s2⟩ := ceil_div_spec d a.blocksize hb
    have hlo : 0 < (d + a.blocksize - 1) / a.blocksize := ceil_div_pos d a.blocksize hd hb
    have hhi : (d + a.blocksize - 1) / a.blocksize < 2 := by
      by_contra hge
      have hge2 : 2 ≤ (d + a.blocksize - 1) / a.blocksize := not_lt.mp hge
      have := mul_le_mul_of_nonneg_right hge2 (le_of_lt hb)
      linarith
    omega
  have hgw : a.blocks.width = 1 := by rw [hv.grid_width]; exact hone _ hv.width_pos hwb
  have hgh : a.blocks.height = 1 := by rw [hv.grid_height]; exact hone _ hv.height_pos hhb
  refine ⟨⟨hgw, hgh⟩, ?_⟩
  have hclip : ∀ d : Int, 0 < d → d ≤ a.blocksize → d + a.blocksize - 1 ≤ INT_MAX →
      UArray2b_map_clip a.blocksize d ((0 : Nat) : Int) = d := by
    intro d hd hdb hno
    obtain ⟨e, -⟩ := UArray2b_map_clip_eq a.blocksize d ((0 : Nat) : Int) hb hno
      (Int.ofNat_nonneg 0) (by rw [hone d hd hdb]; decide)
    rw [e]
    simp only [Nat.cast_zero, zero_mul, sub_zero]
    exact min_eq_right hdb
  unfold UArray2b_map_visits grid_cells
  rw [hgw, hgh]
  have hr1 : List.range (1 : Int).toNat = [0] := rfl
  rw [hr1, List.flatMap_singleton, List.flatMap_singleton,
    hclip a.height hv.height_pos hhb hv.no_overflow.2.1,
    hclip a.width hv.width_pos hwb hv.no_overflow.1, List.map_flatMap]
  refine List.flatMap_congr ?_
  intro i _
  rw [List.map_map]
  refine List.map_congr_left ?_
  intro j _
  simp

/-- The row-major traversal of the plain backend calls the callback for the
cells of `grid_cells`, in this order. -/
theorem map_row_major_coords {β : Type} (p : UArray2_T β) :
    a2plain.map_row_major p (fun col row _ _ log => some (log ++ [(col, row)])) []
      = some (grid_cells p.width p.height) := by
  have h := foldl_log (grid_cells p.width p.height) []
  rw [List.nil_append] at h
  rw [← h]
  unfold a2plain.map_row_major UArray2_map_row_major grid_cells
  refine for_loop_eq_foldl_flatMap _ _ _ _ _ ?_
  intro row _ st
  exact for_loop_eq_foldl_map _ _ _ _ _ (fun col _ st2 => rfl)

/-! ## Properties of the specification -/

/-- C1 (amended). On every blocked array built without `int` overflow (the
invariant `Valid`) and every in-bounds `(col, row)`, `UArray2b_at` succeeds and
addresses the slot in block `(col / bs, row / bs)` at in-block offset
`(row % bs) * bs + (col % bs)`. -/
theorem UArray2b_at_block_offset {α : Type} (a : UArray2b_T α) (hv : Valid a) (col row : Int)
    (hc : 0 ≤ col ∧ col < a.width) (hr : 0 ≤ row ∧ row < a.height) :
    UArray2b_at a col row =
      some ⟨col / a.blocksize, row / a.blocksize,
        row % a.blocksize * a.blocksize + col % a.blocksize⟩ :=
  UArray2b_at_valid a hv col row hc.1 hc.2 hr.1 hr.2

/-- Witness of C1 on the 5 by 5 test array with blocksize 2 at `(3, 4)`. -/
theorem UArray2b_at_block_offset_witness :
    Valid test_array ∧ ((0 : Int) ≤ 3 ∧ 3 < test_array.width) ∧
    ((0 : Int) ≤ 4 ∧ 4 < test_array.height) ∧
    UArray2b_at test_array 3 4 =
      some ⟨3 / test_array.blocksize, 4 / test_array.blocksize,
        4 % test_array.blocksize * test_array.blocksize + 3 % test_array.blocksize⟩ :=
  ⟨test_array_valid, by decide, by decide,
    UArray2b_at_block_offset test_array test_array_valid 3 4 (by decide) (by decide)⟩

/-- Counterexample to C1 as stated: the array `UArray2b_new(10000, 46342, 1, 92682)`
has blocksize `92682 > 0` and `(0, 46341)` is in bounds, yet `UArray2b_at` addresses
offset `9266` of block `(0, 0)`, not `(46341 % 92682) * 92682 + 0 % 92682`. -/
theorem UArray2b_at_block_offset_wraps :
    UArray2b_new 10000 46342 1 92682 = some wrapped_array ∧
    ((0 : Int) ≤ 0 ∧ 0 < wrapped_array.width) ∧
    ((0 : Int) ≤ 46341 ∧ 46341 < wrapped_array.height) ∧
    UArray2b_at wrapped_array 0 46341 = some ⟨0, 0, 9266⟩ ∧
    UArray2b_at wrapped_array 0 46341 ≠
      some ⟨0 / wrapped_array.blocksize, 46341 / wrapped_array.blocksize,
        46341 % wrapped_array.blocksize * wrapped_array.blocksize
          + 0 % wrapped_array.blocksize⟩ :=
  ⟨wrapped_array_new, by decide, by decide, by decide, by decide⟩

/-- C2 (amended). On every blocked array built without `int` overflow the
mapping computed by `UArray2b_at` is injective: two in-bounds coordinate pairs
that are addressed to the same block and the same in-block offset are equal. -/
theorem UArray2b_at_injective {α : Type} (a : UArray2b_T α) (hv : Valid a)
    (c1 r1 c2 r2 : Int)
    (hc1 : 0 ≤ c1 ∧ c1 < a.width) (hr1 : 0 ≤ r1 ∧ r1 < a.height)
    (hc2 : 0 ≤ c2 ∧ c2 < a.width) (hr2 : 0 ≤ r2 ∧ r2 < a.height)
    (h : UArray2b_at a c1 r1 = UArray2b_at a c2 r2) : c1 = c2 ∧ r1 = r2 :=
  UArray2b_at_inj_valid a hv c1 r1 c2 r2 hc1 hr1 hc2 hr2 h

/-- Witness of C2 on the 5 by 5 test array with blocksize 2. -/
theorem UArray2b_at_injective_witness :
    Valid test_array ∧ UArray2b_at test_array 3 4 = UArray2b_at test_array 3 4 ∧
    ((3 : Int) = 3 ∧ (4 : Int) = 4) :=
  ⟨test_array_valid, rfl,
    UArray2b_at_injective test_array test_array_valid 3 4 3 4 (by decide) (by decide)
      (by decide) (by decide) rfl⟩

/-- Counterexample to C2 as stated: in the array `UArray2b_new(10000, 46342, 1, 92682)`
the distinct in-bounds pairs `(0, 46341)` and `(9266, 0)` are addressed to the
same block and the same in-block offset. -/
theorem UArray2b_at_injective_wraps :
    UArray2b_new 10000 46342 1 92682 = some wrapped_array ∧
    ((0 : Int) < wrapped_array.blocksize) ∧
    ((0 : Int) ≤ 0 ∧ 0 < wrapped_array.width) ∧
    ((0 : Int) ≤ 46341 ∧ 46341 < wrapped_array.height) ∧
    ((0 : Int) ≤ 9266 ∧ 9266 < wrapped_array.width) ∧
    ((0 : Int) ≤ 0 ∧ 0 < wrapped_array.height) ∧
    UArray2b_at wrapped_array 0 46341 = some ⟨0, 0, 9266⟩ ∧
    UArray2b_at wrapped_array 9266 0 = some ⟨0, 0, 9266⟩ ∧
    ¬ ((0 : Int) = 9266 ∧ (46341 : Int) = 0) :=
  ⟨wrapped_array_new, by decide, by decide, by decide, by decide, by decide, by decide,
    by decide, by decide⟩

/-- C3 (amended). For positive width, height, size and blocksize whose
construction does not overflow `int`, `UArray2b_new` returns an array on which
`UArray2b_map` completes, and the sequence of `(col, row)` pairs passed to the
callback contains each in-bounds pair exactly once and nothing else, so the
callback is invoked exactly `width * height` times. -/
theorem UArray2b_map_each_once {α : Type} [Inhabited α] (w h s bs : Int)
    (hw : 0 < w) (hh : 0 < h) (hs : 0 < s) (hb : 0 < bs) (hno : NoOverflow w h bs) :
    ∃ (a : UArray2b_T α) (calls : List (Int × Int × Slot)),
      UArray2b_new w h s bs = some a ∧ UArray2b_map_calls a = some calls ∧
      (calls.map (fun v => (v.1, v.2.1))).Nodup ∧
      (∀ c r : Int, (c, r) ∈ calls.map (fun v => (v.1, v.2.1)) ↔
        (0 ≤ c ∧ c < w) ∧ (0 ≤ r ∧ r < h)) ∧
      (calls.length : Int) = w * h := by
  have hnew := @UArray2b_new_ok α _ w h s bs hw hh hs hb hno
  have hv := UArray2b_new_valid w h s bs hw hh hs hb hno _ hnew
  exact ⟨_, _, hnew, UArray2b_map_calls_valid _ hv, visits_coords_nodup _ hv,
    visits_coords_mem _ hv, visits_length _ hv⟩

/-- Witness of C3 at `UArray2b_new(5, 5, 4, 2)`. -/
theorem UArray2b_map_each_once_witness :
    NoOverflow 5 5 2 ∧
    ∃ (a : UArray2b_T Nat) (calls : List (Int × Int × Slot)),
      UArray2b_new 5 5 4 2 = some a ∧ UArray2b_map_calls a = some calls ∧
      (calls.map (fun v => (v.1, v.2.1))).Nodup ∧
      (∀ c r : Int, (c, r) ∈ calls.map (fun v => (v.1, v.2.1)) ↔
        (0 ≤ c ∧ c < 5) ∧ (0 ≤ r ∧ r < 5)) ∧
      (calls.length : Int) = 5 * 5 :=
  ⟨⟨by decide, by decide, by decide⟩,
    @UArray2b_map_each_once Nat _ 5 5 4 2 (by decide) (by decide) (by decide) (by decide)
      ⟨by decide, by decide, by decide⟩⟩

/-- Counterexample to C3 as stated: `UArray2b_new(1, 1, 1, 65536)` returns an
array, built with positive arguments, on which `UArray2b_map` aborts on a
run-time check before the callback is invoked for `(0, 0)`. -/
theorem UArray2b_map_each_once_wraps :
    UArray2b_new 1 1 1 65536 = some zero_slot_array ∧
    UArray2b_map_calls zero_slot_array = none :=
  ⟨zero_slot_array_new, by decide⟩

/-- C6. Index stability: the pointer `UArray2b_at` returns is determined by the
blocksize and `(col, row)`; after any sequence of index calls, reads, writes,
accessor calls and traversals the call `UArray2b_at(col, row)` gives the result
it gave before, width, height, element size and blocksize are unchanged, and an
index call by itself leaves the whole array, stored elements included,
unchanged. -/
theorem UArray2b_at_stable {α σ : Type} (a a2 : UArray2b_T α) (ops : List (Op α σ))
    (col row : Int) (h : Op.runAll a ops = some a2) :
    UArray2b_at a2 col row = UArray2b_at a col row ∧
    (UArray2b_width a2 = UArray2b_width a ∧ UArray2b_height a2 = UArray2b_height a ∧
      UArray2b_size a2 = UArray2b_size a ∧ UArray2b_blocksize a2 = UArray2b_blocksize a) ∧
    (∀ a3, Op.run a (Op.index col row : Op α σ) = some a3 → a3 = a) ∧
    (∀ (b : UArray2b_T α) (p q : Slot), b.blocksize = a.blocksize →
      UArray2b_at a col row = some p → UArray2b_at b col row = some q → p = q) := by
  have hs := Op.runAll_shape ops a a2 h
  refine ⟨UArray2b_at_shape a a2 hs col row, ⟨hs.1, hs.2.1, hs.2.2.1, hs.2.2.2.1⟩, ?_, ?_⟩
  · intro a3 h3
    simp only [Op.run, Option.map_eq_some'] at h3
    obtain ⟨_, _, rfl⟩ := h3
    rfl
  · intro b p q hbs hp hq
    obtain ⟨-, -, p1, p2, p3, -⟩ := UArray2b_at_some a col row p hp
    obtain ⟨-, -, q1, q2, q3, -⟩ := UArray2b_at_some b col row q hq
    rw [hbs] at q1 q2 q3
    cases p
    cases q
    simp only at p1 p2 p3 q1 q2 q3
    simp only [Slot.mk.injEq]
    exact ⟨by rw [p1, q1], by rw [p2, q2], by rw [p3, q3]⟩

/-- Witness of C6: the program `test_ops` on the test array. -/
theorem UArray2b_at_stable_witness :
    Op.runAll test_array test_ops = some test_array_after ∧
    UArray2b_at test_array_after 3 4 = UArray2b_at test_array 3 4 ∧
    (UArray2b_width test_array_after = UArray2b_width test_array ∧
      UArray2b_height test_array_after = UArray2b_height test_array ∧
      UArray2b_size test_array_after = UArray2b_size test_array ∧
      UArray2b_blocksize test_array_after = UArray2b_blocksize test_array) :=
  ⟨rfl, (UArray2b_at_stable test_array test_array_after test_ops 3 4 rfl).1,
    (UArray2b_at_stable test_array test_array_after test_ops 3 4 rfl).2.1⟩

/-- C7. For positive width, height, size and blocksize, every array returned by
`UArray2b_new(width, height, size, blocksize)` reports exactly those values, and
an array is returned whenever the construction does not overflow `int`. -/
theorem UArray2b_new_reports {α : Type} [Inhabited α] (w h s bs : Int)
    (hw : 0 < w) (hh : 0 < h) (hs : 0 < s) (hb : 0 < bs) :
    (∀ a : UArray2b_T α, UArray2b_new w h s bs = some a →
      UArray2b_width a = w ∧ UArray2b_height a = h ∧ UArray2b_size a = s ∧
        UArray2b_blocksize a = bs) ∧
    (NoOverflow w h bs → ∃ a : UArray2b_T α, UArray2b_new w h s bs = some a) := by
  constructor
  · intro a ha
    exact (UArray2b_new_some w h s bs a ha).2.1
  · intro hno
    exact ⟨_, UArray2b_new_ok w h s bs hw hh hs hb hno⟩

/-- Witness of C7 at the arguments of `test_new_and_basic_functions`. -/
theorem UArray2b_new_reports_witness :
    ((0 : Int) < 5 ∧ (0 : Int) < 4 ∧ (0 : Int) < 2) ∧
    UArray2b_new 5 5 4 2 = some test_array ∧
    (UArray2b_width test_array = 5 ∧ UArray2b_height test_array = 5 ∧
      UArray2b_size test_array = 4 ∧ UArray2b_blocksize test_array = 2) :=
  ⟨by decide, test_array_new,
    (UArray2b_new_reports 5 5 4 2 (by decide) (by decide) (by decide) (by decide)).1
      test_array test_array_new⟩

/-- C8 (amended). For positive `int` width, height and blocksize with
`width + blocksize - 1 <= INT_MAX` and `height + blocksize - 1 <= INT_MAX`, the
`int` computations `(width + blocksize - 1) / blocksize` and
`(height + blocksize - 1) / blocksize` of `UArray2b_new` give
`ceil(width / blocksize)` and `ceil(height / blocksize)` (the least `q` with
`width <= q * blocksize`), the block grid of every array returned has exactly
that many columns and rows, and an array is returned when also
`blocksize * blocksize <= INT_MAX`. -/
theorem UArray2b_new_grid_ceil {α : Type} [Inhabited α] (w h s bs : Int)
    (hw : 0 < w) (hh : 0 < h) (hs : 0 < s) (hb : 0 < bs)
    (hnw : w + bs - 1 ≤ INT_MAX) (hnh : h + bs - 1 ≤ INT_MAX) :
    (UArray2b_new_col_block w bs = (w + bs - 1) / bs ∧
      UArray2b_new_col_block h bs = (h + bs - 1) / bs) ∧
    (((w + bs - 1) / bs - 1) * bs < w ∧ w ≤ (w + bs - 1) / bs * bs) ∧
    (((h + bs - 1) / bs - 1) * bs < h ∧ h ≤ (h + bs - 1) / bs * bs) ∧
    (∀ a : UArray2b_T α, UArray2b_new w h s bs = some a →
      UArray2_width a.blocks = (w + bs - 1) / bs ∧
      UArray2_height a.blocks = (h + bs - 1) / bs) ∧
    (bs * bs ≤ INT_MAX → ∃ a : UArray2b_T α, UArray2b_new w h s bs = some a) := by
  have e1 := UArray2b_new_col_block_eq w bs hw hb hnw
  have e2 := UArray2b_new_col_block_eq h bs hh hb hnh
  have c1 := ceil_div_spec w bs hb
  have c2 := ceil_div_spec h bs hb
  refine ⟨⟨e1, e2⟩, ⟨by linarith [c1.2], c1.1⟩, ⟨by linarith [c2.2], c2.1⟩, ?_, ?_⟩
  · intro a ha
    obtain ⟨-, -, g1, g2⟩ := UArray2b_new_some w h s bs a ha
    exact ⟨by rw [← e1]; exact g1, by rw [← e2]; exact g2⟩
  · intro hsq
    exact ⟨_, UArray2b_new_ok w h s bs hw hh hs hb ⟨hnw, hnh, hsq⟩⟩

/-- Witness of C8 at the arguments of `test_new_and_basic_functions`: a 3 by 3 grid. -/
theorem UArray2b_new_grid_ceil_witness :
    ((5 : Int) + 2 - 1 ≤ INT_MAX) ∧ UArray2b_new 5 5 4 2 = some test_array ∧
    (UArray2_width test_array.blocks = (5 + 2 - 1) / 2 ∧
      UArray2_height test_array.blocks = (5 + 2 - 1) / 2) :=
  ⟨by decide, test_array_new,
    (UArray2b_new_grid_ceil 5 5 4 2 (by decide) (by decide) (by decide) (by decide)
      (by decide) (by decide)).2.2.2.1 test_array test_array_new⟩

/-- Counterexample to C8 as stated: for the positive `int` arguments
`width = 2147483647`, `blocksize = 2` the code computes `-1073741824` grid
columns, not `ceil(2147483647 / 2) = 1073741824`, and no array is returned. -/
theorem UArray2b_new_grid_ceil_wraps :
    ((0 : Int) < 2147483647 ∧ (2147483647 : Int) ≤ INT_MAX ∧ (0 : Int) < 2) ∧
    UArray2b_new_col_block 2147483647 2 = -1073741824 ∧
    ((2147483647 : Int) + 2 - 1) / 2 = 1073741824 ∧
    (UArray2b_new 2147483647 1 1 2 : Option (UArray2b_T Nat)).isNone = true :=
  ⟨by decide, by decide, by decide, by decide⟩

/-- C9 (amended). For positive width, height, size and blocksize whose
construction does not overflow `int`, `UArray2b_new` returns an array in which
every cell of the block grid holds a block of exactly `blocksize * blocksize`
element slots, so the blocks hold `blockCols * blockRows * blocksize²` slots in
total, which is at least `width * height`. -/
theorem UArray2b_new_block_slots {α : Type} [Inhabited α] (w h s bs : Int)
    (hw : 0 < w) (hh : 0 < h) (hs : 0 < s) (hb : 0 < bs) (hno : NoOverflow w h bs) :
    ∃ a : UArray2b_T α, UArray2b_new w h s bs = some a ∧
      (∀ c r : Int, 0 ≤ c → c < UArray2_width a.blocks → 0 ≤ r → r < UArray2_height a.blocks →
        ∃ b, a.blocks.cells c r = some b ∧ b.length = bs * bs) ∧
      UArray2b_slots a = UArray2_width a.blocks * UArray2_height a.blocks * (bs * bs) ∧
      w * h ≤ UArray2b_slots a := by
  have hnew := @UArray2b_new_ok α _ w h s bs hw hh hs hb hno
  have hv := UArray2b_new_valid w h s bs hw hh hs hb hno _ hnew
  refine ⟨_, hnew, hv.block_slots, UArray2b_slots_valid _ hv, ?_⟩
  rw [UArray2b_slots_valid _ hv]
  exact grid_covers w h bs hw hh hb

/-- Witness of C9 at the arguments of `test_new_and_basic_functions`. -/
theorem UArray2b_new_block_slots_witness :
    NoOverflow 5 5 2 ∧
    ∃ a : UArray2b_T Nat, UArray2b_new 5 5 4 2 = some a ∧
      (∀ c r : Int, 0 ≤ c → c < UArray2_width a.blocks → 0 ≤ r → r < UArray2_height a.blocks →
        ∃ b, a.blocks.cells c r = some b ∧ b.length = 2 * 2) ∧
      UArray2b_slots a = UArray2_width a.blocks * UArray2_height a.blocks * (2 * 2) ∧
      5 * 5 ≤ UArray2b_slots a :=
  ⟨⟨by decide, by decide, by decide⟩,
    UArray2b_new_block_slots 5 5 4 2 (by decide) (by decide) (by decide) (by decide)
      ⟨by decide, by decide, by decide⟩⟩

/-- Counterexample to C9 as stated: `UArray2b_new(1, 1, 1, 65536)` returns an
array whose single block holds `0` slots, not `65536 * 65536`, so that fewer
than `width * height = 1` slots are allocated. -/
theorem UArray2b_new_block_slots_wraps :
    UArray2b_new 1 1 1 65536 = some zero_slot_array ∧
    (zero_slot_array.blocks.cells 0 0).map (fun b => b.length) = some 0 ∧
    ((0 : Int) ≠ 65536 * 65536) ∧
    UArray2b_slots zero_slot_array = 0 ∧
    UArray2b_slots zero_slot_array < 1 * 1 :=
  ⟨zero_slot_array_new, by decide, by decide, by decide, by decide⟩

/-- C10. For every positive element size, `UArray2b_new_64K_block` chooses the
blocksize `b = max 1 (isqrt (65536 / size))`; `b >= 1`; when `size <= 65536`, `b`
is the largest integer with `b * b * size <= 65536`; when `size > 65536` no
integer `c >= 1` has `c * c * size <= 65536` and `b = 1`. The function returns
`UArray2b_new(width, height, size, b)`, so every array returned reports width,
height and size as given, and an array is returned whenever
`width + b - 1` and `height + b - 1` do not exceed `INT_MAX`. -/
theorem UArray2b_new_64K_block_blocksize {α : Type} [Inhabited α] (w h s : Int)
    (hw : 0 < w) (hh : 0 < h) (hs : 0 < s) :
    (1 ≤ UArray2b_new_64K_blocksize s ∧
      UArray2b_new_64K_blocksize s = max 1 ((Nat.sqrt (65536 / s).toNat : Nat) : Int)) ∧
    (s ≤ 65536 →
      UArray2b_new_64K_blocksize s * UArray2b_new_64K_blocksize s * s ≤ 65536 ∧
      ∀ c : Int, 1 ≤ c → c * c * s ≤ 65536 → c ≤ UArray2b_new_64K_blocksize s) ∧
    (65536 < s →
      UArray2b_new_64K_blocksize s = 1 ∧ ∀ c : Int, 1 ≤ c → ¬ c * c * s ≤ 65536) ∧
    (UArray2b_new_64K_block w h s : Option (UArray2b_T α))
      = UArray2b_new w h s (UArray2b_new_64K_blocksize s) ∧
    (∀ a : UArray2b_T α, UArray2b_new_64K_block w h s = some a →
      UArray2b_width a = w ∧ UArray2b_height a = h ∧ UArray2b_size a = s ∧
        UArray2b_blocksize a = UArray2b_new_64K_blocksize s) ∧
    (w + UArray2b_new_64K_blocksize s - 1 ≤ INT_MAX →
      h + UArray2b_new_64K_blocksize s - 1 ≤ INT_MAX →
      ∃ a : UArray2b_T α, UArray2b_new_64K_block w h s = some a) := by
  have hval := UArray2b_new_64K_blocksize_eq s hs
  have hfit := sqrt_fits s hs
  have hmax : INT_MAX = 2147483647 := rfl
  have hdef : (UArray2b_new_64K_block w h s : Option (UArray2b_T α))
      = UArray2b_new w h s (UArray2b_new_64K_blocksize s) := by
    unfold UArray2b_new_64K_block
    rw [if_neg (not_not.mpr hw), if_neg (not_not.mpr hh), if_neg (not_not.mpr hs)]
  have hone : 1 ≤ UArray2b_new_64K_blocksize s := by
    rw [hval]
    exact le_max_left _ _
  have hroot0 : (0 : Int) ≤ ((Nat.sqrt (65536 / s).toNat : Nat) : Int) := Int.ofNat_nonneg _
  refine ⟨⟨hone, hval⟩, ?_, ?_, hdef, ?_, ?_⟩
  · intro hle
    have h1 : 1 ≤ ((Nat.sqrt (65536 / s).toNat : Nat) : Int) :=
      sqrt_bound s 1 hs (by decide) (by omega)
    rw [hval, max_eq_right h1]
    exact ⟨hfit, fun c hc hcs => sqrt_bound s c hs (by omega) hcs⟩
  · intro hgt
    have hnone : ∀ c : Int, 1 ≤ c → ¬ c * c * s ≤ 65536 := by
      intro c hc hcs
      have h1 : 1 ≤ c * c := by nlinarith
      have h2 : s ≤ c * c * s := by nlinarith
      omega
    refine ⟨?_, hnone⟩
    rw [hval]
    apply max_eq_left
    by_contra hne
    have h1 : 1 ≤ ((Nat.sqrt (65536 / s).toNat : Nat) : Int) := by omega
    have h2 : s ≤ ((Nat.sqrt (65536 / s).toNat : Nat) : Int)
        * ((Nat.sqrt (65536 / s).toNat : Nat) : Int) * s := by nlinarith
    omega
  · intro a ha
    rw [hdef] at ha
    exact (UArray2b_new_some w h s _ a ha).2.1
  · intro hnw hnh
    rw [hdef]
    have hsq : UArray2b_new_64K_blocksize s * UArray2b_new_64K_blocksize s ≤ INT_MAX := by
      by_cases hle : s ≤ 65536
      · have h1 : 1 ≤ ((Nat.sqrt (65536 / s).toNat : Nat) : Int) :=
          sqrt_bound s 1 hs (by decide) (by omega)
        rw [hval, max_eq_right h1]
        have h2 : ((Nat.sqrt (65536 / s).toNat : Nat) : Int)
            * ((Nat.sqrt (65536 / s).toNat : Nat) : Int)
            ≤ ((Nat.sqrt (65536 / s).toNat : Nat) : Int)
              * ((Nat.sqrt (65536 / s).toNat : Nat) : Int) * s := by nlinarith
        omega
      · have hbig : ∀ c : Int, 1 ≤ c → ¬ c * c * s ≤ 65536 := by
          intro c hc hcs
          have h1 : 1 ≤ c * c := by nlinarith
          have h2 : s ≤ c * c * s := by nlinarith
          omega
        have h1 : ¬ 1 ≤ ((Nat.sqrt (65536 / s).toNat : Nat) : Int) := fun hge => hbig _ hge hfit
        rw [hval, max_eq_left (by omega)]
        decide
    exact ⟨_, UArray2b_new_ok w h s _ hw hh hs (by omega) ⟨hnw, hnh, hsq⟩⟩

/-- Witness of C10 at the arguments of `test_new_64K_block`: element size 4
gives blocksize 128. -/
theorem UArray2b_new_64K_block_blocksize_witness :
    ((0 : Int) < 100 ∧ (0 : Int) < 4) ∧ UArray2b_new_64K_blocksize 4 = 128 ∧
    (UArray2b_new_64K_block 100 100 4 : Option (UArray2b_T Nat))
      = UArray2b_new 100 100 4 (UArray2b_new_64K_blocksize 4) := by
  obtain ⟨⟨h1, -⟩, h2, -, h4, -⟩ :=
    @UArray2b_new_64K_block_blocksize Nat _ 100 100 4 (by decide) (by decide) (by decide)
  obtain ⟨h5, h6⟩ := h2 (by decide)
  have h7 := h6 128 (by decide) (by decide)
  have h8 : UArray2b_new_64K_blocksize 4 = 128 := by nlinarith
  exact ⟨by decide, h8, h4⟩

/-- C11. For element size 3 the blocksize `b` chosen by `UArray2b_new_64K_block`
is 147: `b * b * 3 <= 65536` and `(b + 1) * (b + 1) * 3 > 65536`, and every array
the function returns for element size 3 reports this blocksize. -/
theorem UArray2b_new_64K_blocksize_three :
    UArray2b_new_64K_blocksize 3 = 147 ∧
    UArray2b_new_64K_blocksize 3 * UArray2b_new_64K_blocksize 3 * 3 ≤ 65536 ∧
    (UArray2b_new_64K_blocksize 3 + 1) * (UArray2b_new_64K_blocksize 3 + 1) * 3 > 65536 ∧
    ∀ (w h : Int) (a : UArray2b_T Nat), UArray2b_new_64K_block w h 3 = some a →
      UArray2b_blocksize a = UArray2b_new_64K_blocksize 3 := by
  have hval := UArray2b_new_64K_blocksize_eq 3 (by decide)
  have hfit := sqrt_fits 3 (by decide)
  have hlow := sqrt_bound 3 147 (by decide) (by decide) (by decide)
  have hroot : ((Nat.sqrt (65536 / (3 : Int)).toNat : Nat) : Int) = 147 := by nlinarith
  have hb : UArray2b_new_64K_blocksize 3 = 147 := by
    rw [hval, hroot]
    decide
  refine ⟨hb, by rw [hb]; decide, by rw [hb]; decide, ?_⟩
  intro w h a ha
  unfold UArray2b_new_64K_block at ha
  by_cases hw : w > 0
  · by_cases hh : h > 0
    · rw [if_neg (not_not.mpr hw), if_neg (not_not.mpr hh),
        if_neg (not_not.mpr (by decide : (3 : Int) > 0))] at ha
      exact (UArray2b_new_some w h 3 _ a ha).2.1.2.2.2
    · rw [if_neg (not_not.mpr hw), if_pos hh] at ha
      simp at ha
  · rw [if_pos hw] at ha
    simp at ha

/-- C12. Block-major order: for every array `UArray2b_new` returns for `int`
arguments, the sequence of callback invocations of a `UArray2b_map` that
completes is strictly increasing in the lexicographic key
`(row / bs, col / bs, row % bs, col % bs)` of the coordinates passed: every
earlier call has a smaller key than every later one, so blocks are visited in
row-major block order and the slots inside each block in row-major order. -/
theorem UArray2b_map_block_major_order {α : Type} [Inhabited α] (w h s bs : Int)
    (a : UArray2b_T α) (calls : List (Int × Int × Slot))
    (hwm : w ≤ INT_MAX) (hhm : h ≤ INT_MAX) (hbm : bs ≤ INT_MAX)
    (hnew : UArray2b_new w h s bs = some a) (hcalls : UArray2b_map_calls a = some calls) :
    List.Pairwise (fun v1 v2 : Int × Int × Slot =>
      key_lt (block_major_key bs v1.1 v1.2.1) (block_major_key bs v2.1 v2.2.1)) calls :=
  UArray2b_map_calls_sorted w h s bs a calls hwm hhm hbm hnew hcalls

/-- Witness of C12: the traversal of the 5 by 5 test array with blocksize 2. -/
theorem UArray2b_map_block_major_order_witness :
    UArray2b_new 5 5 4 2 = some test_array ∧
    UArray2b_map_calls test_array = some (UArray2b_map_visits test_array) ∧
    List.Pairwise (fun v1 v2 : Int × Int × Slot =>
      key_lt (block_major_key 2 v1.1 v1.2.1) (block_major_key 2 v2.1 v2.2.1))
      (UArray2b_map_visits test_array) :=
  ⟨test_array_new, UArray2b_map_calls_valid test_array test_array_valid,
    UArray2b_map_block_major_order 5 5 4 2 test_array (UArray2b_map_visits test_array)
      (by decide) (by decide) (by decide) test_array_new
      (UArray2b_map_calls_valid test_array test_array_valid)⟩

/-- C13. Block contiguity: for every array `UArray2b_new` returns for `int`
arguments (every blocksize) and every `UArray2b_map` that completes, the calls
for the elements of one block are consecutive: when the `i`-th and the `k`-th
call are for elements of the same block `(col / bs, row / bs)`, so is every
call between them; hence the traversal never returns to a block it has left. -/
theorem UArray2b_map_block_contiguous {α : Type} [Inhabited α] (w h s bs : Int)
    (a : UArray2b_T α) (calls : List (Int × Int × Slot))
    (hwm : w ≤ INT_MAX) (hhm : h ≤ INT_MAX) (hbm : bs ≤ INT_MAX)
    (hnew : UArray2b_new w h s bs = some a) (hcalls : UArray2b_map_calls a = some calls)
    (i j k : Nat) (vi vj vk : Int × Int × Slot) (hij : i < j) (hjk : j < k)
    (hi : calls[i]? = some vi) (hj : calls[j]? = some vj) (hk : calls[k]? = some vk)
    (hblock : vi.1 / bs = vk.1 / bs ∧ vi.2.1 / bs = vk.2.1 / bs) :
    vj.1 / bs = vi.1 / bs ∧ vj.2.1 / bs = vi.2.1 / bs := by
  have hp := UArray2b_map_calls_sorted w h s bs a calls hwm hhm hbm hnew hcalls
  have h12 := pairwise_getElem? _ calls hp i j hij vi vj hi hj
  have h23 := pairwise_getElem? _ calls hp j k hjk vj vk hj hk
  have hb := key_lt_between _ _ _ h12 h23 ⟨hblock.2, hblock.1⟩
  exact ⟨hb.2, hb.1⟩

/-- Witness of C13: calls 4, 5 and 7 of the traversal of the test array are all
for elements of block `(1, 0)`. -/
theorem UArray2b_map_block_contiguous_witness :
    UArray2b_new 5 5 4 2 = some test_array ∧
    UArray2b_map_calls test_array = some (UArray2b_map_visits test_array) ∧
    (UArray2b_map_visits test_array)[4]? = some (2, 0, ⟨1, 0, 0⟩) ∧
    (UArray2b_map_visits test_array)[5]? = some (3, 0, ⟨1, 0, 1⟩) ∧
    (UArray2b_map_visits test_array)[7]? = some (3, 1, ⟨1, 0, 3⟩) ∧
    ((3 : Int) / 2 = 2 / 2 ∧ (0 : Int) / 2 = 0 / 2) :=
  ⟨test_array_new, UArray2b_map_calls_valid test_array test_array_valid, by decide, by decide,
    by decide,
    UArray2b_map_block_contiguous 5 5 4 2 test_array (UArray2b_map_visits test_array)
      (by decide) (by decide) (by decide) test_array_new
      (UArray2b_map_calls_valid test_array test_array_valid) 4 5 7
      (2, 0, ⟨1, 0, 0⟩) (3, 0, ⟨1, 0, 1⟩) (3, 1, ⟨1, 0, 3⟩) (by decide) (by decide)
      (by decide) (by decide) (by decide) (by decide)⟩

/-- C14. For the 4 by 4 array with blocksize 2 whose element at `(col, row)`
holds `row * 4 + col`, `UArray2b_map` invokes the callback at the coordinates
`(0,0),(1,0),(0,1),(1,1),(2,0),(3,0),(2,1),(3,1),(0,2),(1,2),(0,3),(1,3),(2,2),(3,2),(2,3),(3,3)`
in this order, each time with the element value `row * 4 + col`. -/
theorem test_map_function_order :
    test_map_function = some
      [(0, 0, some 0), (1, 0, some 1), (0, 1, some 4), (1, 1, some 5),
       (2, 0, some 2), (3, 0, some 3), (2, 1, some 6), (3, 1, some 7),
       (0, 2, some 8), (1, 2, some 9), (0, 3, some 12), (1, 3, some 13),
       (2, 2, some 10), (3, 2, some 11), (2, 3, some 14), (3, 3, some 15)] := by
  decide

/-- C15. For width 7, height 7 and blocksize 3: `UArray2b_new` succeeds and
allocates a 3 by 3 grid of blocks of 9 slots each, 81 slots in all; every
in-bounds coordinate is mapped by `UArray2b_at` to a slot inside an allocated
block, distinct coordinates to distinct slots (so the 49 in-bounds coordinates
reach 49 pairwise distinct slots); and `UArray2b_map` invokes the callback
exactly 49 times. -/
theorem edge_array_slots :
    UArray2b_new 7 7 4 3 = some edge_array ∧
    (UArray2_width edge_array.blocks = 3 ∧ UArray2_height edge_array.blocks = 3) ∧
    (∀ c r : Int, 0 ≤ c → c < 3 → 0 ≤ r → r < 3 →
      ∃ b, edge_array.blocks.cells c r = some b ∧ b.length = 9) ∧
    UArray2b_slots edge_array = 81 ∧
    (∀ c r : Int, 0 ≤ c ∧ c < 7 → 0 ≤ r ∧ r < 7 →
      ∃ p, UArray2b_at edge_array c r = some p ∧
        (0 ≤ p.block_col ∧ p.block_col < 3) ∧ (0 ≤ p.block_row ∧ p.block_row < 3) ∧
        (0 ≤ p.index ∧ p.index < 9)) ∧
    (∀ c1 r1 c2 r2 : Int, 0 ≤ c1 ∧ c1 < 7 → 0 ≤ r1 ∧ r1 < 7 → 0 ≤ c2 ∧ c2 < 7 →
      0 ≤ r2 ∧ r2 < 7 → UArray2b_at edge_array c1 r1 = UArray2b_at edge_array c2 r2 →
      c1 = c2 ∧ r1 = r2) ∧
    ∃ calls, UArray2b_map_calls edge_array = some calls ∧ calls.length = 49 := by
  have hv := edge_array_valid
  have hcells : ∀ c r : Int, 0 ≤ c → c < 3 → 0 ≤ r → r < 3 →
      ∃ b, edge_array.blocks.cells c r = some b ∧ b.length = 9 :=
    fun c r h1 h2 h3 h4 => hv.block_slots c r h1 h2 h3 h4
  refine ⟨edge_array_new, ⟨rfl, rfl⟩, hcells, ?_, ?_, ?_, ?_⟩
  · rw [UArray2b_slots_valid edge_array hv]
    decide
  · intro c r hc hr
    have hat := UArray2b_at_valid edge_array hv c r hc.1 hc.2 hr.1 hr.2
    refine ⟨_, hat, ?_⟩
    obtain ⟨-, -, -, -, -, h6, h7, b, hcell, h8, h9⟩ := UArray2b_at_some edge_array c r _ hat
    obtain ⟨b2, hcell2, hlen⟩ := hcells _ _ h6.1 h6.2 h7.1 h7.2
    rw [hcell] at hcell2
    simp only [Option.some.injEq] at hcell2
    rw [hcell2, hlen] at h9
    exact ⟨h6, h7, h8, h9⟩
  · intro c1 r1 c2 r2 hc1 hr1 hc2 hr2 h
    exact UArray2b_at_inj_valid edge_array hv c1 r1 c2 r2 hc1 hr1 hc2 hr2 h
  · refine ⟨_, UArray2b_map_calls_valid edge_array hv, ?_⟩
    have hlen := visits_length edge_array hv
    have h49 : edge_array.width * edge_array.height = 49 := by decide
    rw [h49] at hlen
    exact_mod_cast hlen

/-- C16 (amended). `UArray2b_new` fails whenever at least one of width, height,
size, blocksize is `<= 0`, for all arguments; for arguments with
`width + blocksize - 1`, `height + blocksize - 1` and `blocksize * blocksize` at
most `INT_MAX` it fails only then. `UArray2b_new_64K_block` fails whenever at
least one of width, height, size is `<= 0`, for all arguments; when
`width + b - 1` and `height + b - 1` do not exceed `INT_MAX` for the chosen
blocksize `b` it fails only then. Each bound conditions only the "only then" of
its own constructor. -/
theorem UArray2b_new_fails_iff {α : Type} [Inhabited α] (w h s bs : Int) :
    ((w ≤ 0 ∨ h ≤ 0 ∨ s ≤ 0 ∨ bs ≤ 0) →
      (UArray2b_new w h s bs : Option (UArray2b_T α)) = none) ∧
    (NoOverflow w h bs →
      ((UArray2b_new w h s bs : Option (UArray2b_T α)) = none ↔
        (w ≤ 0 ∨ h ≤ 0 ∨ s ≤ 0 ∨ bs ≤ 0))) ∧
    ((w ≤ 0 ∨ h ≤ 0 ∨ s ≤ 0) →
      (UArray2b_new_64K_block w h s : Option (UArray2b_T α)) = none) ∧
    ((w + UArray2b_new_64K_blocksize s - 1 ≤ INT_MAX ∧
        h + UArray2b_new_64K_blocksize s - 1 ≤ INT_MAX) →
      ((UArray2b_new_64K_block w h s : Option (UArray2b_T α)) = none ↔
        (w ≤ 0 ∨ h ≤ 0 ∨ s ≤ 0))) := by
  have hmax : INT_MAX = 2147483647 := rfl
  refine ⟨UArray2b_new_nonpos w h s bs, fun hno => ⟨?_, UArray2b_new_nonpos w h s bs⟩,
    UArray2b_new_64K_block_nonpos w h s,
    fun hno64 => ⟨?_, UArray2b_new_64K_block_nonpos w h s⟩⟩
  · intro hnone
    by_contra hpos
    have hok := @UArray2b_new_ok α _ w h s bs (by omega) (by omega) (by omega) (by omega) hno
    rw [hok] at hnone
    simp at hnone
  · intro hnone
    by_contra hpos
    have hs : 0 < s := by omega
    obtain ⟨hb1, hb2⟩ := UArray2b_new_64K_blocksize_range s hs
    rw [UArray2b_new_64K_block_pos w h s (by omega) (by omega) hs] at hnone
    have hok := @UArray2b_new_ok α _ w h s (UArray2b_new_64K_blocksize s) (by omega)
      (by omega) hs (by omega) ⟨hno64.1, hno64.2, by omega⟩
    rw [hok] at hnone
    simp at hnone

/-- Witness of C16. At width 0 with blocksize 65536, whose square overflows,
both constructors fail; at `(2147483647, 1, 4, 1)` the construction with
blocksize 1 does not overflow and returns, although the 64K bound is false there;
at `(0, 5, 4, 2)` every hypothesis holds and both failures are traced back to the
width. -/
theorem UArray2b_new_fails_iff_witness :
    (UArray2b_new 0 1 1 65536 : Option (UArray2b_T Nat)) = none ∧
    (NoOverflow 2147483647 1 1 ∧
      ¬ ((2147483647 : Int) + UArray2b_new_64K_blocksize 4 - 1 ≤ INT_MAX) ∧
      (UArray2b_new 2147483647 1 4 1 : Option (UArray2b_T Nat)) ≠ none) ∧
    (NoOverflow 0 5 2 ∧ (UArray2b_new 0 5 4 2 : Option (UArray2b_T Nat)) = none ∧
      ((0 : Int) ≤ 0 ∨ (5 : Int) ≤ 0 ∨ (4 : Int) ≤ 0 ∨ (2 : Int) ≤ 0)) ∧
    ((UArray2b_new_64K_block 0 5 4 : Option (UArray2b_T Nat)) = none ∧
      ((0 : Int) ≤ 0 ∨ (5 : Int) ≤ 0 ∨ (4 : Int) ≤ 0)) := by
  have h128 := UArray2b_new_64K_blocksize_four
  have hno : NoOverflow 0 5 2 := ⟨by decide, by decide, by decide⟩
  have hno1 : NoOverflow 2147483647 1 1 := ⟨by decide, by decide, by decide⟩
  obtain ⟨h1, h2, h3, h4⟩ := @UArray2b_new_fails_iff Nat _ 0 5 4 2
  have hnone := h1 (Or.inl (le_refl 0))
  have hnone64 := h3 (Or.inl (le_refl 0))
  refine ⟨(@UArray2b_new_fails_iff Nat _ 0 1 1 65536).1 (Or.inl (le_refl 0)),
    ⟨hno1, by rw [h128]; decide, ?_⟩, ⟨hno, hnone, (h2 hno).mp hnone⟩,
    ⟨hnone64, (h4 ⟨by rw [h128]; decide, by rw [h128]; decide⟩).mp hnone64⟩⟩
  intro hfail
  have hpos := ((@UArray2b_new_fails_iff Nat _ 2147483647 1 4 1).2.1 hno1).mp hfail
  revert hpos
  decide

/-- Counterexample to C16 as stated: with all arguments positive,
`UArray2b_new(2147483647, 1, 1, 2)` and `UArray2b_new(1, 1, 1, 46341)` fail
(the grid width, respectively the block length, wraps to a negative `int`), and
so does `UArray2b_new_64K_block(2147483647, 1, 4)`. -/
theorem UArray2b_new_fails_positive :
    ((0 : Int) < 2147483647 ∧ (2147483647 : Int) ≤ INT_MAX ∧ (0 : Int) < 46341) ∧
    (UArray2b_new 2147483647 1 1 2 : Option (UArray2b_T Nat)) = none ∧
    (UArray2b_new 1 1 1 46341 : Option (UArray2b_T Nat)) = none ∧
    (UArray2b_new_64K_block 2147483647 1 4 : Option (UArray2b_T Nat)) = none := by
  refine ⟨by decide, Option.isNone_iff_eq_none.mp (by decide),
    Option.isNone_iff_eq_none.mp (by decide), ?_⟩
  rw [UArray2b_new_64K_block_pos 2147483647 1 4 (by decide) (by decide) (by decide),
    UArray2b_new_64K_blocksize_four]
  exact Option.isNone_iff_eq_none.mp (by decide)

/-- C17 (amended). For every array built by `UArray2b_new` without `int`
overflow, `UArray2b_at(array, col, row)` fails if and only if `col < 0` or
`col >= width` or `row < 0` or `row >= height`; in particular a coordinate in the
padding of an edge block (`col >= width` but `col < blockCols * blocksize`) is
rejected, and for every in-bounds coordinate the call succeeds. -/
theorem UArray2b_at_fails_iff {α : Type} (a : UArray2b_T α) (hv : Valid a) (col row : Int) :
    (UArray2b_at a col row = none ↔
      (col < 0 ∨ col ≥ a.width ∨ row < 0 ∨ row ≥ a.height)) ∧
    (col ≥ a.width → col < UArray2_width a.blocks * a.blocksize →
      UArray2b_at a col row = none) ∧
    ((0 ≤ col ∧ col < a.width) → (0 ≤ row ∧ row < a.height) →
      ∃ p, UArray2b_at a col row = some p) := by
  refine ⟨⟨?_, UArray2b_at_out_of_bounds a col row⟩, ?_, ?_⟩
  · intro hnone
    by_contra hin
    rw [UArray2b_at_valid a hv col row (by omega) (by omega) (by omega) (by omega)] at hnone
    simp at hnone
  · intro hpad _
    exact UArray2b_at_out_of_bounds a col row (Or.inr (Or.inl hpad))
  · intro hc hr
    exact ⟨_, UArray2b_at_valid a hv col row hc.1 hc.2 hr.1 hr.2⟩

/-- Witness of C17: column 5 of the 5 by 5 test array lies in the padding of the
last block column (the grid spans 3 * 2 = 6 columns) and is rejected. -/
theorem UArray2b_at_fails_iff_witness :
    Valid test_array ∧ ((5 : Int) ≥ test_array.width ∧
      (5 : Int) < UArray2_width test_array.blocks * test_array.blocksize) ∧
    UArray2b_at test_array 5 0 = none ∧ (∃ p, UArray2b_at test_array 4 0 = some p) :=
  ⟨test_array_valid, by decide,
    (UArray2b_at_fails_iff test_array test_array_valid 5 0).2.1 (by decide) (by decide),
    (UArray2b_at_fails_iff test_array test_array_valid 4 0).2.2 (by decide) (by decide)⟩

/-- Counterexample to C17 as stated: on the array `UArray2b_new(1, 1, 1, 65536)`
the in-bounds call `UArray2b_at(array, 0, 0)` fails. -/
theorem UArray2b_at_fails_in_bounds :
    UArray2b_new 1 1 1 65536 = some zero_slot_array ∧
    ((0 : Int) ≤ 0 ∧ (0 : Int) < zero_slot_array.width) ∧
    ((0 : Int) ≤ 0 ∧ (0 : Int) < zero_slot_array.height) ∧
    UArray2b_at zero_slot_array 0 0 = none :=
  ⟨zero_slot_array_new, by decide, by decide, by decide⟩

/-- C18. The 180-degree transform: for a lawful method suite, a source image of
width `w` and height `h` (both `int`) and a new image of the same dimensions,
one full traversal of the source with `apply_180`, in any order that visits each
source element exactly once, completes, and afterwards every in-bounds
coordinate of the new image satisfies `new[col, row] = old[w-1-col, h-1-row]`. -/
theorem apply_180_rotates {A P α : Type} (m : A2Methods_T A P α) (ok : A → Prop)
    (hl : Lawful m ok) (src : A) (dst : Pnm_ppm A P α) (visits : List (Int × Int × P))
    (hm : dst.methods = m) (hok : ok dst.pixels)
    (hw : m.width dst.pixels = m.width src) (hh : m.height dst.pixels = m.height src)
    (hwm : m.width src ≤ INT_MAX) (hhm : m.height src ≤ INT_MAX)
    (hfull : FullTraversal m src visits) :
    ∃ dst2, run_map apply_180 src visits dst = some dst2 ∧
      ∀ col row : Int, (0 ≤ col ∧ col < m.width src) → (0 ≤ row ∧ row < m.height src) →
        ∃ q p x, m.at_ dst2.pixels col row = some q ∧
          m.at_ src (m.width src - 1 - col) (m.height src - 1 - row) = some p ∧
          m.load src p = some x ∧ m.load dst2.pixels q = some x :=
  run_apply_180 m ok hl src dst visits hm hok hw hh hwm hhm hfull

/-- Witness of C18: on the plain backend the 2 by 2 image `[[1, 2], [3, 4]]`
becomes `[[4, 3], [2, 1]]`. -/
theorem apply_180_rotates_witness :
    FullTraversal (uarray2_methods_plain : A2Methods_T (UArray2_T Nat) (Int × Int) Nat)
      image_2x2 row_major_2x2 ∧
    ∃ dst2, run_map apply_180 image_2x2 row_major_2x2 blank_2x2 = some dst2 ∧
      UArray2_load dst2.pixels (0, 0) = some 4 ∧ UArray2_load dst2.pixels (1, 0) = some 3 ∧
      UArray2_load dst2.pixels (0, 1) = some 2 ∧ UArray2_load dst2.pixels (1, 1) = some 1 := by
  obtain ⟨dst2, hrun, hall⟩ := apply_180_rotates uarray2_methods_plain (fun _ => True)
    uarray2_methods_plain_lawful image_2x2 blank_2x2 row_major_2x2 rfl trivial rfl rfl
    (by decide) (by decide) row_major_2x2_full
  refine ⟨row_major_2x2_full, dst2, hrun, ?_, ?_, ?_, ?_⟩
  · exact (plain_pixel_eq image_2x2 dst2.pixels 0 0 1 1
      (hall 0 0 (by decide) (by decide))).trans (by decide)
  · exact (plain_pixel_eq image_2x2 dst2.pixels 1 0 0 1
      (hall 1 0 (by decide) (by decide))).trans (by decide)
  · exact (plain_pixel_eq image_2x2 dst2.pixels 0 1 1 0
      (hall 0 1 (by decide) (by decide))).trans (by decide)
  · exact (plain_pixel_eq image_2x2 dst2.pixels 1 1 0 0
      (hall 1 1 (by decide) (by decide))).trans (by decide)

/-- C19. The 90-degree clockwise rotation: for a lawful method suite and a
source image of width `w` and height `h` (an `int`), `apply_90` copies the source
pixel at an in-bounds `(col, row)` to the destination coordinate
`(new_col, new_row) = (h - 1 - row, col)`, and one full traversal of the source
into a new image of width `h` and height `w` completes with
`new[h-1-row, col] = old[col, row]` for all in-bounds `(col, row)`. -/
theorem apply_90_rotates {A P α : Type} (m : A2Methods_T A P α) (ok : A → Prop)
    (hl : Lawful m ok) (src : A) (dst : Pnm_ppm A P α) (visits : List (Int × Int × P))
    (hm : dst.methods = m) (hok : ok dst.pixels)
    (hw : m.width dst.pixels = m.height src) (hh : m.height dst.pixels = m.width src)
    (hhm : m.height src ≤ INT_MAX)
    (hfull : FullTraversal m src visits) :
    (∀ (st : Pnm_ppm A P α) (col row : Int) (elem : P), st.methods = m →
      (0 ≤ row ∧ row < m.height src) →
      apply_90 col row src elem st = copy_to st (m.height src - 1 - row, col) src elem) ∧
    ∃ dst2, run_map apply_90 src visits dst = some dst2 ∧
      ∀ col row : Int, (0 ≤ col ∧ col < m.width src) → (0 ≤ row ∧ row < m.height src) →
        ∃ q p x, m.at_ dst2.pixels (m.height src - 1 - row) col = some q ∧
          m.at_ src col row = some p ∧
          m.load src p = some x ∧ m.load dst2.pixels q = some x :=
  ⟨fun st col row elem hst hr => apply_90_step m src st col row elem hst hhm hr,
    run_apply_90 m ok hl src dst visits hm hok hw hh hhm hfull⟩

/-- Witness of C19: on the plain backend the 3 wide, 2 high image
`[[1, 2, 3], [4, 5, 6]]` becomes the 2 wide, 3 high image `[[4, 1], [5, 2], [6, 3]]`. -/
theorem apply_90_rotates_witness :
    FullTraversal (uarray2_methods_plain : A2Methods_T (UArray2_T Nat) (Int × Int) Nat)
      image_3x2 row_major_3x2 ∧
    ∃ dst2, run_map apply_90 image_3x2 row_major_3x2 blank_2x3 = some dst2 ∧
      UArray2_load dst2.pixels (0, 0) = some 4 ∧ UArray2_load dst2.pixels (1, 0) = some 1 ∧
      UArray2_load dst2.pixels (0, 1) = some 5 ∧ UArray2_load dst2.pixels (1, 1) = some 2 ∧
      UArray2_load dst2.pixels (0, 2) = some 6 ∧ UArray2_load dst2.pixels (1, 2) = some 3 := by
  obtain ⟨-, dst2, hrun, hall⟩ := apply_90_rotates uarray2_methods_plain (fun _ => True)
    uarray2_methods_plain_lawful image_3x2 blank_2x3 row_major_3x2 rfl trivial rfl rfl
    (by decide) row_major_3x2_full
  refine ⟨row_major_3x2_full, dst2, hrun, ?_, ?_, ?_, ?_, ?_, ?_⟩
  · exact (plain_pixel_eq image_3x2 dst2.pixels 0 0 0 1
      (hall 0 1 (by decide) (by decide))).trans (by decide)
  · exact (plain_pixel_eq image_3x2 dst2.pixels 1 0 0 0
      (hall 0 0 (by decide) (by decide))).trans (by decide)
  · exact (plain_pixel_eq image_3x2 dst2.pixels 0 1 1 1
      (hall 1 1 (by decide) (by decide))).trans (by decide)
  · exact (plain_pixel_eq image_3x2 dst2.pixels 1 1 1 0
      (hall 1 0 (by decide) (by decide))).trans (by decide)
  · exact (plain_pixel_eq image_3x2 dst2.pixels 0 2 2 1
      (hall 2 1 (by decide) (by decide))).trans (by decide)
  · exact (plain_pixel_eq image_3x2 dst2.pixels 1 2 2 0
      (hall 2 0 (by decide) (by decide))).trans (by decide)

/-- C20 (the code at a failing input). For the 3 wide, 2 high source image
`[[1, 2, 3], [4, 5, 6]]` and a new image of width 2 and height 3, `apply_270`
called for the source pixel `(col, row) = (0, 0)` writes its value 1 to the
destination `(h - 1 - row, col) = (1, 0)` and leaves `(row, w - 1 - col) = (0, 2)`
untouched; the full traversal gives the image of `apply_90`. -/
theorem apply_270_writes_apply_90_destination :
    ((apply_270 0 0 image_3x2 (0, 0) blank_2x3).bind fun d => UArray2_load d.pixels (1, 0))
      = some 1 ∧
    ((apply_270 0 0 image_3x2 (0, 0) blank_2x3).bind fun d => UArray2_load d.pixels (0, 2))
      = some 0 ∧
    run_map apply_270 image_3x2 row_major_3x2 blank_2x3
      = run_map apply_90 image_3x2 row_major_3x2 blank_2x3 ∧
    ((run_map apply_270 image_3x2 row_major_3x2 blank_2x3).bind fun d =>
      UArray2_load d.pixels (0, 2)) = some 6 :=
  ⟨by decide, by decide, rfl, by decide⟩

/-- C21. The `blocksize` operation of the plain backend returns 1 for every
array handle, whatever its dimensions, also through the capability table and
for every array `new_with_blocksize` returns, whatever blocksize was passed. -/
theorem a2plain_blocksize_one {β : Type} [Inhabited β] :
    (∀ uarray2 : UArray2_T β, a2plain.blocksize uarray2 = 1) ∧
    (∀ uarray2 : UArray2_T β,
      (uarray2_methods_plain : A2Methods_T (UArray2_T β) (Int × Int) β).blocksize uarray2 = 1) ∧
    ∀ width height size blocksize : Int,
      ((a2plain.new_with_blocksize width height size blocksize : Option (UArray2_T β)).map
        a2plain.blocksize)
      = (a2plain.new_with_blocksize width height size blocksize : Option (UArray2_T β)).map
        fun _ => 1 :=
  ⟨fun _ => rfl, fun _ => rfl, fun _ _ _ _ => rfl⟩

/-- C22. In the capability table of the plain backend the block-major entries
`map_block_major` and `small_map_block_major` are absent, the row-major and
column-major entries are the functions of `a2plain.c`, and the default entries
are the row-major ones. -/
theorem uarray2_methods_plain_table {β σ : Type} :
    (uarray2_methods_plain_maps : A2Methods_maps (UArray2_T β) (Int × Int) σ).map_block_major
      = none ∧
    (uarray2_methods_plain_maps : A2Methods_maps (UArray2_T β) (Int × Int) σ).small_map_block_major
      = none ∧
    (uarray2_methods_plain_maps : A2Methods_maps (UArray2_T β) (Int × Int) σ).map_row_major
      = some a2plain.map_row_major ∧
    (uarray2_methods_plain_maps : A2Methods_maps (UArray2_T β) (Int × Int) σ).map_col_major
      = some a2plain.map_col_major ∧
    (uarray2_methods_plain_maps : A2Methods_maps (UArray2_T β) (Int × Int) σ).small_map_row_major
      = some a2plain.small_map_row_major ∧
    (uarray2_methods_plain_maps : A2Methods_maps (UArray2_T β) (Int × Int) σ).small_map_col_major
      = some a2plain.small_map_col_major ∧
    (uarray2_methods_plain_maps : A2Methods_maps (UArray2_T β) (Int × Int) σ).map_default
      = (uarray2_methods_plain_maps : A2Methods_maps (UArray2_T β) (Int × Int) σ).map_row_major ∧
    (uarray2_methods_plain_maps : A2Methods_maps (UArray2_T β) (Int × Int) σ).small_map_default
      = (uarray2_methods_plain_maps :
          A2Methods_maps (UArray2_T β) (Int × Int) σ).small_map_row_major :=
  ⟨rfl, rfl, rfl, rfl, rfl, rfl, rfl, rfl⟩

/-- C23. Light-callback adaptation in the plain backend: for every array, light
callback `f` and closure `cl`, `small_map_row_major(a, f, cl)` is the traversal
`map_row_major` run with the full callback that discards the position and the
handle and calls `f(elem, cl)`: the same calls on the same element slots in the
same order, with the caller's closure passed through; likewise
`small_map_col_major` and `map_col_major`. On the 5 by 5 test array the log of
the light row-major traversal is the list of the 25 cells, row by row. -/
theorem small_map_adapts {β σ : Type} (a : UArray2_T β) (f : Int × Int → σ → Option σ)
    (cl : σ) :
    a2plain.small_map_row_major a f cl
      = a2plain.map_row_major a (fun _ _ _ elem cl => f elem cl) cl ∧
    a2plain.small_map_col_major a f cl
      = a2plain.map_col_major a (fun _ _ _ elem cl => f elem cl) cl ∧
    a2plain.small_map_row_major plain_test_array (fun elem log => some (log ++ [elem])) []
      = some [(0, 0), (1, 0), (2, 0), (3, 0), (4, 0), (0, 1), (1, 1), (2, 1), (3, 1), (4, 1),
          (0, 2), (1, 2), (2, 2), (3, 2), (4, 2), (0, 3), (1, 3), (2, 3), (3, 3), (4, 3),
          (0, 4), (1, 4), (2, 4), (3, 4), (4, 4)] :=
  ⟨small_map_row_major_eq a f cl, small_map_col_major_eq a f cl, by decide⟩

/-- C24. The function `new_with_blocksize` of the plain backend does not
consider its blocksize parameter: for every width, height, size and blocksize,
zero and negative values included, it returns what `new` returns. -/
theorem new_with_blocksize_ignores {β : Type} [Inhabited β] (width height size blocksize : Int) :
    (a2plain.new_with_blocksize width height size blocksize : Option (UArray2_T β))
      = a2plain.new width height size :=
  rfl

/-- C25. For every blocked array handle a client can hold, that is an array
returned by `UArray2b_new` and then used through any sequence of client
operations, `UArray2b_free(&array)` returns and leaves the caller's handle NULL;
`UArray2b_free` fails when it is given a NULL pointer or a pointer to a NULL
handle. -/
theorem UArray2b_free_nulls_handle {α σ : Type} [Inhabited α] (w h s bs : Int)
    (a a2 : UArray2b_T α) (ops : List (Op α σ))
    (hnew : UArray2b_new w h s bs = some a) (hops : Op.runAll a ops = some a2) :
    (∃ tr, UArray2b_free (some (some a2)) = some (none, tr)) ∧
    UArray2b_free (none : Option (Option (UArray2b_T α))) = none ∧
    UArray2b_free (some (none : Option (UArray2b_T α))) = none :=
  ⟨⟨_, UArray2b_free_reachable w h s bs a a2 ops hnew hops⟩, rfl, rfl⟩

/-- Witness of C25: the array of `test_new_and_basic_functions` after the
program `test_ops`. -/
theorem UArray2b_free_nulls_handle_witness :
    UArray2b_new 5 5 4 2 = some test_array ∧
    Op.runAll test_array test_ops = some test_array_after ∧
    (∃ tr, UArray2b_free (some (some test_array_after)) = some (none, tr)) ∧
    UArray2b_free (none : Option (Option (UArray2b_T Nat))) = none ∧
    UArray2b_free (some (none : Option (UArray2b_T Nat))) = none :=
  ⟨test_array_new, rfl,
    UArray2b_free_nulls_handle 5 5 4 2 test_array test_array_after test_ops test_array_new rfl⟩

/-- C26. Construct then destroy leaks nothing: for positive width, height, size
and blocksize, `UArray2b_new` returns whenever its `int` arithmetic does not
overflow, and whenever it returns an array, having allocated the handle, the
grid and one block per grid cell, `UArray2b_free` of that array returns and
releases the block of every one of the `blockCols * blockRows` grid cells exactly
once, then the grid and the handle once each; run on any heap, the events of the
construction followed by those of the destruction leave the live objects as they
were. -/
theorem UArray2b_new_free_no_leak {α : Type} [Inhabited α] (w h s bs : Int)
    (hw : 0 < w) (hh : 0 < h) (hs : 0 < s) (hb : 0 < bs) :
    (NoOverflow w h bs →
      ∃ r, (UArray2b_new_mem w h s bs : Option (UArray2b_T α × List MemEvent)) = some r) ∧
    ∀ (a : UArray2b_T α) (tr1 : List MemEvent), UArray2b_new_mem w h s bs = some (a, tr1) →
      UArray2b_new w h s bs = some a ∧
      tr1 = UArray2b_new_trace a.blocks.width a.blocks.height ∧
      ∃ tr2, UArray2b_free (some (some a)) = some (none, tr2) ∧
        tr2 = UArray2b_free_trace a.blocks.width a.blocks.height ∧
        (grid_cells a.blocks.width a.blocks.height).length
          = a.blocks.height.toNat * a.blocks.width.toNat ∧
        (∀ c r : Int, (0 ≤ c ∧ c < a.blocks.width) → (0 ≤ r ∧ r < a.blocks.height) →
          tr1.count (MemEvent.alloc (MemObj.block c r)) = 1 ∧
          tr2.count (MemEvent.release (MemObj.block c r)) = 1) ∧
        tr2.count (MemEvent.release MemObj.grid) = 1 ∧
        tr2.count (MemEvent.release MemObj.handle) = 1 ∧
        ∀ live0 : List MemObj, mem_run live0 (tr1 ++ tr2) = some live0 := by
  constructor
  · intro hno
    obtain ⟨tr, htr⟩ := @UArray2b_new_mem_of_new α _ w h s bs _
      (UArray2b_new_ok w h s bs hw hh hs hb hno)
    exact ⟨_, htr⟩
  · intro a tr1 hmem
    have hnew : UArray2b_new w h s bs = some a := UArray2b_new_of_mem w h s bs (a, tr1) hmem
    have htr1 : tr1 = UArray2b_new_trace a.blocks.width a.blocks.height :=
      UArray2b_new_mem_trace w h s bs (a, tr1) hmem
    refine ⟨hnew, htr1, _, UArray2b_free_eq a (UArray2b_new_cells w h s bs a hnew), rfl,
      grid_cells_length _ _, ?_, ?_, ?_, ?_⟩
    · intro c r hc hr
      refine ⟨?_, UArray2b_free_trace_count _ _ c r hc hr⟩
      rw [htr1]
      exact UArray2b_new_trace_count _ _ c r hc hr
    · exact (UArray2b_free_trace_count_grid _ _).1
    · exact (UArray2b_free_trace_count_grid _ _).2
    · intro live0
      rw [htr1]
      exact mem_run_new_free _ _ live0

/-- Witness of C26 at the arguments of `test_new_and_basic_functions`: the 5 by
5 array with blocksize 2 has a grid of 3 by 3 blocks. -/
theorem UArray2b_new_free_no_leak_witness :
    NoOverflow 5 5 2 ∧
    ∃ tr1 tr2, (UArray2b_new_mem 5 5 4 2 : Option (UArray2b_T Nat × List MemEvent))
        = some (test_array, tr1) ∧
      UArray2b_free (some (some test_array)) = some (none, tr2) ∧
      tr1.count (MemEvent.alloc (MemObj.block 2 2)) = 1 ∧
      tr2.count (MemEvent.release (MemObj.block 2 2)) = 1 ∧
      mem_run [] (tr1 ++ tr2) = some [] := by
  have hno : NoOverflow 5 5 2 := ⟨by decide, by decide, by decide⟩
  obtain ⟨tr1, h1⟩ := @UArray2b_new_mem_of_new Nat _ 5 5 4 2 test_array test_array_new
  obtain ⟨_, _, tr2, h2, _, _, hcount, _, _, hrun⟩ :=
    (@UArray2b_new_free_no_leak Nat _ 5 5 4 2 (by decide) (by decide) (by decide)
      (by decide)).2 test_array tr1 h1
  exact ⟨hno, tr1, tr2, h1, h2, (hcount 2 2 (by decide) (by decide)).1,
    (hcount 2 2 (by decide) (by decide)).2, hrun []⟩

/-- C29. Destruction order in `UArray2b_free`: on every array a client can hold,
the events of the call are a first part that consists only of accesses to the
grid and releases of blocks and that releases the block of every grid cell,
followed by the release of the grid and then the release of the handle; so every
block is released before the grid, the grid before the handle, and nothing is
accessed through the grid after the grid has been released. -/
theorem UArray2b_free_order {α σ : Type} [Inhabited α] (w h s bs : Int)
    (a a2 : UArray2b_T α) (ops : List (Op α σ))
    (hnew : UArray2b_new w h s bs = some a) (hops : Op.runAll a ops = some a2) :
    ∃ pre, UArray2b_free (some (some a2))
        = some (none, pre ++ [MemEvent.release MemObj.grid, MemEvent.release MemObj.handle]) ∧
      (∀ e ∈ pre, e = MemEvent.access MemObj.grid ∨
        ∃ c r : Int, e = MemEvent.release (MemObj.block c r)) ∧
      ∀ c r : Int, (0 ≤ c ∧ c < a2.blocks.width) → (0 ≤ r ∧ r < a2.blocks.height) →
        MemEvent.release (MemObj.block c r) ∈ pre := by
  refine ⟨_, UArray2b_free_reachable w h s bs a a2 ops hnew hops, ?_, ?_⟩
  · intro e he
    rcases List.mem_append.mp he with h1 | h1
    · simp only [List.mem_cons, List.mem_singleton, List.mem_nil_iff, or_false, or_self] at h1
      exact Or.inl h1
    · obtain ⟨p, _, hp⟩ := List.mem_flatMap.mp h1
      simp only [List.mem_cons, List.mem_singleton, List.mem_nil_iff, or_false] at hp
      rcases hp with hp | hp
      · exact Or.inl hp
      · exact Or.inr ⟨p.1, p.2, hp⟩
  · intro c r hc hr
    refine List.mem_append_right _ (List.mem_flatMap.mpr ⟨(c, r), ?_, ?_⟩)
    · exact (mem_grid_cells _ _ (c, r)).mpr ⟨hc, hr⟩
    · simp

/-- Witness of C29: the array of `test_new_and_basic_functions` after the
program `test_ops`; its last block, at grid cell `(2, 2)`, is released before
the grid. -/
theorem UArray2b_free_order_witness :
    UArray2b_new 5 5 4 2 = some test_array ∧
    Op.runAll test_array test_ops = some test_array_after ∧
    ∃ pre, UArray2b_free (some (some test_array_after))
        = some (none, pre ++ [MemEvent.release MemObj.grid, MemEvent.release MemObj.handle]) ∧
      MemEvent.release (MemObj.block 2 2) ∈ pre := by
  obtain ⟨pre, hfree, _, hall⟩ :=
    UArray2b_free_order 5 5 4 2 test_array test_array_after test_ops test_array_new rfl
  exact ⟨test_array_new, rfl, pre, hfree, hall 2 2 (by decide) (by decide)⟩

/-- C27, amended. Clipping in `UArray2b_map`: on every array that `UArray2b_new`
returns, the active width `aw` of a block at block column `bc` of the grid is
`min(bs, width - bc*bs)`, between 1 and `bs`, and `bs` except possibly in the
last block column, and likewise the active height `ah` of a block row; a
traversal that runs to completion has called the callback, block by block, for
the in-block rows below `ah` and columns below `aw` (the list
`UArray2b_map_raw`) and for no padding slot; and the traversal runs to
completion, with the calls `UArray2b_map_visits`, when the construction did not
overflow `int`. -/
theorem UArray2b_map_clipping {α : Type} [Inhabited α] (w h s bs : Int) (a : UArray2b_T α)
    (hwm : w ≤ INT_MAX) (hhm : h ≤ INT_MAX) (hbm : bs ≤ INT_MAX)
    (hnew : UArray2b_new w h s bs = some a) :
    (a.width = w ∧ a.height = h ∧ a.blocksize = bs) ∧
    (∀ bc : Int, 0 ≤ bc → bc < a.blocks.width →
      UArray2b_map_clip bs w bc = min bs (w - bc * bs) ∧
      (1 ≤ UArray2b_map_clip bs w bc ∧ UArray2b_map_clip bs w bc ≤ bs) ∧
      (bc + 1 < a.blocks.width → UArray2b_map_clip bs w bc = bs)) ∧
    (∀ br : Int, 0 ≤ br → br < a.blocks.height →
      UArray2b_map_clip bs h br = min bs (h - br * bs) ∧
      (1 ≤ UArray2b_map_clip bs h br ∧ UArray2b_map_clip bs h br ≤ bs) ∧
      (br + 1 < a.blocks.height → UArray2b_map_clip bs h br = bs)) ∧
    (∀ calls, UArray2b_map_calls a = some calls →
      calls = UArray2b_map_raw a ∧
      ∀ v ∈ calls, (0 ≤ v.1 ∧ v.1 < w) ∧ (0 ≤ v.2.1 ∧ v.2.1 < h)) ∧
    (NoOverflow w h bs → UArray2b_map_calls a = some (UArray2b_map_visits a)) := by
  obtain ⟨hpos, ⟨e1, e2, e3, e4⟩, -⟩ := UArray2b_new_some w h s bs a hnew
  obtain ⟨hb, hcols, hrows⟩ := UArray2b_new_grid w h s bs a hwm hhm hbm hnew
  subst e1 e2 e4
  refine ⟨⟨rfl, rfl, rfl⟩, ?_, ?_, ?_, ?_⟩
  · intro bc h0 h1
    obtain ⟨hno, hg⟩ := hcols (lt_of_le_of_lt h0 h1)
    rw [hg] at h1 ⊢
    exact UArray2b_map_clip_facts _ _ bc hb hno h0 h1
  · intro br h0 h1
    obtain ⟨hno, hg⟩ := hrows (lt_of_le_of_lt h0 h1)
    rw [hg] at h1 ⊢
    exact UArray2b_map_clip_facts _ _ br hb hno h0 h1
  · intro calls hcalls
    refine ⟨UArray2b_map_calls_raw a calls hcalls, ?_⟩
    intro v hv
    have hat := UArray2b_map_calls_sound a hb hcols hrows calls hcalls v hv
    obtain ⟨hc, hr, _⟩ := UArray2b_at_some a v.1 v.2.1 v.2.2 hat
    exact ⟨hc, hr⟩
  · intro hno
    exact UArray2b_map_calls_valid a
      (UArray2b_new_valid _ _ s _ hpos.1 hpos.2.1 hpos.2.2.1 hpos.2.2.2 hno a hnew)

/-- Witness of C27 on the array of `test_new_and_basic_functions`: in the last
block column of the 5 wide array with blocksize 2 the active width is 1. -/
theorem UArray2b_map_clipping_witness :
    ((5 : Int) ≤ INT_MAX ∧ (5 : Int) ≤ INT_MAX ∧ (2 : Int) ≤ INT_MAX) ∧
    UArray2b_new 5 5 4 2 = some test_array ∧
    UArray2b_map_clip 2 5 2 = min 2 (5 - 2 * 2) ∧
    UArray2b_map_clip 2 5 2 = 1 ∧
    UArray2b_map_clip 2 5 0 = 2 ∧
    UArray2b_map_calls test_array = some (UArray2b_map_visits test_array) :=
  ⟨by decide, test_array_new,
    ((UArray2b_map_clipping 5 5 4 2 test_array (by decide) (by decide) (by decide)
      test_array_new).2.1 2 (by decide) (by decide)).1,
    by decide,
    ((UArray2b_map_clipping 5 5 4 2 test_array (by decide) (by decide) (by decide)
      test_array_new).2.1 0 (by decide) (by decide)).2.2 (by decide),
    (UArray2b_map_clipping 5 5 4 2 test_array (by decide) (by decide) (by decide)
      test_array_new).2.2.2.2 ⟨by decide, by decide, by decide⟩⟩

/-- Counterexample to C27 as stated: `UArray2b_new(1, 3, 1, 65537)` returns an
array of one block whose length `65537 * 65537` has wrapped to 131073. The
active height of the block is `min(65537, 3) = 3`, but the traversal aborts at
the in-block row 2, whose index `2 * 65537` is not a slot of the block, so the
in-block rows 0..2 are not all visited: the traversal makes no complete pass. -/
theorem UArray2b_map_clipping_aborts :
    UArray2b_new 1 3 1 65537 = some short_block_array ∧
    ((0 : Int) ≤ 0 ∧ (0 : Int) < short_block_array.blocks.width ∧
      (0 : Int) < short_block_array.blocks.height) ∧
    UArray2b_map_clip 65537 3 0 = 3 ∧
    UArray2b_map_clip 65537 3 0 = min 65537 (3 - 0 * 65537) ∧
    UArray_at (UArray2_get short_block_array.blocks (0, 0)) (int_add (int_mul 2 65537) 0)
      = none ∧
    UArray2b_map_calls short_block_array = none :=
  ⟨short_block_array_new, by decide, by decide, by decide, by decide, by decide⟩

/-- C30, amended. Inner accesses are in range when the construction does not
overflow `int`: for positive width, height, size and blocksize with
`width + blocksize - 1`, `height + blocksize - 1` and `blocksize * blocksize` at
most `INT_MAX`, `UArray2b_new` returns an array on which, for every in-bounds
`(col, row)`, `col / bs` is below the number of block columns, `row / bs` below
the number of block rows, the index `(row % bs) * bs + (col % bs)` is at least 0
and below `bs * bs`, the length of the block, and `UArray2b_at` returns; the
traversal runs to completion, and every pointer it passes to the callback has
its block in the grid and an index `i * bs + j` below `bs * bs`. -/
theorem UArray2b_inner_accesses_in_range {α : Type} [Inhabited α] (w h s bs : Int)
    (hw : 0 < w) (hh : 0 < h) (hs : 0 < s) (hb : 0 < bs) (hno : NoOverflow w h bs) :
    ∃ (a : UArray2b_T α) (calls : List (Int × Int × Slot)),
      UArray2b_new w h s bs = some a ∧
      (∀ col row : Int, (0 ≤ col ∧ col < w) → (0 ≤ row ∧ row < h) →
        (0 ≤ col / bs ∧ col / bs < a.blocks.width) ∧
        (0 ≤ row / bs ∧ row / bs < a.blocks.height) ∧
        (0 ≤ row % bs * bs + col % bs ∧ row % bs * bs + col % bs < bs * bs) ∧
        (∃ b, a.blocks.cells (col / bs) (row / bs) = some b ∧ b.length = bs * bs) ∧
        UArray2b_at a col row = some ⟨col / bs, row / bs, row % bs * bs + col % bs⟩) ∧
      UArray2b_map_calls a = some calls ∧
      ∀ v ∈ calls,
        (0 ≤ v.2.2.block_col ∧ v.2.2.block_col < a.blocks.width) ∧
        (0 ≤ v.2.2.block_row ∧ v.2.2.block_row < a.blocks.height) ∧
        (0 ≤ v.2.2.index ∧ v.2.2.index < bs * bs) ∧
        (∃ b, a.blocks.cells v.2.2.block_col v.2.2.block_row = some b ∧
          b.length = bs * bs) ∧
        ∃ i j : Int, (0 ≤ i ∧ i < bs) ∧ (0 ≤ j ∧ j < bs) ∧ v.2.2.index = i * bs + j := by
  have hnew := @UArray2b_new_ok α _ w h s bs hw hh hs hb hno
  have hv := UArray2b_new_valid w h s bs hw hh hs hb hno _ hnew
  exact ⟨_, _, hnew, fun col row hc hr => UArray2b_at_in_range _ hv col row hc hr,
    UArray2b_map_calls_valid _ hv, fun v hmem => UArray2b_map_in_range _ hv v hmem⟩

/-- Witness of C30 at the arguments of `test_new_and_basic_functions`. -/
theorem UArray2b_inner_accesses_in_range_witness :
    NoOverflow 5 5 2 ∧
    ∃ (a : UArray2b_T Nat) (calls : List (Int × Int × Slot)),
      UArray2b_new 5 5 4 2 = some a ∧
      UArray2b_at a 3 4 = some ⟨1, 2, 1⟩ ∧
      UArray2b_map_calls a = some calls := by
  have hno : NoOverflow 5 5 2 := ⟨by decide, by decide, by decide⟩
  obtain ⟨a, calls, hnew, hat, hcalls, _⟩ :=
    @UArray2b_inner_accesses_in_range Nat _ 5 5 4 2 (by decide) (by decide) (by decide)
      (by decide) hno
  exact ⟨hno, a, calls, hnew, (hat 3 4 (by decide) (by decide)).2.2.2.2, hcalls⟩

/-- Counterexample to C30 as stated: `UArray2b_new(10000, 46342, 1, 92682)` has
positive parameters and returns an array whose single block has 18532 slots,
the wrapped value of `92682 * 92682`. For the in-bounds coordinate `(0, 1)` the
index `UArray2b_at` computes is 92682, which is not below the length of the
block, and the bounds check of the block array fails. -/
theorem UArray2b_at_block_check_fails :
    UArray2b_new 10000 46342 1 92682 = some wrapped_array ∧
    (((0 : Int) ≤ 0 ∧ (0 : Int) < wrapped_array.width) ∧
      ((0 : Int) ≤ 1 ∧ (1 : Int) < wrapped_array.height)) ∧
    int_add (int_mul (int_mod 1 wrapped_array.blocksize) wrapped_array.blocksize)
      (int_mod 0 wrapped_array.blocksize) = 92682 ∧
    (wrapped_array.blocks.cells 0 0).map (fun b => b.length) = some 18532 ∧
    int_mul wrapped_array.blocksize wrapped_array.blocksize = 18532 ∧
    ¬ ((92682 : Int) < 18532) ∧
    UArray2b_at wrapped_array 0 1 = none :=
  ⟨wrapped_array_new, by decide, by decide, by decide, by decide, by decide, by decide⟩
/-- C28 (the code at a failing input). The 3 wide, 2 high image
`[[1, 2, 3], [4, 5, 6]]` rotated by 90 degrees and then by 270 degrees with the
code of `ppmtrans.c` is `[[6, 5, 4], [3, 2, 1]]`, the image rotated by 180
degrees, and not the original: the pixel at `(0, 0)` is 6 where the original
has 1. -/
theorem rotate_90_then_270_is_180 :
    (a2plain.map_row_major image_3x2 apply_90 blank_2x3).isSome = true ∧
    (rotate_90_then_270.bind fun d => UArray2_load d.pixels (0, 0)) = some 6 ∧
    (rotate_90_then_270.bind fun d => UArray2_load d.pixels (1, 0)) = some 5 ∧
    (rotate_90_then_270.bind fun d => UArray2_load d.pixels (2, 0)) = some 4 ∧
    (rotate_90_then_270.bind fun d => UArray2_load d.pixels (0, 1)) = some 3 ∧
    (rotate_90_then_270.bind fun d => UArray2_load d.pixels (1, 1)) = some 2 ∧
    (rotate_90_then_270.bind fun d => UArray2_load d.pixels (2, 1)) = some 1 ∧
    UArray2_load image_3x2 (0, 0) = some 1 ∧
    (rotate_90_then_270.bind fun d => UArray2_load d.pixels (0, 0))
      ≠ UArray2_load image_3x2 (0, 0) := by
  decide

/-- C31, amended. A write touches only its own coordinate when the construction
did not overflow `int`: on every array that satisfies the invariant `Valid` (what
`UArray2b_new` establishes without overflow, and what the write preserves), for two
distinct in-bounds coordinate pairs `(c1, r1)` and `(c2, r2)` the pointers of
`UArray2b_at` differ, and writing a value through `UArray2b_at(c1, r1)` leaves the
value read through `UArray2b_at(c2, r2)` unchanged, and leaves width, height,
element size and blocksize unchanged. -/
theorem UArray2b_write_touches_own {α : Type} (a : UArray2b_T α) (hv : Valid a)
    (c1 r1 c2 r2 : Int) (v : α)
    (hc1 : 0 ≤ c1 ∧ c1 < a.width) (hr1 : 0 ≤ r1 ∧ r1 < a.height)
    (hc2 : 0 ≤ c2 ∧ c2 < a.width) (hr2 : 0 ≤ r2 ∧ r2 < a.height)
    (hne : ¬ (c1 = c2 ∧ r1 = r2)) :
    ∃ p1 p2 a2, UArray2b_at a c1 r1 = some p1 ∧ UArray2b_at a c2 r2 = some p2 ∧ p1 ≠ p2 ∧
      Slot_store a p1 v = some a2 ∧ Valid a2 ∧
      UArray2b_at a2 c2 r2 = some p2 ∧ Slot_load a2 p2 = Slot_load a p2 ∧
      (UArray2b_at a2 c2 r2).bind (Slot_load a2) = (UArray2b_at a c2 r2).bind (Slot_load a) ∧
      (UArray2b_width a2 = UArray2b_width a ∧ UArray2b_height a2 = UArray2b_height a ∧
        UArray2b_size a2 = UArray2b_size a ∧ UArray2b_blocksize a2 = UArray2b_blocksize a) :=
  UArray2b_write_frame a hv c1 r1 c2 r2 v hc1 hr1 hc2 hr2 hne

/-- Witness of C31: on the array of `test_new_and_basic_functions`, the write of
7 at `(3, 4)` and the element at `(4, 3)`. -/
theorem UArray2b_write_touches_own_witness :
    Valid test_array ∧
    ∃ p1 p2 a2, UArray2b_at test_array 3 4 = some p1 ∧ UArray2b_at test_array 4 3 = some p2 ∧
      Slot_store test_array p1 7 = some a2 ∧
      Slot_load a2 p2 = Slot_load test_array p2 ∧
      UArray2b_width a2 = UArray2b_width test_array := by
  obtain ⟨p1, p2, a2, h1, h2, _, hst, _, _, hload, _, hacc⟩ :=
    UArray2b_write_touches_own test_array test_array_valid 3 4 4 3 7 (by decide) (by decide)
      (by decide) (by decide) (by decide)
  exact ⟨test_array_valid, p1, p2, a2, h1, h2, hst, hload, hacc.1⟩

/-- Counterexample to C31 as stated: in the array
`UArray2b_new(10000, 46342, 1, 92682)`, whose block has the wrapped length 18532,
the distinct in-bounds coordinate pairs `(0, 46341)` and `(9266, 0)` have the
same pointer; the element at `(9266, 0)` reads 0, and after the write of 7
through `UArray2b_at(0, 46341)` it reads 7. -/
theorem UArray2b_write_touches_other :
    UArray2b_new 10000 46342 1 92682 = some wrapped_array ∧
    (((0 : Int) ≤ 0 ∧ (0 : Int) < wrapped_array.width) ∧
      ((0 : Int) ≤ 46341 ∧ (46341 : Int) < wrapped_array.height)) ∧
    (((0 : Int) ≤ 9266 ∧ (9266 : Int) < wrapped_array.width) ∧
      ((0 : Int) ≤ 0 ∧ (0 : Int) < wrapped_array.height)) ∧
    ¬ ((0 : Int) = 9266 ∧ (46341 : Int) = 0) ∧
    (UArray2b_at wrapped_array 9266 0).bind (Slot_load wrapped_array) = some 0 ∧
    (((UArray2b_at wrapped_array 0 46341).bind fun p => Slot_store wrapped_array p 7).bind
      fun a2 => (UArray2b_at a2 9266 0).bind (Slot_load a2)) = some 7 :=
  ⟨wrapped_array_new, by decide, by decide, by decide, by decide, by decide⟩
/-- C32. Rotation targets stay in bounds: for a lawful method suite, a source
image of width `w` and height `h` (both `int`) and new images created as in
`main` (width `h` and height `w` for the rotations by 90 and 270 degrees, width
`w` and height `h` for 0 and 180 degrees), the destination that `apply_copy`,
`apply_90`, `apply_180` and `apply_270` compute for an in-bounds source
coordinate `(col, row)` is in bounds for the array of the new image, so the index
operation on it returns and the call completes. -/
theorem rotation_targets_in_bounds {A P α : Type} (m : A2Methods_T A P α) (ok : A → Prop)
    (hl : Lawful m ok) (src : A) (dst_same dst_swapped : Pnm_ppm A P α)
    (hm1 : dst_same.methods = m) (hok1 : ok dst_same.pixels)
    (hw1 : m.width dst_same.pixels = m.width src)
    (hh1 : m.height dst_same.pixels = m.height src)
    (hm2 : dst_swapped.methods = m) (hok2 : ok dst_swapped.pixels)
    (hw2 : m.width dst_swapped.pixels = m.height src)
    (hh2 : m.height dst_swapped.pixels = m.width src)
    (hwm : m.width src ≤ INT_MAX) (hhm : m.height src ≤ INT_MAX)
    (col row : Int) (hc : 0 ≤ col ∧ col < m.width src) (hr : 0 ≤ row ∧ row < m.height src)
    (elem : P) (helem : m.at_ src col row = some elem) :
    WritesTo m src elem dst_same (apply_copy col row src elem dst_same) (col, row) ∧
    WritesTo m src elem dst_swapped (apply_90 col row src elem dst_swapped)
      (m.height src - 1 - row, col) ∧
    WritesTo m src elem dst_same (apply_180 col row src elem dst_same)
      (m.width src - 1 - col, m.height src - 1 - row) ∧
    WritesTo m src elem dst_swapped (apply_270 col row src elem dst_swapped)
      (m.height src - 1 - row, col) := by
  have h90 : WritesTo m src elem dst_swapped (apply_90 col row src elem dst_swapped)
      (m.height src - 1 - row, col) :=
    writesTo_of_copy m ok hl src dst_swapped hm2 hok2 col row elem helem _ _
      (apply_90_step m src dst_swapped col row elem hm2 hhm hr)
      (by rw [hw2]; simp only; omega) (by rw [hh2]; exact hc)
  refine ⟨?_, h90, ?_, h90⟩
  · exact writesTo_of_copy m ok hl src dst_same hm1 hok1 col row elem helem _ _ rfl
      (by rw [hw1]; exact hc) (by rw [hh1]; exact hr)
  · have e := apply_180_step m src dst_same col row elem hm1 (by rw [hw1]; exact hwm)
      (by rw [hh1]; exact hhm) (by rw [hw1]; exact hc) (by rw [hh1]; exact hr)
    rw [hw1, hh1] at e
    exact writesTo_of_copy m ok hl src dst_same hm1 hok1 col row elem helem _ _ e
      (by rw [hw1]; simp only; omega) (by rw [hh1]; simp only; omega)

/-- Witness of C32: the new images `main` creates for the 3 wide, 2 high image
on the plain backend, and the source pixel at `(2, 1)`. -/
theorem rotation_targets_in_bounds_witness :
    main_trans_image 90 ppm_3x2 = some blank_2x3 ∧
    main_trans_image 270 ppm_3x2 = some blank_2x3 ∧
    main_trans_image 0 ppm_3x2 = some blank_3x2 ∧
    main_trans_image 180 ppm_3x2 = some blank_3x2 ∧
    WritesTo uarray2_methods_plain image_3x2 (2, 1) blank_3x2
      (apply_copy 2 1 image_3x2 (2, 1) blank_3x2) (2, 1) ∧
    WritesTo uarray2_methods_plain image_3x2 (2, 1) blank_2x3
      (apply_90 2 1 image_3x2 (2, 1) blank_2x3) (0, 2) ∧
    WritesTo uarray2_methods_plain image_3x2 (2, 1) blank_3x2
      (apply_180 2 1 image_3x2 (2, 1) blank_3x2) (0, 0) ∧
    WritesTo uarray2_methods_plain image_3x2 (2, 1) blank_2x3
      (apply_270 2 1 image_3x2 (2, 1) blank_2x3) (0, 2) :=
  ⟨rfl, rfl, rfl, rfl,
    rotation_targets_in_bounds uarray2_methods_plain (fun _ => True)
      uarray2_methods_plain_lawful image_3x2 blank_3x2 blank_2x3 rfl trivial rfl rfl
      rfl trivial rfl rfl (by decide) (by decide) 2 1 (by decide) (by decide) (2, 1)
      (by decide)⟩

/-- C33. The transformed image does not depend on the traversal order: for a
lawful method suite, a source image of width `w` and height `h` and new images
created as in `main`, each of `apply_copy`, `apply_90`, `apply_180` and
`apply_270` copies the source pixel at `(col, row)` to a destination that is an
injective function of the in-bounds `(col, row)`; any two traversals that visit
every source element exactly once complete and leave the same image; and every
pixel of the new image is written by exactly one call of a traversal. -/
theorem transform_order_independent {A P α : Type} (m : A2Methods_T A P α) (ok : A → Prop)
    (hl : Lawful m ok) (src : A) (dst_same dst_swapped : Pnm_ppm A P α)
    (hm1 : dst_same.methods = m) (hok1 : ok dst_same.pixels)
    (hw1 : m.width dst_same.pixels = m.width src)
    (hh1 : m.height dst_same.pixels = m.height src)
    (hm2 : dst_swapped.methods = m) (hok2 : ok dst_swapped.pixels)
    (hw2 : m.width dst_swapped.pixels = m.height src)
    (hh2 : m.height dst_swapped.pixels = m.width src)
    (hwm : m.width src ≤ INT_MAX) (hhm : m.height src ≤ INT_MAX) :
    OrderIndependent m src dst_same apply_copy (fun c r => (c, r)) ∧
    OrderIndependent m src dst_swapped apply_90 (fun c r => (m.height src - 1 - r, c)) ∧
    OrderIndependent m src dst_same apply_180
      (fun c r => (m.width src - 1 - c, m.height src - 1 - r)) ∧
    OrderIndependent m src dst_swapped apply_270 (fun c r => (m.height src - 1 - r, c)) :=
  ⟨order_independent_copy m ok hl src dst_same hm1 hok1 hw1 hh1,
    order_independent_90 m ok hl src dst_swapped hm2 hok2 hw2 hh2 hhm,
    order_independent_180 m ok hl src dst_same hm1 hok1 hw1 hh1 hwm hhm,
    order_independent_90 m ok hl src dst_swapped hm2 hok2 hw2 hh2 hhm⟩

/-- Witness of C33: the row-major and the column-major traversal of the 3
wide, 2 high image with `apply_90` on the plain backend leave the same image. -/
theorem transform_order_independent_witness :
    FullTraversal (uarray2_methods_plain : A2Methods_T (UArray2_T Nat) (Int × Int) Nat)
      image_3x2 row_major_3x2 ∧
    FullTraversal (uarray2_methods_plain : A2Methods_T (UArray2_T Nat) (Int × Int) Nat)
      image_3x2 col_major_3x2 ∧
    ∃ d1 d2, run_map apply_90 image_3x2 row_major_3x2 blank_2x3 = some d1 ∧
      run_map apply_90 image_3x2 col_major_3x2 blank_2x3 = some d2 ∧
      SameImage uarray2_methods_plain d1 d2 :=
  ⟨row_major_3x2_full, col_major_3x2_full,
    (transform_order_independent uarray2_methods_plain (fun _ => True)
      uarray2_methods_plain_lawful image_3x2 blank_3x2 blank_2x3 rfl trivial rfl rfl
      rfl trivial rfl rfl (by decide) (by decide)).2.1.2.2.1 row_major_3x2 col_major_3x2
      row_major_3x2_full col_major_3x2_full⟩
/-- C34. With blocksize 1, block-major traversal coincides with row-major
traversal: for every positive width and height (of type `int`) and element size,
`UArray2b_new(width, height, size, 1)` returns an array on which `UArray2b_map`
runs to completion and calls the callback at `(0,0), (1,0), ..., (width-1,0),
(0,1), ...`, the list `grid_cells width height`, that is in increasing order of
`row * width + col` and in the order of the row-major traversal of a plain array
of the same dimensions; the grid has `width` by `height` blocks of one slot, so
no slot is padding: the allocated slots are `width * height`. -/
theorem UArray2b_map_blocksize_one {α : Type} [Inhabited α] (w h s : Int)
    (hw : 0 < w) (hh : 0 < h) (hs : 0 < s) (hwm : w ≤ INT_MAX) (hhm : h ≤ INT_MAX) :
    ∃ (a : UArray2b_T α) (calls : List (Int × Int × Slot)),
      UArray2b_new w h s 1 = some a ∧ UArray2b_map_calls a = some calls ∧
      calls = (grid_cells w h).map (fun p => (p.1, p.2, (⟨p.1, p.2, 0⟩ : Slot))) ∧
      calls.map (fun v => (v.1, v.2.1)) = grid_cells w h ∧
      List.Pairwise (fun v1 v2 : Int × Int × Slot =>
        v1.2.1 * w + v1.1 < v2.2.1 * w + v2.1) calls ∧
      (∀ p : UArray2_T α, p.width = w → p.height = h →
        a2plain.map_row_major p (fun col row _ _ log => some (log ++ [(col, row)])) []
          = some (calls.map (fun v => (v.1, v.2.1)))) ∧
      (a.blocks.width = w ∧ a.blocks.height = h) ∧
      UArray2b_slots a = w * h := by
  have hno : NoOverflow w h 1 := ⟨by linarith, by linarith, by decide⟩
  have hnew := @UArray2b_new_ok α _ w h s 1 hw hh hs (by decide) hno
  have hv := UArray2b_new_valid w h s 1 hw hh hs (by decide) hno _ hnew
  obtain ⟨hgrid, hvis⟩ := visits_blocksize_one _ hv rfl
  have hcoords : ((grid_cells w h).map (fun p => (p.1, p.2, (⟨p.1, p.2, 0⟩ : Slot)))).map
      (fun v => (v.1, v.2.1)) = grid_cells w h := by
    rw [List.map_map]
    exact List.map_id _
  refine ⟨_, _, hnew, (UArray2b_map_calls_valid _ hv).trans (congrArg some hvis), rfl,
    hcoords, ?_, ?_, hgrid, ?_⟩
  · exact List.pairwise_map.mpr (grid_cells_sorted w h)
  · intro p hpw hph
    rw [hcoords, ← hpw, ← hph]
    exact map_row_major_coords p
  · rw [UArray2b_slots_valid _ hv, hgrid.1, hgrid.2]
    show w * h * (1 * 1) = w * h
    ring

/-- Witness of C34: the 1 by 1 array of `test_edge_cases` and a 3 wide, 2 high
array, both with blocksize 1. -/
theorem UArray2b_map_blocksize_one_witness :
    (∃ a : UArray2b_T Nat, UArray2b_new 1 1 4 1 = some a ∧
      UArray2b_map_calls a = some [(0, 0, ⟨0, 0, 0⟩)] ∧ UArray2b_slots a = 1) ∧
    ∃ a : UArray2b_T Nat, UArray2b_new 3 2 4 1 = some a ∧
      UArray2b_map_calls a = some [(0, 0, ⟨0, 0, 0⟩), (1, 0, ⟨1, 0, 0⟩), (2, 0, ⟨2, 0, 0⟩),
        (0, 1, ⟨0, 1, 0⟩), (1, 1, ⟨1, 1, 0⟩), (2, 1, ⟨2, 1, 0⟩)] ∧
      UArray2b_slots a = 6 := by
  obtain ⟨a, calls, hnew, hcalls, hlist, _, _, _, _, hslots⟩ :=
    @UArray2b_map_blocksize_one Nat _ 1 1 4 (by decide) (by decide) (by decide) (by decide)
      (by decide)
  obtain ⟨a2, calls2, hnew2, hcalls2, hlist2, _, _, _, _, hslots2⟩ :=
    @UArray2b_map_blocksize_one Nat _ 3 2 4 (by decide) (by decide) (by decide) (by decide)
      (by decide)
  refine ⟨⟨a, hnew, ?_, hslots⟩, a2, hnew2, ?_, hslots2⟩
  · rw [hcalls, hlist]
    rfl
  · rw [hcalls2, hlist2]
    rfl

/-- C35, amended. With a single block, block-major traversal coincides with
row-major traversal when `blocksize * blocksize` does not overflow `int`: for
positive width, height and element size and a blocksize that is at least the
width and the height and whose square is at most `INT_MAX`, `UArray2b_new`
returns an array whose grid is 1 by 1, `UArray2b_map` runs to completion and calls
the callback in increasing order of `row * width + col` (the list
`grid_cells width height`), and `UArray2b_at(col, row)` addresses the offset
`row * blocksize + col` of that one block. -/
theorem UArray2b_map_single_block {α : Type} [Inhabited α] (w h s bs : Int)
    (hw : 0 < w) (hh : 0 < h) (hs : 0 < s) (hwb : w ≤ bs) (hhb : h ≤ bs)
    (hsq : bs * bs ≤ INT_MAX) :
    ∃ (a : UArray2b_T α) (calls : List (Int × Int × Slot)),
      UArray2b_new w h s bs = some a ∧ (a.blocks.width = 1 ∧ a.blocks.height = 1) ∧
      UArray2b_map_calls a = some calls ∧
      calls = (grid_cells w h).map (fun p => (p.1, p.2, (⟨0, 0, p.2 * bs + p.1⟩ : Slot))) ∧
      calls.map (fun v => (v.1, v.2.1)) = grid_cells w h ∧
      List.Pairwise (fun v1 v2 : Int × Int × Slot =>
        v1.2.1 * w + v1.1 < v2.2.1 * w + v2.1) calls ∧
      ∀ col row : Int, (0 ≤ col ∧ col < w) → (0 ≤ row ∧ row < h) →
        UArray2b_at a col row = some ⟨0, 0, row * bs + col⟩ := by
  have hb : 0 < bs := lt_of_lt_of_le hw hwb
  have h2 : 2 * bs - 1 ≤ bs * bs := by nlinarith [sq_nonneg (bs - 1)]
  have hno : NoOverflow w h bs := ⟨by linarith, by linarith, hsq⟩
  have hnew := @UArray2b_new_ok α _ w h s bs hw hh hs hb hno
  have hv := UArray2b_new_valid w h s bs hw hh hs hb hno _ hnew
  obtain ⟨hgrid, hvis⟩ := visits_single_block _ hv hwb hhb
  have hcoords : ((grid_cells w h).map
      (fun p => (p.1, p.2, (⟨0, 0, p.2 * bs + p.1⟩ : Slot)))).map
      (fun v => (v.1, v.2.1)) = grid_cells w h := by
    rw [List.map_map]
    exact List.map_id _
  refine ⟨_, _, hnew, hgrid, (UArray2b_map_calls_valid _ hv).trans (congrArg some hvis), rfl,
    hcoords, List.pairwise_map.mpr (grid_cells_sorted w h), ?_⟩
  intro col row hc hr
  have hat := UArray2b_at_valid _ hv col row hc.1 hc.2 hr.1 hr.2
  have hcb : col < bs := lt_of_lt_of_le hc.2 hwb
  have hrb : row < bs := lt_of_lt_of_le hr.2 hhb
  rw [hat]
  show some (⟨col / bs, row / bs, row % bs * bs + col % bs⟩ : Slot) = _
  rw [Int.ediv_eq_zero_of_lt hc.1 hcb, Int.ediv_eq_zero_of_lt hr.1 hrb,
    Int.emod_eq_of_lt hc.1 hcb, Int.emod_eq_of_lt hr.1 hrb]

/-- Witness of C35: the 3 wide, 2 high array with blocksize 4. -/
theorem UArray2b_map_single_block_witness :
    ((3 : Int) ≤ 4 ∧ (2 : Int) ≤ 4 ∧ (4 : Int) * 4 ≤ INT_MAX) ∧
    ∃ a : UArray2b_T Nat, UArray2b_new 3 2 4 4 = some a ∧
      UArray2b_map_calls a = some [(0, 0, ⟨0, 0, 0⟩), (1, 0, ⟨0, 0, 1⟩), (2, 0, ⟨0, 0, 2⟩),
        (0, 1, ⟨0, 0, 4⟩), (1, 1, ⟨0, 0, 5⟩), (2, 1, ⟨0, 0, 6⟩)] ∧
      UArray2b_at a 2 1 = some ⟨0, 0, 6⟩ := by
  obtain ⟨a, calls, hnew, _, hcalls, hlist, _, _, hat⟩ :=
    @UArray2b_map_single_block Nat _ 3 2 4 4 (by decide) (by decide) (by decide) (by decide)
      (by decide) (by decide)
  refine ⟨by decide, a, hnew, ?_, hat 2 1 (by decide) (by decide)⟩
  rw [hcalls, hlist]
  rfl

/-- Counterexample to C35 as stated: `UArray2b_new(1, 3, 1, 65537)` has a
blocksize above its width and height and a grid of 1 by 1, but the length of
its block is 131073, the wrapped value of `65537 * 65537`: `UArray2b_at(0, 2)`,
whose offset `2 * 65537 + 0` is not a slot of the block, fails, and the
traversal aborts there. -/
theorem UArray2b_single_block_fails :
    UArray2b_new 1 3 1 65537 = some short_block_array ∧
    (max short_block_array.width short_block_array.height ≤ short_block_array.blocksize) ∧
    (short_block_array.blocks.width = 1 ∧ short_block_array.blocks.height = 1) ∧
    (((0 : Int) ≤ 0 ∧ (0 : Int) < short_block_array.width) ∧
      ((0 : Int) ≤ 2 ∧ (2 : Int) < short_block_array.height)) ∧
    UArray2b_at short_block_array 0 1 = some ⟨0, 0, 65537⟩ ∧
    UArray2b_at short_block_array 0 2 = none ∧
    UArray2b_at short_block_array 0 2
      ≠ some ⟨0, 0, 2 * short_block_array.blocksize + 0⟩ ∧
    UArray2b_map_calls short_block_array = none :=
  ⟨short_block_array_new, by decide, by decide, by decide, by decide, by decide, by decide,
    by decide⟩

end Locality
